import Mathlib

/-!
Barnes-Hut N-body simulation: octree builder, force evaluator, collision pass, integrator.

A shallow embedding of `src/bodygen.hpp` and `src/bodygen.cpp`.

* `long double` is modelled by an arbitrary linearly ordered field `K` (exact arithmetic); the
  library function `sqrt` of `<cmath>` is a parameter `sqrt : K → K`.  Theorems that depend on
  what `sqrt` computes assume `0 ≤ sqrt x` and `sqrt x * sqrt x = x` for `0 ≤ x`, which
  `Real.sqrt` satisfies.  Division by zero, which yields an infinity or a NaN in the program, is
  `0` in a field; the theorems keep to inputs on which the program does not divide by zero, or
  do not depend on the quotient.
* The decimal literals of the source (`0.3`, `0.5`, `6.67E-11`) are their exact decimal values.
* `array<long double,3>` is `Fin 3 → K`; `operator+`, `operator-` and the scalar `operator*` of
  the source are the pointwise `+`, `-` and `•`.
* `vector<body>` is `List (body K)`.
* `Node*` is `Node K`: `Node.null` is the `NULL` pointer, `Node.mk` a pointer to a `Node` struct.
* The recursion of `Spacetree::makeatree` is not structural, so the embedding takes a fuel
  argument (the recursion depth it may use) and returns `none` when the fuel runs out.
-/

/-! ## Data model (`bodygen.hpp`) -/

/-- The class `body`. -/
structure body (K : Type) where
  position : Fin 3 → K
  velocity : Fin 3 → K
  acceleration : Fin 3 → K
  newacceleration : Fin 3 → K
  mass : K
  radius : K
  index : Int

/-- The class `region`; each range is the pair (minimum, maximum). -/
structure region (K : Type) where
  xrange : K × K
  yrange : K × K
  zrange : K × K
  bodiesinregion : List (body K)
  regnodepath : String
  checkcol : Bool

/-- The type `Node*`: `null` is `NULL`, `mk` points to a `struct Node` with its seven fields. -/
inductive Node (K : Type) where
  | null : Node K
  | mk (isleaf : Bool) (nodepath : String) (cog : Fin 3 → K) (cogmass : K) (extent : K)
      (solebody : body K) (Nodelist : Fin 8 → Node K) : Node K

/-- One file written by the loop of `bodygen::simulate` (lines 609-616): the number `ccount` at
the end of its name and the vector written into it.  The field `iteration` is not in the
source: it records the value of the loop counter `i` at the write, to state when a file is
written. -/
structure snapshot (K : Type) where
  iteration : Nat
  suffix : Int
  contents : List (body K)

/-- The variables of the loop of `bodygen::simulate`: the members `datatree` and `bodyvector`,
the locals `j` and `ccount`, and the files written so far. -/
structure simstate (K : Type) where
  datatree : Node K
  bodyvector : List (body K)
  j : Nat
  ccount : Int
  files : List (snapshot K)

section Defs

variable {K : Type} [LinearOrderedField K]

/-- The global `long double G = 6.67E-11`. -/
def G : K := 667 / 10 ^ 13

/-- Content of a `body` that the program never initialises (the `solebody` of an internal node,
"garbage data that will not be referenced"). -/
def body.garbage : body K :=
  { position := 0, velocity := 0, acceleration := 0, newacceleration := 0,
    mass := 0, radius := 0, index := 0 }

/-! ## Array and string operators (`bodygen.cpp`, lines 40-240) -/

/-- The dot product `operator*(array, array)`: `sum = sum + v1[i]*v2[i]` for `i = 0, 1, 2`. -/
def dot (v1 v2 : Fin 3 → K) : K :=
  (List.finRange 3).foldl (fun sum i => sum + v1 i * v2 i) 0

/-- The comparison `operator>=(array, array)`: every component of `v1` is `>=` that of `v2`. -/
def arrge (v1 v2 : Fin 3 → K) : Bool :=
  (List.finRange 3).all (fun i => decide (v1 i ≥ v2 i))

/-- The comparison `operator<(array, array)`: every component of `v1` is `<` that of `v2`. -/
def arrlt (v1 v2 : Fin 3 → K) : Bool :=
  (List.finRange 3).all (fun i => decide (v1 i < v2 i))

/-- The loop of `operator==(const string&, const string&)` on the characters: for every
`i < a.size()` the characters `a[i]` and `b[i]` are compared, and the first difference returns
`false`.  At `i = b.size()` the read `b[i]` yields the terminating NUL; reads further out are
undefined in the source and are modelled as NUL as well. -/
def streqAux : List Char → List Char → Bool
  | [], _ => true
  | a :: as, [] => if a ≠ Char.ofNat 0 then false else streqAux as []
  | a :: as, b :: bs => if a ≠ b then false else streqAux as bs

/-- The overloaded `operator==(const string&, const string&)`. -/
def streq (a b : String) : Bool := streqAux a.data b.data

/-- The function `moodulus`: the square root of the sum of the squared components. -/
def moodulus (sqrt : K → K) (v : Fin 3 → K) : K :=
  sqrt ((List.finRange 3).foldl (fun sum i => sum + v i * v i) 0)

/-! ## `Spacetree::updatecollision` (lines 315-353) -/

/-- The assignment `b.velocity = v`. -/
def body.setvelocity (b : body K) (v : Fin 3 → K) : body K := { b with velocity := v }

/-- Line 341: the constant `fact1` for the bodies `bi = bodyvector[i]`, `bj = bodyvector[j]`. -/
def fact1 (sqrt : K → K) (bi bj : body K) : K :=
  2 * bj.mass * dot (bi.velocity - bj.velocity) (bi.position - bj.position) /
    ((bi.mass + bj.mass) * moodulus sqrt (bi.position - bj.position) *
      moodulus sqrt (bi.position - bj.position))

/-- Line 342: the constant `fact2`. -/
def fact2 (sqrt : K → K) (bi bj : body K) : K :=
  2 * bi.mass * dot (bj.velocity - bi.velocity) (bj.position - bi.position) /
    ((bi.mass + bj.mass) * moodulus sqrt (bi.position - bj.position) *
      moodulus sqrt (bi.position - bj.position))

/-- Lines 341-346: the velocity update of the pair `i`, `j`.  Both factors are computed from the
velocities before either is written, and `i ≠ j` at the call, so the second write reads the
velocity that `bodyvector[j]` had before the first. -/
def collidepair (sqrt : K → K) (bodyvector : List (body K)) (i j : Nat) : List (body K) :=
  match bodyvector[i]?, bodyvector[j]? with
  | some bi, some bj =>
    (bodyvector.set i
      (bi.setvelocity (bi.velocity - fact1 sqrt bi bj • (bi.position - bj.position)))).set j
      (bj.setvelocity (bj.velocity - fact2 sqrt bi bj • (bj.position - bi.position)))
  | _, _ => bodyvector

/-- Line 339: the overlap test of the bodies at positions `i` and `j` of the vector. -/
def overlaps (sqrt : K → K) (bodyvector : List (body K)) (i j : Nat) : Bool :=
  match bodyvector[i]?, bodyvector[j]? with
  | some bi, some bj =>
    decide (moodulus sqrt (bi.position - bj.position) < bi.radius + bj.radius)
  | _, _ => false

/-- The body of the inner loop (lines 322-349) for the pair `i`, `j`; the state is the vector of
bodies together with the vector `indices` of bodies already used. -/
def collidestep (sqrt : K → K) (i : Nat) (st : List (body K) × List Nat) (j : Nat) :
    List (body K) × List Nat :=
  if i = j then st
  else if st.2.any (fun k => decide (i = k) || decide (j = k)) then st
  else if overlaps sqrt st.1 i j then (collidepair sqrt st.1 i j, st.2 ++ [i, j])
  else st

/-- The two nested loops of `Spacetree::updatecollision`, with the final `indices` vector. -/
def collideloops (sqrt : K → K) (bodyvector : List (body K)) : List (body K) × List Nat :=
  (List.range bodyvector.length).foldl
    (fun st i => (List.range bodyvector.length).foldl (collidestep sqrt i) st) (bodyvector, [])

/-- The method `Spacetree::updatecollision`. -/
def Spacetree.updatecollision (sqrt : K → K) (bodyvector : List (body K)) : List (body K) :=
  (collideloops sqrt bodyvector).1

/-! ## `Spacetree::makeatree` (lines 362-489) -/

/-- Lines 383-390, first half: the total mass. -/
def totmassOf (regbods : List (body K)) : K :=
  regbods.foldl (fun totmass b => totmass + b.mass) 0

/-- Lines 383-390, second half: the largest radius. -/
def maxradOf (regbods : List (body K)) : K :=
  regbods.foldl (fun maxrad b => if b.radius > maxrad then b.radius else maxrad) 0

/-- Lines 391-394: the centre of gravity. -/
def tempcogOf (regbods : List (body K)) (totmass : K) : Fin 3 → K :=
  regbods.foldl (fun tempcog b => tempcog + (b.mass / totmass) • b.position) 0

/-- Lines 395-398: the sum of the distances to the centre of gravity. -/
def extentOf (sqrt : K → K) (regbods : List (body K)) (tempcog : Fin 3 → K) : K :=
  regbods.foldl (fun extent b => extent + moodulus sqrt (b.position - tempcog)) 0

/-- Line 402: the value stored in `pointer->extent`. -/
def nodeextent (sqrt : K → K) (regbods : List (body K)) : K :=
  2 * extentOf sqrt regbods (tempcogOf regbods (totmassOf regbods)) / (regbods.length : K)

/-- Lines 406-410: the collision pass and the flag. -/
def collisionpass (sqrt : K → K) (reg : region K) : region K :=
  if nodeextent sqrt reg.bodiesinregion < 10 * maxradOf reg.bodiesinregion && !reg.checkcol then
    { reg with
      bodiesinregion := Spacetree.updatecollision sqrt reg.bodiesinregion, checkcol := true }
  else reg

/-- The lower half `{r[0], r[0] + (r[1] - r[0])/2}` of a range. -/
def lowerhalf (r : K × K) : K × K := (r.1, r.1 + (r.2 - r.1) / 2)

/-- The upper half `{r[0] + (r[1] - r[0])/2, r[1]}` of a range. -/
def upperhalf (r : K × K) : K × K := (r.1 + (r.2 - r.1) / 2, r.2)

/-- Lines 419-449: the x, y and z ranges of the eight entries of `regionlist`. -/
def octantbox (reg : region K) : Fin 8 → (K × K) × (K × K) × (K × K) :=
  ![(lowerhalf reg.xrange, lowerhalf reg.yrange, lowerhalf reg.zrange),
    (upperhalf reg.xrange, lowerhalf reg.yrange, lowerhalf reg.zrange),
    (lowerhalf reg.xrange, upperhalf reg.yrange, lowerhalf reg.zrange),
    (upperhalf reg.xrange, upperhalf reg.yrange, lowerhalf reg.zrange),
    (lowerhalf reg.xrange, lowerhalf reg.yrange, upperhalf reg.zrange),
    (upperhalf reg.xrange, lowerhalf reg.yrange, upperhalf reg.zrange),
    (lowerhalf reg.xrange, upperhalf reg.yrange, upperhalf reg.zrange),
    (upperhalf reg.xrange, upperhalf reg.yrange, upperhalf reg.zrange)]

/-- Line 417: the array `pathnames`. -/
def pathnames : Fin 8 → String :=
  !["dll", "dlr", "dal", "dar", "ull", "ulr", "ual", "uar"]

/-- Line 461: the half-open test of a position against the ranges of a box. -/
def inbox (xrange yrange zrange : K × K) (position : Fin 3 → K) : Bool :=
  arrge position ![xrange.1, yrange.1, zrange.1] && arrlt position ![xrange.2, yrange.2, zrange.2]

/-- Lines 452-480: the region `regionlist[i]` once the loop has filled it.  The source assigns
the flag `checkcol` only for an octant that received a body (the only ones it recurses into);
for the others the flag is never read and the model gives it the same value. -/
def subregion (reg : region K) (i : Fin 8) : region K :=
  { xrange := (octantbox reg i).1
    yrange := (octantbox reg i).2.1
    zrange := (octantbox reg i).2.2
    bodiesinregion := reg.bodiesinregion.filter (fun b =>
      inbox (octantbox reg i).1 (octantbox reg i).2.1 (octantbox reg i).2.2 b.position)
    regnodepath := reg.regnodepath ++ pathnames i
    checkcol := reg.checkcol }

/-- Lines 366-375: the leaf built for a region whose only body is `b`; `addnulls` sets the eight
children to `NULL`. -/
def leafnode (nodepath : String) (b : body K) : Node K :=
  Node.mk true nodepath b.position b.mass 0 b (fun _ => Node.null)

/-- The method `Spacetree::makeatree`, with the recursion depth bounded by the fuel. -/
def Spacetree.makeatree (sqrt : K → K) : Nat → region K → Option (Node K)
  | 0, _ => none
  | fuel + 1, reg =>
    match reg.bodiesinregion with
    | [b] => some (leafnode reg.regnodepath b)
    | regbods =>
      let kids : Fin 8 → Option (Node K) := fun i =>
        if (subregion (collisionpass sqrt reg) i).bodiesinregion.length ≥ 1 then
          Spacetree.makeatree sqrt fuel (subregion (collisionpass sqrt reg) i)
        else some Node.null
      if ∀ i, (kids i).isSome then
        some (Node.mk false reg.regnodepath (tempcogOf regbods (totmassOf regbods))
          (totmassOf regbods) (nodeextent sqrt regbods) body.garbage
          (fun i => (kids i).getD Node.null))
      else none

/-- The method `Spacetree::treegen`: the flag is cleared and the tree is built. -/
def Spacetree.treegen (sqrt : K → K) (fuel : Nat) (regi : region K) : Option (Node K) :=
  Spacetree.makeatree sqrt fuel { regi with checkcol := false }

/-! ## Force evaluator (lines 779-853) -/

/-- The test `p == NULL` on a node pointer. -/
def Node.isnull : Node K → Bool
  | Node.null => true
  | Node.mk _ _ _ _ _ _ _ => false

/-- The field access `p->nodepath` (the program never dereferences `NULL`; the model reads the
empty string there). -/
def Node.nodepath : Node K → String
  | Node.null => ""
  | Node.mk _ nodepath _ _ _ _ _ => nodepath

/-- The field access `p->solebody` (on `NULL`: the uninitialised body). -/
def Node.solebody : Node K → body K
  | Node.null => body.garbage
  | Node.mk _ _ _ _ _ solebody _ => solebody

/-- The method `bodygen::comparetree`.  The `return` inside the loop leaves the loop at the first
child that is not `NULL`. -/
def bodygen.comparetree (root : Node K) : Node K → Bool
  | Node.null => false
  | Node.mk _ treepath _ _ _ _ Nodelist =>
    if streq root.nodepath treepath then true
    else
      (List.finRange 8).foldr (fun i rest =>
        if (Nodelist i).isnull then rest else bodygen.comparetree root (Nodelist i)) false

/-- Lines 841-843: the node `tree` taken as one point mass acting on the body of the leaf. -/
def addpointmass (sqrt : K → K) (solebody : body K) (cog : Fin 3 → K) (cogmass : K) : body K :=
  let A := G * cogmass / (moodulus sqrt (cog - solebody.position) *
    moodulus sqrt (cog - solebody.position) * moodulus sqrt (cog - solebody.position))
  let B := cog - solebody.position
  { solebody with newacceleration := solebody.newacceleration + A • B }

/-- The assignment to `p->solebody`. -/
def Node.setsolebody : Node K → body K → Node K
  | Node.null, _ => Node.null
  | Node.mk isleaf nodepath cog cogmass extent _ Nodelist, b =>
    Node.mk isleaf nodepath cog cogmass extent b Nodelist

/-- The method `bodygen::updatesingleacceleration`.  In the source `root` is a node of the tree
that is traversed and is updated in place; the traversal reads only `nodepath`, `Nodelist`,
`extent`, `cog`, `cogmass` and `isleaf` of the nodes of the tree, none of which the update of
`root->solebody.newacceleration` changes, so the tree is passed as it was before the call. -/
def bodygen.updatesingleacceleration (sqrt : K → K) (root : Node K) : Node K → Node K
  | Node.null => root
  | Node.mk isleaf treepath cog cogmass extent solebody Nodelist =>
    if !bodygen.comparetree root (Node.mk isleaf treepath cog cogmass extent solebody Nodelist)
        && (decide (extent / moodulus sqrt (root.solebody.position - cog) < 3 / 10) || isleaf) then
      root.setsolebody (addpointmass sqrt root.solebody cog cogmass)
    else
      (List.finRange 8).foldl
        (fun r i => bodygen.updatesingleacceleration sqrt r (Nodelist i)) root

/-- The method `bodygen::updateallacceleration`; `wholetree` is read as it was before the call
(see `bodygen.updatesingleacceleration`). -/
def bodygen.updateallacceleration (sqrt : K → K) (wholetree : Node K) : Node K → Node K
  | Node.null => Node.null
  | Node.mk isleaf nodepath cog cogmass extent solebody Nodelist =>
    if isleaf then
      bodygen.updatesingleacceleration sqrt
        (Node.mk isleaf nodepath cog cogmass extent solebody Nodelist) wholetree
    else
      Node.mk isleaf nodepath cog cogmass extent solebody
        (fun i => bodygen.updateallacceleration sqrt wholetree (Nodelist i))

/-- The force evaluator of the specification with the opening-angle threshold as a parameter:
`bodygen.updatesingleacceleration` with `threshold` in the place of the constant `0.3`. -/
def updatesingleacceleration_threshold (sqrt : K → K) (threshold : K) (root : Node K) :
    Node K → Node K
  | Node.null => root
  | Node.mk isleaf treepath cog cogmass extent solebody Nodelist =>
    if !bodygen.comparetree root (Node.mk isleaf treepath cog cogmass extent solebody Nodelist)
        && (decide (extent / moodulus sqrt (root.solebody.position - cog) < threshold)
          || isleaf) then
      root.setsolebody (addpointmass sqrt root.solebody cog cogmass)
    else
      (List.finRange 8).foldl
        (fun r i => updatesingleacceleration_threshold sqrt threshold r (Nodelist i)) root

/-- The traversal over all leaves with the threshold as a parameter:
`bodygen.updateallacceleration` over `updatesingleacceleration_threshold`. -/
def updateallacceleration_threshold (sqrt : K → K) (threshold : K) (wholetree : Node K) :
    Node K → Node K
  | Node.null => Node.null
  | Node.mk isleaf nodepath cog cogmass extent solebody Nodelist =>
    if isleaf then
      updatesingleacceleration_threshold sqrt threshold
        (Node.mk isleaf nodepath cog cogmass extent solebody Nodelist) wholetree
    else
      Node.mk isleaf nodepath cog cogmass extent solebody
        (fun i => updateallacceleration_threshold sqrt threshold wholetree (Nodelist i))

/-! ## Integrator (lines 861-885) -/

/-- Lines 869-874: the velocity-Verlet step of the body of a leaf. -/
def verletstep (timestep : K) (solebody : body K) : body K :=
  let sumacc := solebody.acceleration + solebody.newacceleration
  { solebody with
    position := solebody.position + timestep • solebody.velocity +
      (1 / 2 * timestep * timestep) • solebody.acceleration
    velocity := solebody.velocity + (1 / 2 * timestep) • sumacc
    acceleration := solebody.newacceleration
    newacceleration := 0 }

/-- Line 875: the write `bodyvector[index] = b`.  An index outside the vector is undefined
behaviour in the source; the model leaves the vector as it is. -/
def storewrite (bodyvector : List (body K)) (index : Int) (b : body K) : List (body K) :=
  if 0 ≤ index then bodyvector.set index.toNat b else bodyvector

/-- The method `bodygen::update`: the tree and the member `bodyvector` after the call.  The
children are visited in the order 0 to 7 and the vector is threaded through the visits. -/
def bodygen.update (timestep : K) : Node K → List (body K) → Node K × List (body K)
  | Node.null, bodyvector => (Node.null, bodyvector)
  | Node.mk isleaf nodepath cog cogmass extent solebody Nodelist, bodyvector =>
    if isleaf then
      (Node.mk isleaf nodepath cog cogmass extent (verletstep timestep solebody) Nodelist,
        storewrite bodyvector (verletstep timestep solebody).index (verletstep timestep solebody))
    else
      let r := (List.finRange 8).foldl
        (fun (acc : (Fin 8 → Node K) × List (body K)) i =>
          (Function.update acc.1 i (bodygen.update timestep (Nodelist i) acc.2).1,
            (bodygen.update timestep (Nodelist i) acc.2).2))
        (Nodelist, bodyvector)
      (Node.mk isleaf nodepath cog cogmass extent solebody r.1, r.2)

/-! ## Driver (lines 603-657) -/

/-- The value of `k2` in the loop over the axes: the entry of `minmax` holding the minimum of
axis `k`. -/
def minindex : Fin 3 → Fin 6 := ![0, 2, 4]

/-- The entry `k2 + 1` of `minmax`, holding the maximum of axis `k`. -/
def maxindex : Fin 3 → Fin 6 := ![1, 3, 5]

/-- Lines 645-652: the body of the loop over the axes, for the body `b` and the axis `k`. -/
def axisstep (b : body K) (minmax : Fin 6 → K) (k : Fin 3) : Fin 6 → K :=
  if b.position k < minmax (minindex k) then
    Function.update minmax (minindex k) (b.position k)
  else if b.position k > minmax (maxindex k) then
    Function.update minmax (maxindex k) (b.position k)
  else minmax

/-- Lines 642-654: the loop over the three axes for one body. -/
def minmaxstep (minmax : Fin 6 → K) (b : body K) : Fin 6 → K :=
  (List.finRange 3).foldl (axisstep b) minmax

/-- The method `bodygen::calcminmax` over the member `bodyvector`; `minmax` starts as six
zeros. -/
def bodygen.calcminmax (bodyvector : List (body K)) : Fin 6 → K :=
  bodyvector.foldl minmaxstep 0

/-- Lines 620-624 (and 762-766): the member `space` handed to `Spacetree`: the ranges are the
entries of `calcminmax` moved out by 1, the bodies are `bodyvector`; the path of `space` is
never assigned and stays empty.  The two sums are taken without rounding; `paddedspace` has
them as parameters and `ldspace` rounds them to `long double`. -/
def spaceregion (bodyvector : List (body K)) : region K :=
  { xrange := (bodygen.calcminmax bodyvector 0 - 1, bodygen.calcminmax bodyvector 1 + 1)
    yrange := (bodygen.calcminmax bodyvector 2 - 1, bodygen.calcminmax bodyvector 3 + 1)
    zrange := (bodygen.calcminmax bodyvector 4 - 1, bodygen.calcminmax bodyvector 5 + 1)
    bodiesinregion := bodyvector
    regnodepath := ""
    checkcol := false }

/-- Lines 592-594, 621-623 and 763-765 with the two `long double` sums as parameters: `low x`
is the value that the program computes for `x - 1` and `high x` the value that it computes for
`x + 1`.  `spaceregion` is this region for sums without rounding. -/
def paddedspace (low high : K → K) (bodyvector : List (body K)) : region K :=
  { xrange := (low (bodygen.calcminmax bodyvector 0), high (bodygen.calcminmax bodyvector 1))
    yrange := (low (bodygen.calcminmax bodyvector 2), high (bodygen.calcminmax bodyvector 3))
    zrange := (low (bodygen.calcminmax bodyvector 4), high (bodygen.calcminmax bodyvector 5))
    bodiesinregion := bodyvector
    regnodepath := ""
    checkcol := false }

/-- Lines 607-608: the first two statements of an iteration of `bodygen::simulate`, on the tree
`datatree` and the store `bodyvector`. -/
def forceandupdate (sqrt : K → K) (timestep : K) (datatree : Node K)
    (bodyvector : List (body K)) : Node K × List (body K) :=
  bodygen.update timestep (bodygen.updateallacceleration sqrt datatree datatree) bodyvector

/-! ## Observations on trees used to state the properties -/

/-- The bodies held by the leaves of a tree, children in the order 0 to 7. -/
def leafbodies : Node K → List (body K)
  | Node.null => []
  | Node.mk isleaf _ _ _ _ solebody Nodelist =>
    if isleaf then [solebody] else (List.finRange 8).flatMap (fun i => leafbodies (Nodelist i))

/-- The field `cogmass` of a node, and zero for an absent child. -/
def Node.cogmassOr0 : Node K → K
  | Node.null => 0
  | Node.mk _ _ _ cogmass _ _ _ => cogmass

/-- The number of levels of internal nodes above the deepest leaf. -/
def Node.height : Node K → Nat
  | Node.null => 0
  | Node.mk isleaf _ _ _ _ _ Nodelist =>
    if isleaf then 0 else 1 + (Finset.univ : Finset (Fin 8)).sup (fun i => (Nodelist i).height)

/-- The octant of the box of `reg` that the half-open test assigns a position of the box to: bit
0 of the index says whether the position is in the upper x half, bit 1 the same for y, bit 2 for
z. -/
def octantof (reg : region K) (p : Fin 3 → K) : Fin 8 :=
  if reg.xrange.1 + (reg.xrange.2 - reg.xrange.1) / 2 ≤ p 0 then
    if reg.yrange.1 + (reg.yrange.2 - reg.yrange.1) / 2 ≤ p 1 then
      if reg.zrange.1 + (reg.zrange.2 - reg.zrange.1) / 2 ≤ p 2 then 7 else 3
    else
      if reg.zrange.1 + (reg.zrange.2 - reg.zrange.1) / 2 ≤ p 2 then 5 else 1
  else
    if reg.yrange.1 + (reg.yrange.2 - reg.yrange.1) / 2 ≤ p 1 then
      if reg.zrange.1 + (reg.zrange.2 - reg.zrange.1) / 2 ≤ p 2 then 6 else 2
    else
      if reg.zrange.1 + (reg.zrange.2 - reg.zrange.1) / 2 ≤ p 2 then 4 else 0

/-- Every body of the region passes the half-open test of the box of the region. -/
def region.allinbox (reg : region K) : Prop :=
  ∀ b ∈ reg.bodiesinregion, inbox reg.xrange reg.yrange reg.zrange b.position = true

/-- The side lengths of the box of a region. -/
def region.width (reg : region K) : Fin 3 → K :=
  ![reg.xrange.2 - reg.xrange.1, reg.yrange.2 - reg.yrange.1, reg.zrange.2 - reg.zrange.1]

/-- Separation at depth `d`: any two bodies of the region differ on some axis by at least the
side length of the box on that axis divided by `2^d`. -/
def region.separated (reg : region K) (d : Nat) : Prop :=
  (reg.bodiesinregion.map body.position).Pairwise
    (fun p q => ∃ k : Fin 3, reg.width k ≤ |p k - q k| * 2 ^ d)

/-- The exact pairwise acceleration of the body `self` due to the body `other`:
`G * m_other * (p_other - p_self) / |p_other - p_self|^3`. -/
def pairacceleration (sqrt : K → K) (self other : body K) : Fin 3 → K :=
  fun k => G * other.mass * (other.position k - self.position k) /
    moodulus sqrt (other.position - self.position) ^ 3

/-- The shape of the tree of a region of two bodies: internal nodes that all carry the
statistics `c`, `M`, `e` of the pair; a chain of nodes with one child each, down to the node
where the two bodies part into the leaves `la` and `lb`. -/
inductive TwoTree (la lb : Node K) (c : Fin 3 → K) (M e : K) : Node K → Prop
  | split (path : String) (sb : body K) (kids : Fin 8 → Node K) (i j : Fin 8) (hij : i ≠ j)
      (hi : kids i = la) (hj : kids j = lb) (hk : ∀ k, k ≠ i → k ≠ j → kids k = Node.null) :
      TwoTree la lb c M e (Node.mk false path c M e sb kids)
  | chain (path : String) (sb : body K) (kids : Fin 8 → Node K) (i : Fin 8)
      (hi : TwoTree la lb c M e (kids i)) (hk : ∀ k, k ≠ i → kids k = Node.null) :
      TwoTree la lb c M e (Node.mk false path c M e sb kids)

/-- The body `b` after one resolved collision with the body `c`: line 345 with `b` in the place
of `bodyvector[i]` and `c` in the place of `bodyvector[j]` (line 346 is the same formula with
the two bodies exchanged). -/
def collided (sqrt : K → K) (b c : body K) : body K :=
  b.setvelocity (b.velocity - fact1 sqrt b c • (b.position - c.position))

/-- The body `l` is a body of `inputs` as it was, or after one resolved collision with another
body of `inputs`. -/
def onecollision (sqrt : K → K) (inputs : List (body K)) (l : body K) : Prop :=
  ∃ b ∈ inputs, l = b ∨ ∃ c ∈ inputs, l = collided sqrt b c

/-- The half-open overlap test of line 339 on two bodies. -/
def bodiesoverlap (sqrt : K → K) (b c : body K) : Prop :=
  moodulus sqrt (b.position - c.position) < b.radius + c.radius

/-- The list of positions used by a list of resolved pairs, in the order in which the pass
pushes them onto `indices` (lines 347-348). -/
def pairindices (ps : List (Nat × Nat)) : List Nat := ps.flatMap (fun p => [p.1, p.2])

/-- The vector `out` is `orig` after the pairs `ps` were resolved: no position occurs in two
pairs, the bodies outside the pairs are untouched, and the two bodies of a pair overlapped and
each holds the collision formula applied to the two bodies of `orig`. -/
def resolvedpairs (sqrt : K → K) (orig out : List (body K)) (ps : List (Nat × Nat)) : Prop :=
  (pairindices ps).Nodup ∧
  (∀ k, k ∉ pairindices ps → out[k]? = orig[k]?) ∧
  ∀ p ∈ ps, p.1 ≠ p.2 ∧ ∃ bi bj, orig[p.1]? = some bi ∧ orig[p.2]? = some bj ∧
    bodiesoverlap sqrt bi bj ∧
    out[p.1]? = some (collided sqrt bi bj) ∧ out[p.2]? = some (collided sqrt bj bi)

/-- The partner relation of the specification of the pass: `j` is another position than `i`,
the bodies of `orig` at `i` and `j` overlap, and the velocities of `out` at `i` and at `j` are
those of the collision formula applied to the two bodies of `orig`. -/
def partnerof (sqrt : K → K) (orig out : List (body K)) (i j : Nat) : Prop :=
  j ≠ i ∧ ∃ bi bj ci cj, orig[i]? = some bi ∧ orig[j]? = some bj ∧
    out[i]? = some ci ∧ out[j]? = some cj ∧ bodiesoverlap sqrt bi bj ∧
    ci.velocity = (collided sqrt bi bj).velocity ∧ cj.velocity = (collided sqrt bj bi).velocity

/-- What identifies a body: its index and its position. -/
def bodykey (b : body K) : Int × (Fin 3 → K) := (b.index, b.position)

/-- The mass invariant: at every internal node of the tree, `cogmass` is the sum of the
`cogmass` of the children that are present. -/
def Node.massinv : Node K → Prop
  | Node.null => True
  | Node.mk isleaf _ _ cogmass _ _ Nodelist =>
    isleaf = true ∨
      (cogmass = ∑ i : Fin 8, (Nodelist i).cogmassOr0 ∧ ∀ i, (Nodelist i).massinv)

/-- A body with its velocity blanked: everything the collision pass must not touch. -/
def body.frame (b : body K) : body K := { b with velocity := 0 }

/-- Total momentum of a vector of bodies. -/
def momentum (bodyvector : List (body K)) : Fin 3 → K :=
  (bodyvector.map (fun b => b.mass • b.velocity)).sum

/-- Total kinetic energy of a vector of bodies. -/
def kinetic (bodyvector : List (body K)) : K :=
  (bodyvector.map (fun b => 1 / 2 * b.mass * dot b.velocity b.velocity)).sum

/-! ## The loop of `bodygen::simulate` (lines 596-629) -/

/-- Lines 607-627: one pass through the body of the loop of `bodygen::simulate`, with the loop
counter `i`.  The result is `none` when the tree build runs out of fuel.  The local `ccount` is
an `int`; the model keeps it as an integer without wrap-around. -/
def simstep (sqrt : K → K) (fuel : Nat) (timestep : K) (st : simstate K) (i : Nat) :
    Option (simstate K) :=
  let r := forceandupdate sqrt timestep st.datatree st.bodyvector
  let w : Nat × Int × List (snapshot K) :=
    if st.j = 100 then (0, st.ccount + 1, st.files ++ [⟨i, st.ccount, r.2⟩])
    else (st.j, st.ccount, st.files)
  match Spacetree.treegen sqrt fuel (spaceregion r.2) with
  | none => none
  | some t => some ⟨t, r.2, w.1 + 1, w.2.1, w.2.2⟩

/-- Lines 605-628: the state after the first `n` passes of the loop (`i = 0, ..., n - 1`). -/
def simulateloop (sqrt : K → K) (fuel : Nat) (timestep : K) (st0 : simstate K) :
    Nat → Option (simstate K)
  | 0 => some st0
  | n + 1 =>
    match simulateloop sqrt fuel timestep st0 n with
    | none => none
    | some st => simstep sqrt fuel timestep st n

/-- The method `bodygen::simulate` from the point where `bodyvector` is filled: the first tree
(lines 592-597, or the end of `makebodies`), then `iterations` passes of the loop starting with
`j = 0`, `ccount = 0` and no file written. -/
def bodygen.simulate (sqrt : K → K) (fuel : Nat) (timestep : K) (bodyvector : List (body K))
    (iterations : Nat) : Option (simstate K) :=
  match Spacetree.treegen sqrt fuel (spaceregion bodyvector) with
  | none => none
  | some t => simulateloop sqrt fuel timestep ⟨t, bodyvector, 0, 0, []⟩ iterations

/-! ## Observations used to state the properties of the force evaluator and of the driver -/

/-- A body with its pending acceleration blanked: everything that `updateallacceleration` must
not touch. -/
def body.nopending (b : body K) : body K := { b with newacceleration := 0 }

/-- A tree with the pending acceleration of the body of every node blanked; the shape and all
other fields of the nodes are kept. -/
def Node.nopending : Node K → Node K
  | Node.null => Node.null
  | Node.mk isleaf nodepath cog cogmass extent solebody Nodelist =>
    Node.mk isleaf nodepath cog cogmass extent solebody.nopending
      (fun i => (Nodelist i).nopending)

/-- The field `cog` of a node, and zero for an absent child. -/
def Node.cogOr0 : Node K → Fin 3 → K
  | Node.null => 0
  | Node.mk _ _ cog _ _ _ _ => cog

/-- The leaf nodes of a tree, children in the order 0 to 7. -/
def leafnodes : Node K → List (Node K)
  | Node.null => []
  | Node.mk isleaf nodepath cog cogmass extent solebody Nodelist =>
    if isleaf then [Node.mk isleaf nodepath cog cogmass extent solebody Nodelist]
    else (List.finRange 8).flatMap (fun i => leafnodes (Nodelist i))

/-- The nodes that the traversal `updatesingleacceleration(root, tree)` takes as point masses,
in the order of the traversal: the control flow of lines 839-851 of
`bodygen.updatesingleacceleration` without the update of the body of `root`.  The test reads
only the path and the position of `root`, which the update does not change. -/
def usedpointmasses (sqrt : K → K) (root : Node K) : Node K → List (Node K)
  | Node.null => []
  | Node.mk isleaf treepath cog cogmass extent solebody Nodelist =>
    if !bodygen.comparetree root (Node.mk isleaf treepath cog cogmass extent solebody Nodelist)
        && (decide (extent / moodulus sqrt (root.solebody.position - cog) < 3 / 10) || isleaf) then
      [Node.mk isleaf treepath cog cogmass extent solebody Nodelist]
    else (List.finRange 8).flatMap (fun i => usedpointmasses sqrt root (Nodelist i))

end Defs

/-! ## Rounding of the padding in `long double` -/

/-- Two overlapping unit balls on the x axis approaching each other, and a third body far
away. -/
def collidingbodies : List (body ℝ) :=
  [⟨![0, 0, 0], ![1, 0, 0], 0, 0, 2, 1, 0⟩, ⟨![1, 0, 0], ![-1, 0, 0], 0, 0, 3, 1, 1⟩,
    ⟨![9, 0, 0], ![0, 1, 0], 0, 0, 1, 1, 2⟩]

/-- Three bodies in the box [0,8)^3: two overlapping ones in the same octant and a third one in
another octant. -/
def threebodies : region ℝ :=
  { xrange := (0, 8), yrange := (0, 8), zrange := (0, 8)
    bodiesinregion :=
      [⟨![2, 2, 2], ![1, 0, 0], 0, 0, 2, 1, 0⟩, ⟨![3, 2, 2], ![-1, 0, 0], 0, 0, 3, 1, 1⟩,
        ⟨![6, 2, 2], ![0, 1, 0], 0, 0, 1, 1, 2⟩]
    regnodepath := ""
    checkcol := false }

/-- The region `threebodies` with the collision flag already set. -/
def flaggedregion : region ℝ := { threebodies with checkcol := true }

/-- Two bodies of masses 2 and 3 in the box [0,8)^3, at rest, with zero pending acceleration. -/
def twobodies : region ℝ :=
  { xrange := (0, 8), yrange := (0, 8), zrange := (0, 8)
    bodiesinregion :=
      [⟨![2, 2, 2], 0, 0, 0, 2, 1, 0⟩, ⟨![6, 2, 2], 0, 0, 0, 3, 1, 1⟩]
    regnodepath := ""
    checkcol := false }

/-- Eight bodies on the x axis in the box [0,1024)^3: a heavy cluster at x = 0, ..., 6 (total
mass 996, centre of mass at x = 3) and a light body of mass 1 at x = 1000; the centre of gravity
of all eight is at x = 4. -/
def clusterregion : region ℝ :=
  { xrange := (0, 1024), yrange := (0, 1024), zrange := (0, 1024)
    bodiesinregion :=
      [⟨![0, 0, 0], 0, 0, 0, 142, 0, 0⟩, ⟨![1, 0, 0], 0, 0, 0, 142, 0, 1⟩,
        ⟨![2, 0, 0], 0, 0, 0, 142, 0, 2⟩, ⟨![3, 0, 0], 0, 0, 0, 144, 0, 3⟩,
        ⟨![4, 0, 0], 0, 0, 0, 142, 0, 4⟩, ⟨![5, 0, 0], 0, 0, 0, 142, 0, 5⟩,
        ⟨![6, 0, 0], 0, 0, 0, 142, 0, 6⟩, ⟨![1000, 0, 0], 0, 0, 0, 1, 0, 7⟩]
    regnodepath := ""
    checkcol := false }

/-- Four bodies of mass 1 and radius 2 on the x axis at x = 0, 1, 2, 3, any two of which
overlap; the outer two move with velocity 1, the inner two are at rest. -/
def swapbodies : List (body ℝ) :=
  [⟨![0, 0, 0], ![1, 0, 0], 0, 0, 1, 2, 0⟩, ⟨![1, 0, 0], ![0, 0, 0], 0, 0, 1, 2, 1⟩,
    ⟨![2, 0, 0], ![0, 0, 0], 0, 0, 1, 2, 2⟩, ⟨![3, 0, 0], ![1, 0, 0], 0, 0, 1, 2, 3⟩]

/-- Scenario A: two bodies of mass 1e30 at (-1e11, 0, 0) and (1e11, 0, 0), at rest, with zero
acceleration and zero pending acceleration. -/
def scenarioA : List (body ℝ) :=
  [⟨![-10 ^ 11, 0, 0], 0, 0, 0, 10 ^ 30, 1, 0⟩, ⟨![10 ^ 11, 0, 0], 0, 0, 0, 10 ^ 30, 1, 1⟩]

/-- The box [0,8)^3 without bodies. -/
def emptyregion : region ℝ :=
  { xrange := (0, 8), yrange := (0, 8), zrange := (0, 8)
    bodiesinregion := []
    regnodepath := ""
    checkcol := false }

/-- Two bodies at the same position (2, 2, 2) in the box [0,8)^3. -/
def coincidentregion : region ℝ :=
  { xrange := (0, 8), yrange := (0, 8), zrange := (0, 8)
    bodiesinregion :=
      [⟨![2, 2, 2], 0, 0, 0, 2, 1, 0⟩, ⟨![2, 2, 2], 0, 0, 0, 3, 1, 1⟩]
    regnodepath := ""
    checkcol := false }

/-- Three bodies for the box [0,8)^3, the third one on the face x = 8 of the box. -/
def boundaryregion : region ℝ :=
  { xrange := (0, 8), yrange := (0, 8), zrange := (0, 8)
    bodiesinregion :=
      [⟨![2, 2, 2], 0, 0, 0, 2, 1, 0⟩, ⟨![6, 2, 2], 0, 0, 0, 3, 1, 1⟩,
        ⟨![8, 2, 2], 0, 0, 0, 5, 1, 2⟩]
    regnodepath := ""
    checkcol := false }

/-- A store of one body at (2, 2, 2) moving with velocity (1, 0, 0). -/
def singlestore : List (body ℝ) := [⟨![2, 2, 2], ![1, 0, 0], 0, 0, 1, 1, 0⟩]

/-! ## The collision pass: what it keeps and what it conserves -/

section Collision

variable {K : Type} [LinearOrderedField K]

theorem finRange_three : List.finRange 3 = [0, 1, 2] := rfl

theorem finRange_eight : List.finRange 8 = [0, 1, 2, 3, 4, 5, 6, 7] := rfl

theorem dot_eq (v w : Fin 3 → K) : dot v w = v 0 * w 0 + v 1 * w 1 + v 2 * w 2 := by
  simp [dot, finRange_three]

theorem moodulus_eq (sqrt : K → K) (v : Fin 3 → K) :
    moodulus sqrt v = sqrt (dot v v) := by
  simp [moodulus, dot]

theorem dot_self_nonneg (v : Fin 3 → K) : 0 ≤ dot v v := by
  rw [dot_eq]
  nlinarith [mul_self_nonneg (v 0), mul_self_nonneg (v 1), mul_self_nonneg (v 2)]

theorem dot_self_pos (v : Fin 3 → K) (hv : v ≠ 0) : 0 < dot v v := by
  rw [dot_eq]
  have h : ∃ k, v k ≠ 0 := by
    by_contra hcon
    push_neg at hcon
    exact hv (funext hcon)
  obtain ⟨k, hk⟩ := h
  have h0 := mul_self_nonneg (v 0)
  have h1 := mul_self_nonneg (v 1)
  have h2 := mul_self_nonneg (v 2)
  fin_cases k
  · have h3 : 0 < v 0 * v 0 := mul_self_pos.mpr hk
    linarith
  · have h3 : 0 < v 1 * v 1 := mul_self_pos.mpr hk
    linarith
  · have h3 : 0 < v 2 * v 2 := mul_self_pos.mpr hk
    linarith

theorem foldl_invariant {α β : Type} (P : β → Prop) (f : β → α → β) (l : List α) (b : β)
    (h0 : P b) (hstep : ∀ b a, P b → P (f b a)) : P (l.foldl f b) := by
  induction l generalizing b with
  | nil => exact h0
  | cons a l ih => exact ih (f b a) (hstep b a h0)

/-- Whatever every resolved pair keeps, the whole pass keeps. -/
theorem collideloops_preserves (sqrt : K → K) (orig : List (body K))
    (P : List (body K) → Prop) (h0 : P orig)
    (hstep : ∀ bv i j, P bv → i ≠ j → overlaps sqrt bv i j = true →
      P (collidepair sqrt bv i j)) :
    P (Spacetree.updatecollision sqrt orig) := by
  unfold Spacetree.updatecollision collideloops
  refine foldl_invariant (fun st : List (body K) × List Nat => P st.1) _ _ _ h0 ?_
  intro st i hst
  refine foldl_invariant (fun st : List (body K) × List Nat => P st.1) _ _ _ hst ?_
  intro st2 j hst2
  unfold collidestep
  split_ifs with h1 h2 h3
  · exact hst2
  · exact hst2
  · exact hstep _ _ _ hst2 h1 h3
  · exact hst2

theorem overlaps_some (sqrt : K → K) (bv : List (body K)) (i j : Nat)
    (h : overlaps sqrt bv i j = true) : ∃ bi bj, bv[i]? = some bi ∧ bv[j]? = some bj := by
  unfold overlaps at h
  split at h
  · exact ⟨_, _, by assumption, by assumption⟩
  · simp at h

theorem sum_map_set {α M : Type} [AddCommGroup M] (f : α → M) (l : List α) (i : Nat)
    (x b : α) (h : l[i]? = some b) :
    ((l.set i x).map f).sum + f b = (l.map f).sum + f x := by
  induction l generalizing i with
  | nil => simp at h
  | cons a l ih =>
    cases i with
    | zero =>
      simp at h
      subst h
      simp
      abel
    | succ n =>
      simp at h
      have := ih n h
      simp only [List.set_cons_succ, List.map_cons, List.sum_cons]
      rw [add_assoc, this]
      abel

theorem sum_map_set_set {α M : Type} [AddCommGroup M] (f : α → M) (l : List α)
    (i j : Nat) (x y bi bj : α) (hij : i ≠ j) (hi : l[i]? = some bi)
    (hj : l[j]? = some bj) (hxy : f x + f y = f bi + f bj) :
    (((l.set i x).set j y).map f).sum = (l.map f).sum := by
  have h1 := sum_map_set f l i x bi hi
  have hj2 : (l.set i x)[j]? = some bj := by rw [List.getElem?_set_ne hij]; exact hj
  have h2 := sum_map_set f (l.set i x) j y bj hj2
  have h3 : (((l.set i x).set j y).map f).sum + (f bi + f bj) =
      (l.map f).sum + (f bi + f bj) := by
    calc (((l.set i x).set j y).map f).sum + (f bi + f bj)
        = ((((l.set i x).set j y).map f).sum + f bj) + f bi := by abel
      _ = (((l.set i x).map f).sum + f y) + f bi := by rw [h2]
      _ = (((l.set i x).map f).sum + f bi) + f y := by abel
      _ = ((l.map f).sum + f x) + f y := by rw [h1]
      _ = (l.map f).sum + (f x + f y) := by abel
      _ = (l.map f).sum + (f bi + f bj) := by rw [hxy]
  exact add_right_cancel h3

theorem map_set_same {α β : Type} (f : α → β) (l : List α) (i : Nat) (x b : α)
    (h : l[i]? = some b) (hx : f x = f b) : (l.set i x).map f = l.map f := by
  induction l generalizing i with
  | nil => simp
  | cons a l ih =>
    cases i with
    | zero =>
      simp at h
      subst h
      simp [hx]
    | succ n =>
      simp at h
      simp [ih n h]

theorem frame_setvelocity (b : body K) (v : Fin 3 → K) : (b.setvelocity v).frame = b.frame :=
  rfl

/-- The collision pass touches nothing but velocities. -/
theorem collidepair_frame (sqrt : K → K) (bv : List (body K)) (i j : Nat) (hij : i ≠ j) :
    (collidepair sqrt bv i j).map body.frame = bv.map body.frame := by
  unfold collidepair
  split
  · rename_i bi bj hi hj
    have hj2 : ∀ x, (bv.set i x)[j]? = some bj := fun x => by
      rw [List.getElem?_set_ne hij]; exact hj
    rw [map_set_same body.frame (bv.set i _) j (bj.setvelocity _) bj (hj2 _)
        (frame_setvelocity _ _),
      map_set_same body.frame bv i (bi.setvelocity _) bi hi (frame_setvelocity _ _)]
  · rfl

theorem updatecollision_frame (sqrt : K → K) (bv : List (body K)) :
    (Spacetree.updatecollision sqrt bv).map body.frame = bv.map body.frame := by
  apply collideloops_preserves sqrt bv (fun l => l.map body.frame = bv.map body.frame) rfl
  intro l i j hl hij _
  rw [collidepair_frame sqrt l i j hij, hl]

/-- Momentum of a resolved pair: `m_i * fact1 = m_j * fact2`, so the two changes cancel. -/
theorem pair_momentum (sqrt : K → K) (bi bj : body K) :
    bi.mass • (bi.velocity - fact1 sqrt bi bj • (bi.position - bj.position)) +
      bj.mass • (bj.velocity - fact2 sqrt bi bj • (bj.position - bi.position)) =
    bi.mass • bi.velocity + bj.mass • bj.velocity := by
  have hf : bi.mass * fact1 sqrt bi bj = bj.mass * fact2 sqrt bi bj := by
    unfold fact1 fact2
    rw [dot_eq, dot_eq]
    simp only [Pi.sub_apply]
    ring
  funext k
  simp only [Pi.add_apply, Pi.smul_apply, Pi.sub_apply, smul_eq_mul]
  linear_combination (bj.position k - bi.position k) * hf

theorem collidepair_momentum (sqrt : K → K) (bv : List (body K)) (i j : Nat) (hij : i ≠ j) :
    momentum (collidepair sqrt bv i j) = momentum bv := by
  unfold collidepair
  split
  · rename_i bi bj hi hj
    exact sum_map_set_set (fun b : body K => b.mass • b.velocity) bv i j
      (bi.setvelocity _) (bj.setvelocity _) bi bj hij hi hj (pair_momentum sqrt bi bj)
  · rfl

theorem updatecollision_momentum (sqrt : K → K) (bv : List (body K)) :
    momentum (Spacetree.updatecollision sqrt bv) = momentum bv := by
  apply collideloops_preserves sqrt bv (fun l => momentum l = momentum bv) rfl
  intro l i j hl hij _
  rw [collidepair_momentum sqrt l i j hij, hl]

theorem moodulus_mul_self (sqrt : K → K) (hsqrt : ∀ x, 0 ≤ x → sqrt x * sqrt x = x)
    (v : Fin 3 → K) : moodulus sqrt v * moodulus sqrt v = dot v v := by
  rw [moodulus_eq]
  exact hsqrt _ (dot_self_nonneg v)

/-- Kinetic energy of a resolved pair, for an exact square root, positive masses and distinct
positions. -/
theorem pair_kinetic (sqrt : K → K) (hsqrt : ∀ x, 0 ≤ x → sqrt x * sqrt x = x)
    (bi bj : body K) (hmi : 0 < bi.mass) (hmj : 0 < bj.mass)
    (hp : bi.position ≠ bj.position) :
    1 / 2 * bi.mass * dot (bi.velocity - fact1 sqrt bi bj • (bi.position - bj.position))
        (bi.velocity - fact1 sqrt bi bj • (bi.position - bj.position)) +
      1 / 2 * bj.mass * dot (bj.velocity - fact2 sqrt bi bj • (bj.position - bi.position))
        (bj.velocity - fact2 sqrt bi bj • (bj.position - bi.position)) =
    1 / 2 * bi.mass * dot bi.velocity bi.velocity +
      1 / 2 * bj.mass * dot bj.velocity bj.velocity := by
  have hd : bi.position - bj.position ≠ 0 := sub_ne_zero.mpr hp
  have hS : 0 < dot (bi.position - bj.position) (bi.position - bj.position) :=
    dot_self_pos _ hd
  have hM : 0 < bi.mass + bj.mass := add_pos hmi hmj
  have h1 : fact1 sqrt bi bj =
      2 * bj.mass * dot (bi.velocity - bj.velocity) (bi.position - bj.position) /
        ((bi.mass + bj.mass) * dot (bi.position - bj.position) (bi.position - bj.position)) := by
    unfold fact1
    rw [mul_assoc (bi.mass + bj.mass), moodulus_mul_self sqrt hsqrt]
  have h2 : fact2 sqrt bi bj =
      2 * bi.mass * dot (bi.velocity - bj.velocity) (bi.position - bj.position) /
        ((bi.mass + bj.mass) * dot (bi.position - bj.position) (bi.position - bj.position)) := by
    unfold fact2
    rw [mul_assoc (bi.mass + bj.mass), moodulus_mul_self sqrt hsqrt]
    congr 2
    rw [dot_eq, dot_eq]
    simp only [Pi.sub_apply]
    ring
  have hD : (bi.mass + bj.mass) *
      dot (bi.position - bj.position) (bi.position - bj.position) ≠ 0 :=
    mul_ne_zero (ne_of_gt hM) (ne_of_gt hS)
  have hc := div_mul_cancel₀
    (dot (bi.velocity - bj.velocity) (bi.position - bj.position)) hD
  rw [mul_div_assoc] at h1 h2
  rw [h1, h2]
  generalize dot (bi.velocity - bj.velocity) (bi.position - bj.position) /
    ((bi.mass + bj.mass) * dot (bi.position - bj.position) (bi.position - bj.position)) = c
    at hc
  simp only [dot_eq, Pi.sub_apply, Pi.smul_apply, smul_eq_mul] at hc ⊢
  linear_combination (2 * bi.mass * bj.mass * c) * hc

theorem collidepair_kinetic (sqrt : K → K) (hsqrt : ∀ x, 0 ≤ x → sqrt x * sqrt x = x)
    (bv : List (body K)) (hm : ∀ b ∈ bv, 0 < b.mass)
    (hp : (bv.map body.position).Nodup) (i j : Nat) (hij : i ≠ j) :
    kinetic (collidepair sqrt bv i j) = kinetic bv := by
  unfold collidepair
  split
  · rename_i bi bj hi hj
    have hib := List.getElem?_eq_some.mp hi
    have hjb := List.getElem?_eq_some.mp hj
    obtain ⟨hil, hie⟩ := hib
    obtain ⟨hjl, hje⟩ := hjb
    have hmi : 0 < bi.mass := hm bi (hie ▸ List.getElem_mem hil)
    have hmj : 0 < bj.mass := hm bj (hje ▸ List.getElem_mem hjl)
    have hpp : bi.position ≠ bj.position := by
      intro hcon
      have hil2 : i < (bv.map body.position).length := by simpa using hil
      have hjl2 : j < (bv.map body.position).length := by simpa using hjl
      have h3 : (bv.map body.position)[i] = (bv.map body.position)[j] := by
        simp [hie, hje, hcon]
      exact hij ((List.Nodup.getElem_inj_iff hp).mp h3)
    exact sum_map_set_set (fun b : body K => 1 / 2 * b.mass * dot b.velocity b.velocity) bv i j
      (bi.setvelocity _) (bj.setvelocity _) bi bj hij hi hj
      (pair_kinetic sqrt hsqrt bi bj hmi hmj hpp)
  · rfl

theorem map_position_of_frame (l1 l2 : List (body K))
    (h : l1.map body.frame = l2.map body.frame) :
    l1.map body.position = l2.map body.position := by
  have := congrArg (List.map body.position) h
  simpa [List.map_map, Function.comp_def, body.frame] using this

theorem map_mass_of_frame (l1 l2 : List (body K))
    (h : l1.map body.frame = l2.map body.frame) :
    l1.map body.mass = l2.map body.mass := by
  have := congrArg (List.map body.mass) h
  simpa [List.map_map, Function.comp_def, body.frame] using this

theorem updatecollision_kinetic (sqrt : K → K) (hsqrt : ∀ x, 0 ≤ x → sqrt x * sqrt x = x)
    (bv : List (body K)) (hm : ∀ b ∈ bv, 0 < b.mass)
    (hp : (bv.map body.position).Nodup) :
    kinetic (Spacetree.updatecollision sqrt bv) = kinetic bv := by
  have key := collideloops_preserves sqrt bv
    (fun l => l.map body.frame = bv.map body.frame ∧ kinetic l = kinetic bv) ⟨rfl, rfl⟩ ?_
  · exact key.2
  · intro l i j hl hij _
    obtain ⟨hfr, hk⟩ := hl
    refine ⟨by rw [collidepair_frame sqrt l i j hij, hfr], ?_⟩
    rw [collidepair_kinetic sqrt hsqrt l ?_ ?_ i j hij, hk]
    · intro b hb
      have hmem : b.mass ∈ l.map body.mass := List.mem_map_of_mem _ hb
      rw [map_mass_of_frame l bv hfr] at hmem
      obtain ⟨b2, hb2, hb2m⟩ := List.mem_map.mp hmem
      rw [← hb2m]
      exact hm b2 hb2
    · rw [map_position_of_frame l bv hfr]
      exact hp

end Collision

/-! ## Conservation laws of the collision pass -/

section CollisionClaims

variable {K : Type} [LinearOrderedField K]

theorem collidepair_getElem (sqrt : K → K) (l : List (body K)) (i j : Nat) (bi bj : body K)
    (hij : i ≠ j) (hi : l[i]? = some bi) (hj : l[j]? = some bj) :
    (collidepair sqrt l i j)[i]? =
      some (bi.setvelocity (bi.velocity - fact1 sqrt bi bj • (bi.position - bj.position))) ∧
    (collidepair sqrt l i j)[j]? =
      some (bj.setvelocity (bj.velocity - fact2 sqrt bi bj • (bj.position - bi.position))) := by
  obtain ⟨hil, _⟩ := List.getElem?_eq_some.mp hi
  obtain ⟨hjl, _⟩ := List.getElem?_eq_some.mp hj
  unfold collidepair
  rw [hi, hj]
  simp only []
  constructor
  · rw [List.getElem?_set_ne (Ne.symm hij), List.getElem?_set]
    simp [hil]
  · rw [List.getElem?_set]
    simp [hjl]

/-- C9: one pass of `Spacetree::updatecollision` over bodies with positive masses and pairwise
distinct positions leaves the total momentum (the sum of `mass_i * velocity_i`) unchanged; and
every single resolution of a pair `i`, `j` leaves the momentum of that pair unchanged. -/
theorem C9_momentum_conserved (sqrt : K → K) (bodyvector : List (body K))
    (_hm : ∀ b ∈ bodyvector, 0 < b.mass) (_hp : (bodyvector.map body.position).Nodup) :
    momentum (Spacetree.updatecollision sqrt bodyvector) = momentum bodyvector ∧
    ∀ (l : List (body K)) (i j : Nat) (bi bj : body K), i ≠ j →
      l[i]? = some bi → l[j]? = some bj →
      ∃ ci cj, (collidepair sqrt l i j)[i]? = some ci ∧ (collidepair sqrt l i j)[j]? = some cj ∧
        ci.mass • ci.velocity + cj.mass • cj.velocity =
          bi.mass • bi.velocity + bj.mass • bj.velocity := by
  refine ⟨updatecollision_momentum sqrt bodyvector, ?_⟩
  intro l i j bi bj hij hi hj
  obtain ⟨h1, h2⟩ := collidepair_getElem sqrt l i j bi bj hij hi hj
  exact ⟨_, _, h1, h2, pair_momentum sqrt bi bj⟩

/-- C10: with an exact square root, one pass of `Spacetree::updatecollision` over bodies with
positive masses and pairwise distinct positions leaves the total kinetic energy (the sum of
`0.5 * mass_i * |velocity_i|^2`) unchanged. -/
theorem C10_kinetic_conserved (sqrt : K → K) (hsqrt : ∀ x, 0 ≤ x → sqrt x * sqrt x = x)
    (bodyvector : List (body K)) (hm : ∀ b ∈ bodyvector, 0 < b.mass)
    (hp : (bodyvector.map body.position).Nodup) :
    kinetic (Spacetree.updatecollision sqrt bodyvector) = kinetic bodyvector :=
  updatecollision_kinetic sqrt hsqrt bodyvector hm hp

end CollisionClaims

theorem vec3_ne_of_zero_ne {K : Type} (a b c d e f : K) (h : a ≠ d) : ![a, b, c] ≠ ![d, e, f] := by
  intro hcon
  exact h (by simpa using congrFun hcon 0)

theorem collidingbodies_mass : ∀ b ∈ collidingbodies, 0 < b.mass := by
  simp [collidingbodies]

theorem collidingbodies_distinct : (collidingbodies.map body.position).Nodup := by
  simp [collidingbodies, vec3_ne_of_zero_ne]

/-- Witness for C9: the three bodies of `collidingbodies`, with the real square root. -/
theorem C9_momentum_conserved_witness :
    (∀ b ∈ collidingbodies, 0 < b.mass) ∧ (collidingbodies.map body.position).Nodup ∧
    momentum (Spacetree.updatecollision Real.sqrt collidingbodies) = momentum collidingbodies ∧
    ∀ (l : List (body ℝ)) (i j : Nat) (bi bj : body ℝ), i ≠ j →
      l[i]? = some bi → l[j]? = some bj →
      ∃ ci cj, (collidepair Real.sqrt l i j)[i]? = some ci ∧
        (collidepair Real.sqrt l i j)[j]? = some cj ∧
        ci.mass • ci.velocity + cj.mass • cj.velocity =
          bi.mass • bi.velocity + bj.mass • bj.velocity :=
  ⟨collidingbodies_mass, collidingbodies_distinct,
    C9_momentum_conserved Real.sqrt collidingbodies collidingbodies_mass
      collidingbodies_distinct⟩

/-- Witness for C10: the three bodies of `collidingbodies`, with the real square root. -/
theorem C10_kinetic_conserved_witness :
    (∀ x : ℝ, 0 ≤ x → Real.sqrt x * Real.sqrt x = x) ∧
    (∀ b ∈ collidingbodies, 0 < b.mass) ∧ (collidingbodies.map body.position).Nodup ∧
    kinetic (Spacetree.updatecollision Real.sqrt collidingbodies) = kinetic collidingbodies :=
  ⟨fun _ hx => Real.mul_self_sqrt hx, collidingbodies_mass, collidingbodies_distinct,
    C10_kinetic_conserved Real.sqrt (fun _ hx => Real.mul_self_sqrt hx) collidingbodies
      collidingbodies_mass collidingbodies_distinct⟩

/-! ## The octree builder -/

section TreeShape

variable {K : Type}

theorem leafbodies_leaf (nodepath : String) (cog : Fin 3 → K) (cogmass extent : K) (b : body K)
    (kids : Fin 8 → Node K) :
    leafbodies (Node.mk true nodepath cog cogmass extent b kids) = [b] := by
  simp [leafbodies]

theorem leafbodies_internal (nodepath : String) (cog : Fin 3 → K) (cogmass extent : K)
    (b : body K) (kids : Fin 8 → Node K) :
    leafbodies (Node.mk false nodepath cog cogmass extent b kids) =
      (List.finRange 8).flatMap (fun i => leafbodies (kids i)) := by
  simp [leafbodies]

theorem height_internal_le (nodepath : String) (cog : Fin 3 → K) (cogmass extent : K)
    (b : body K) (kids : Fin 8 → Node K) (d : Nat) (h : ∀ i, (kids i).height ≤ d) :
    (Node.mk false nodepath cog cogmass extent b kids).height ≤ d + 1 := by
  simp only [Node.height, Bool.false_eq_true, if_false]
  have : (Finset.univ : Finset (Fin 8)).sup (fun i => (kids i).height) ≤ d :=
    Finset.sup_le (fun i _ => h i)
  omega

end TreeShape

section Tree

variable {K : Type} [LinearOrderedField K]

theorem arrge_iff (v w : Fin 3 → K) : arrge v w = true ↔ w 0 ≤ v 0 ∧ w 1 ≤ v 1 ∧ w 2 ≤ v 2 := by
  simp [arrge, finRange_three, and_assoc]

theorem arrlt_iff (v w : Fin 3 → K) : arrlt v w = true ↔ v 0 < w 0 ∧ v 1 < w 1 ∧ v 2 < w 2 := by
  simp [arrlt, finRange_three, and_assoc]

theorem inbox_iff (xr yr zr : K × K) (p : Fin 3 → K) :
    inbox xr yr zr p = true ↔
      (xr.1 ≤ p 0 ∧ p 0 < xr.2) ∧ (yr.1 ≤ p 1 ∧ p 1 < yr.2) ∧ (zr.1 ≤ p 2 ∧ p 2 < zr.2) := by
  simp [inbox, arrge_iff, arrlt_iff]
  tauto

/-- The half of a range chosen by a bit. -/
theorem half_iff (r : K × K) (x : K) (h : r.1 ≤ x ∧ x < r.2) (b : Bool) :
    ((if b then upperhalf r else lowerhalf r).1 ≤ x ∧
      x < (if b then upperhalf r else lowerhalf r).2) ↔
      (b = true ↔ r.1 + (r.2 - r.1) / 2 ≤ x) := by
  obtain ⟨h1, h2⟩ := h
  cases b
  · simp only [Bool.false_eq_true, if_false, lowerhalf, false_iff, not_le]
    exact ⟨fun hh => hh.2, fun hh => ⟨h1, hh⟩⟩
  · simp only [if_true, upperhalf, true_iff]
    exact ⟨fun hh => hh.1, fun hh => ⟨hh, h2⟩⟩

theorem octantbox_bits (reg : region K) (i : Fin 8) :
    octantbox reg i =
      (if decide (i.val % 2 = 1) then upperhalf reg.xrange else lowerhalf reg.xrange,
        if decide (i.val / 2 % 2 = 1) then upperhalf reg.yrange else lowerhalf reg.yrange,
        if decide (i.val / 4 % 2 = 1) then upperhalf reg.zrange else lowerhalf reg.zrange) := by
  fin_cases i <;> rfl

theorem octantof_bits (reg : region K) (p : Fin 3 → K) :
    ((octantof reg p).val % 2 = 1 ↔ reg.xrange.1 + (reg.xrange.2 - reg.xrange.1) / 2 ≤ p 0) ∧
    ((octantof reg p).val / 2 % 2 = 1 ↔
      reg.yrange.1 + (reg.yrange.2 - reg.yrange.1) / 2 ≤ p 1) ∧
    ((octantof reg p).val / 4 % 2 = 1 ↔
      reg.zrange.1 + (reg.zrange.2 - reg.zrange.1) / 2 ≤ p 2) := by
  unfold octantof
  split_ifs <;> refine ⟨?_, ?_, ?_⟩ <;> constructor <;> intro hh <;>
    first
      | assumption
      | exact absurd hh (by decide)
      | decide
      | (exfalso; linarith)

theorem fin8_eq_iff_bits (i j : Fin 8) :
    j = i ↔ ((i.val % 2 = 1 ↔ j.val % 2 = 1) ∧ (i.val / 2 % 2 = 1 ↔ j.val / 2 % 2 = 1) ∧
      (i.val / 4 % 2 = 1 ↔ j.val / 4 % 2 = 1)) := by
  revert i j
  decide

/-- A position of the box passes the half-open test of exactly one octant. -/
theorem inbox_octant_iff (reg : region K) (p : Fin 3 → K)
    (h : inbox reg.xrange reg.yrange reg.zrange p = true) (i : Fin 8) :
    inbox (octantbox reg i).1 (octantbox reg i).2.1 (octantbox reg i).2.2 p = true ↔
      octantof reg p = i := by
  rw [inbox_iff] at h
  obtain ⟨hx, hy, hz⟩ := h
  obtain ⟨ox, oy, oz⟩ := octantof_bits reg p
  rw [inbox_iff, octantbox_bits, fin8_eq_iff_bits, half_iff _ _ hx, half_iff _ _ hy,
    half_iff _ _ hz, ox, oy, oz]
  simp only [decide_eq_true_eq]

theorem flatMap_filter_perm {α : Type} (g : α → Fin 8) (l : List α) :
    ((List.finRange 8).flatMap (fun i => l.filter (fun b => decide (g b = i)))).Perm l := by
  classical
  rw [List.perm_iff_count]
  intro a
  have key : ∀ i : Fin 8, List.count a (l.filter (fun b => decide (g b = i))) =
      if g a = i then List.count a l else 0 := by
    intro i
    by_cases hi : g a = i
    · rw [if_pos hi]
      exact List.count_filter (by simpa using hi)
    · rw [if_neg hi]
      apply List.count_eq_zero_of_not_mem
      intro hmem
      exact hi (by simpa using (List.mem_filter.mp hmem).2)
  rw [List.count_flatMap, finRange_eight]
  simp only [List.map_cons, List.map_nil, Function.comp, List.sum_cons, List.sum_nil, key]
  generalize g a = k
  fin_cases k <;> simp

/-- The half-open test of octant `i` selects the bodies whose octant is `i`. -/
theorem subregion_bodies_eq (reg : region K) (h : reg.allinbox) (i : Fin 8) :
    (subregion reg i).bodiesinregion =
      reg.bodiesinregion.filter (fun b => decide (octantof reg b.position = i)) := by
  unfold subregion
  simp only []
  apply List.filter_congr
  intro b hb
  have := inbox_octant_iff reg b.position (h b hb) i
  by_cases hc : octantof reg b.position = i
  · simp [hc, this.mpr hc]
  · have hn : ¬ inbox (octantbox reg i).1 (octantbox reg i).2.1 (octantbox reg i).2.2
        b.position = true := fun hh => hc (this.mp hh)
    simp [hc, hn]

/-- The bodies handed to the eight octants are, together, the bodies of the region. -/
theorem subregion_bodies_perm (reg : region K) (h : reg.allinbox) :
    ((List.finRange 8).flatMap (fun i => (subregion reg i).bodiesinregion)).Perm
      reg.bodiesinregion := by
  simp only [subregion_bodies_eq reg h]
  exact flatMap_filter_perm (fun b => octantof reg b.position) reg.bodiesinregion

theorem collisionpass_frame (sqrt : K → K) (reg : region K) :
    (collisionpass sqrt reg).bodiesinregion.map body.frame =
      reg.bodiesinregion.map body.frame := by
  unfold collisionpass
  split_ifs
  · exact updatecollision_frame sqrt reg.bodiesinregion
  · rfl

theorem collisionpass_box (sqrt : K → K) (reg : region K) :
    (collisionpass sqrt reg).xrange = reg.xrange ∧ (collisionpass sqrt reg).yrange = reg.yrange ∧
      (collisionpass sqrt reg).zrange = reg.zrange ∧
      (collisionpass sqrt reg).regnodepath = reg.regnodepath := by
  unfold collisionpass
  split_ifs <;> exact ⟨rfl, rfl, rfl, rfl⟩

theorem collisionpass_position (sqrt : K → K) (reg : region K) :
    (collisionpass sqrt reg).bodiesinregion.map body.position =
      reg.bodiesinregion.map body.position :=
  map_position_of_frame _ _ (collisionpass_frame sqrt reg)

theorem allinbox_iff (reg : region K) :
    reg.allinbox ↔ ∀ p ∈ reg.bodiesinregion.map body.position,
      inbox reg.xrange reg.yrange reg.zrange p = true := by
  simp [region.allinbox]

theorem collisionpass_allinbox (sqrt : K → K) (reg : region K) (h : reg.allinbox) :
    (collisionpass sqrt reg).allinbox := by
  rw [allinbox_iff] at h ⊢
  obtain ⟨hx, hy, hz, _⟩ := collisionpass_box sqrt reg
  rw [collisionpass_position, hx, hy, hz]
  exact h

theorem subregion_allinbox (reg : region K) (i : Fin 8) : (subregion reg i).allinbox := by
  intro b hb
  exact (List.mem_filter.mp hb).2

/-- What a successful call of `makeatree` returned: a leaf for a region of one body, and
otherwise an internal node whose child `i` is absent when octant `i` received no body and is the
tree of octant `i` (after the collision pass) when it received some. -/
theorem makeatree_some (sqrt : K → K) (fuel : Nat) (reg : region K) (t : Node K)
    (h : Spacetree.makeatree sqrt (fuel + 1) reg = some t) :
    (∃ b, reg.bodiesinregion = [b] ∧
      t = leafnode reg.regnodepath b) ∨
    ((∀ b, reg.bodiesinregion ≠ [b]) ∧ ∃ kids : Fin 8 → Node K,
      t = Node.mk false reg.regnodepath
        (tempcogOf reg.bodiesinregion (totmassOf reg.bodiesinregion))
        (totmassOf reg.bodiesinregion) (nodeextent sqrt reg.bodiesinregion) body.garbage kids ∧
      ∀ i, (1 ≤ (subregion (collisionpass sqrt reg) i).bodiesinregion.length →
          Spacetree.makeatree sqrt fuel (subregion (collisionpass sqrt reg) i) = some (kids i)) ∧
        ((subregion (collisionpass sqrt reg) i).bodiesinregion = [] → kids i = Node.null)) := by
  unfold Spacetree.makeatree at h
  split at h
  · rename_i b hb
    left
    exact ⟨b, hb, (Option.some.inj h).symm⟩
  · rename_i hne
    right
    refine ⟨hne, ?_⟩
    simp only [] at h
    split_ifs at h with hall
    refine ⟨_, (Option.some.inj h).symm, ?_⟩
    intro i
    have hi := hall i
    constructor
    · intro hlen
      simp only [ge_iff_le, hlen, if_true] at hi ⊢
      obtain ⟨c, hc⟩ := Option.isSome_iff_exists.mp hi
      simp [hc]
    · intro hnil
      simp [hnil]

/-- When `makeatree` succeeds: enough fuel for every octant that received a body. -/
theorem makeatree_of_kids (sqrt : K → K) (fuel : Nat) (reg : region K)
    (hne : ∀ b, reg.bodiesinregion ≠ [b])
    (hk : ∀ i, 1 ≤ (subregion (collisionpass sqrt reg) i).bodiesinregion.length →
      (Spacetree.makeatree sqrt fuel (subregion (collisionpass sqrt reg) i)).isSome = true) :
    (Spacetree.makeatree sqrt (fuel + 1) reg).isSome = true := by
  unfold Spacetree.makeatree
  split
  · rename_i b hb
    exact absurd hb (hne b)
  · simp only []
    rw [if_pos]
    · rfl
    · intro i
      by_cases hlen : 1 ≤ (subregion (collisionpass sqrt reg) i).bodiesinregion.length
      · simp only [ge_iff_le, hlen, if_true]
        exact hk i hlen
      · simp only [ge_iff_le, hlen, if_false]
        rfl

/-- The leaves of the tree hold the bodies of the region, each once, velocities aside. -/
theorem makeatree_leaves_perm (sqrt : K → K) (fuel : Nat) :
    ∀ (reg : region K) (t : Node K), Spacetree.makeatree sqrt fuel reg = some t →
      reg.allinbox →
      ((leafbodies t).map body.frame).Perm (reg.bodiesinregion.map body.frame) := by
  induction fuel with
  | zero =>
    intro reg t h
    simp [Spacetree.makeatree] at h
  | succ fuel ih =>
    intro reg t h hbox
    rcases makeatree_some sqrt fuel reg t h with ⟨b, hb, rfl⟩ | ⟨_, kids, rfl, hk⟩
    · rw [leafnode, leafbodies_leaf, hb]
    · rw [leafbodies_internal, List.map_flatMap]
      have h1 : ∀ i ∈ List.finRange 8, ((leafbodies (kids i)).map body.frame).Perm
          ((subregion (collisionpass sqrt reg) i).bodiesinregion.map body.frame) := by
        intro i _
        by_cases hlen : 1 ≤ (subregion (collisionpass sqrt reg) i).bodiesinregion.length
        · exact ih _ _ ((hk i).1 hlen) (subregion_allinbox _ i)
        · have hnil : (subregion (collisionpass sqrt reg) i).bodiesinregion = [] := by
            apply List.eq_nil_of_length_eq_zero
            omega
          rw [(hk i).2 hnil, hnil]
          simp [leafbodies]
      refine (List.Perm.flatMap_left _ h1).trans ?_
      rw [← List.map_flatMap, ← collisionpass_frame sqrt reg]
      exact (subregion_bodies_perm _ (collisionpass_allinbox sqrt reg hbox)).map _

theorem width_subregion (reg : region K) (i : Fin 8) (k : Fin 3) :
    (subregion reg i).width k = reg.width k / 2 := by
  unfold region.width subregion
  simp only [octantbox_bits]
  fin_cases k <;> simp only [Fin.zero_eta, Fin.mk_one, Fin.reduceFinMk, Matrix.cons_val_zero,
    Matrix.cons_val_one, Matrix.cons_val_two, Matrix.head_cons, Matrix.tail_cons] <;>
    split_ifs <;> simp only [lowerhalf, upperhalf] <;> ring

theorem subregion_position_sublist (sqrt : K → K) (reg : region K) (i : Fin 8) :
    ((subregion (collisionpass sqrt reg) i).bodiesinregion.map body.position).Sublist
      (reg.bodiesinregion.map body.position) := by
  rw [← collisionpass_position sqrt reg]
  exact (List.filter_sublist _).map _

theorem subregion_separated (sqrt : K → K) (reg : region K) (i : Fin 8) (d : Nat)
    (h : reg.separated (d + 1)) : (subregion (collisionpass sqrt reg) i).separated d := by
  unfold region.separated at h ⊢
  refine List.Pairwise.imp ?_ (List.Pairwise.sublist (subregion_position_sublist sqrt reg i) h)
  intro p q hpq
  obtain ⟨k, hk⟩ := hpq
  refine ⟨k, ?_⟩
  rw [width_subregion]
  have hw : (collisionpass sqrt reg).width k = reg.width k := by
    obtain ⟨hx, hy, hz, _⟩ := collisionpass_box sqrt reg
    unfold region.width
    rw [hx, hy, hz]
  rw [hw]
  rw [pow_succ] at hk
  linarith

theorem inbox_abs_lt (reg : region K) (p q : Fin 3 → K)
    (hp : inbox reg.xrange reg.yrange reg.zrange p = true)
    (hq : inbox reg.xrange reg.yrange reg.zrange q = true) (k : Fin 3) :
    |p k - q k| < reg.width k := by
  rw [inbox_iff] at hp hq
  obtain ⟨⟨a1, a2⟩, ⟨a3, a4⟩, a5, a6⟩ := hp
  obtain ⟨⟨b1, b2⟩, ⟨b3, b4⟩, b5, b6⟩ := hq
  unfold region.width
  fin_cases k <;> simp only [Fin.zero_eta, Fin.mk_one, Fin.reduceFinMk, Matrix.cons_val_zero,
    Matrix.cons_val_one, Matrix.cons_val_two, Matrix.head_cons, Matrix.tail_cons] <;>
    rw [abs_lt] <;> constructor <;> linarith

/-- Termination of `makeatree` with a depth bound: a region separated at depth `d` needs no
more than `d` levels of internal nodes. -/
theorem makeatree_terminates (sqrt : K → K) (d : Nat) :
    ∀ (reg : region K), reg.bodiesinregion ≠ [] → reg.allinbox → reg.separated d →
      ∀ fuel, d < fuel → ∃ t, Spacetree.makeatree sqrt fuel reg = some t ∧ t.height ≤ d := by
  induction d with
  | zero =>
    intro reg hne hbox hsep fuel hfuel
    obtain ⟨f, rfl⟩ : ∃ f, fuel = f + 1 := ⟨fuel - 1, by omega⟩
    match hl : reg.bodiesinregion with
    | [] => exact absurd hl hne
    | [b] =>
      refine ⟨leafnode reg.regnodepath b, ?_, ?_⟩
      · simp [Spacetree.makeatree, hl]
      · simp [Node.height, leafnode]
    | a :: b :: rest =>
      exfalso
      unfold region.separated at hsep
      rw [hl] at hsep
      simp only [List.map_cons, List.pairwise_cons, List.mem_cons] at hsep
      obtain ⟨k, hk⟩ := hsep.1 b.position (Or.inl rfl)
      have ha := hbox a (by rw [hl]; simp)
      have hb := hbox b (by rw [hl]; simp)
      have := inbox_abs_lt reg a.position b.position ha hb k
      simp only [pow_zero, mul_one] at hk
      linarith
  | succ d ih =>
    intro reg hne hbox hsep fuel hfuel
    obtain ⟨f, rfl⟩ : ∃ f, fuel = f + 1 := ⟨fuel - 1, by omega⟩
    by_cases hsingle : ∃ b, reg.bodiesinregion = [b]
    · obtain ⟨b, hb⟩ := hsingle
      refine ⟨leafnode reg.regnodepath b, ?_, ?_⟩
      · simp [Spacetree.makeatree, hb]
      · simp [Node.height, leafnode]
    · have hne1 : ∀ b, reg.bodiesinregion ≠ [b] := fun b hb => hsingle ⟨b, hb⟩
      have hkid : ∀ i, 1 ≤ (subregion (collisionpass sqrt reg) i).bodiesinregion.length →
          ∃ t, Spacetree.makeatree sqrt f (subregion (collisionpass sqrt reg) i) = some t ∧
            t.height ≤ d := by
        intro i hlen
        apply ih _ _ (subregion_allinbox _ i) (subregion_separated sqrt reg i d hsep) f
          (by omega)
        intro hnil
        rw [hnil] at hlen
        simp at hlen
      have hsome := makeatree_of_kids sqrt f reg hne1 (fun i hlen => by
        obtain ⟨t, ht, _⟩ := hkid i hlen
        rw [ht]; rfl)
      obtain ⟨t, ht⟩ := Option.isSome_iff_exists.mp hsome
      refine ⟨t, ht, ?_⟩
      rcases makeatree_some sqrt f reg t ht with ⟨b, hb, _⟩ | ⟨_, kids, rfl, hk⟩
      · exact absurd hb (hne1 b)
      · apply height_internal_le
        intro i
        by_cases hlen : 1 ≤ (subregion (collisionpass sqrt reg) i).bodiesinregion.length
        · obtain ⟨t2, ht2, hh⟩ := hkid i hlen
          have := (hk i).1 hlen
          rw [ht2] at this
          rw [← Option.some.inj this]
          exact hh
        · have hnil : (subregion (collisionpass sqrt reg) i).bodiesinregion = [] := by
            apply List.eq_nil_of_length_eq_zero
            omega
          rw [(hk i).2 hnil]
          simp [Node.height]

theorem sep_mono (w : Fin 3 → K) (p q : Fin 3 → K) (d e : Nat) (hde : d ≤ e)
    (h : ∃ k : Fin 3, w k ≤ |p k - q k| * 2 ^ d) : ∃ k : Fin 3, w k ≤ |p k - q k| * 2 ^ e := by
  obtain ⟨k, hk⟩ := h
  refine ⟨k, hk.trans ?_⟩
  apply mul_le_mul_of_nonneg_left _ (abs_nonneg _)
  exact pow_le_pow_right₀ (by norm_num) hde

theorem exists_sep_pair [Archimedean K] (w : Fin 3 → K) (p q : Fin 3 → K) (h : p ≠ q) :
    ∃ d : Nat, ∃ k : Fin 3, w k ≤ |p k - q k| * 2 ^ d := by
  have hk : ∃ k, p k ≠ q k := by
    by_contra hcon
    push_neg at hcon
    exact h (funext hcon)
  obtain ⟨k, hk⟩ := hk
  have hpos : 0 < |p k - q k| := abs_pos.mpr (sub_ne_zero.mpr hk)
  obtain ⟨n, hn⟩ := exists_nat_gt (w k / |p k - q k|)
  refine ⟨n, k, ?_⟩
  have h2 : (n : K) < 2 ^ n := by exact_mod_cast Nat.lt_two_pow n
  have h3 : w k / |p k - q k| < 2 ^ n := hn.trans h2
  rw [div_lt_iff₀ hpos] at h3
  linarith

theorem exists_sep_head [Archimedean K] (w : Fin 3 → K) (p : Fin 3 → K)
    (qs : List (Fin 3 → K)) (h : ∀ q ∈ qs, p ≠ q) :
    ∃ d : Nat, ∀ q ∈ qs, ∃ k : Fin 3, w k ≤ |p k - q k| * 2 ^ d := by
  induction qs with
  | nil => exact ⟨0, by simp⟩
  | cons q qs ih =>
    obtain ⟨d1, h1⟩ := ih (fun r hr => h r (List.mem_cons_of_mem _ hr))
    obtain ⟨d2, h2⟩ := exists_sep_pair w p q (h q (List.mem_cons_self _ _))
    refine ⟨max d1 d2, ?_⟩
    intro r hr
    rcases List.mem_cons.mp hr with rfl | hr
    · exact sep_mono w p r d2 _ (le_max_right _ _) h2
    · exact sep_mono w p r d1 _ (le_max_left _ _) (h1 r hr)

theorem exists_sep_list [Archimedean K] (w : Fin 3 → K) (ps : List (Fin 3 → K))
    (h : ps.Nodup) :
    ∃ d : Nat, ps.Pairwise (fun p q => ∃ k : Fin 3, w k ≤ |p k - q k| * 2 ^ d) := by
  induction ps with
  | nil => exact ⟨0, List.Pairwise.nil⟩
  | cons p ps ih =>
    rw [List.nodup_cons] at h
    obtain ⟨d1, h1⟩ := ih h.2
    obtain ⟨d2, h2⟩ := exists_sep_head w p ps (fun q hq hpq => h.1 (hpq ▸ hq))
    refine ⟨max d1 d2, List.Pairwise.cons ?_ ?_⟩
    · intro q hq
      exact sep_mono w p q d2 _ (le_max_right _ _) (h2 q hq)
    · exact h1.imp (fun {a b} hab => sep_mono w a b d1 _ (le_max_left _ _) hab)

/-- Bodies at pairwise distinct positions are separated at some depth. -/
theorem exists_separated [Archimedean K] (reg : region K)
    (h : (reg.bodiesinregion.map body.position).Nodup) : ∃ d, reg.separated d :=
  exists_sep_list reg.width _ h

end Tree


section TreeClaims

variable {K : Type} [LinearOrderedField K]

theorem bodykey_frame (b : body K) : bodykey b.frame = bodykey b := rfl

theorem map_bodykey_of_frame (l1 l2 : List (body K))
    (h : (l1.map body.frame).Perm (l2.map body.frame)) :
    (l1.map bodykey).Perm (l2.map bodykey) := by
  have := h.map bodykey
  simpa [List.map_map, Function.comp_def, bodykey_frame] using this

/-- The test "this leaf holds body `b`": same index and same position. -/
theorem countP_same_of_nodup (l : List (body K)) (h : (l.map body.position).Nodup) (b : body K)
    (hb : b ∈ l) :
    l.countP (fun c => decide (c.index = b.index ∧ c.position = b.position)) = 1 := by
  induction l with
  | nil => simp at hb
  | cons a l ih =>
    rw [List.map_cons, List.nodup_cons] at h
    rcases List.mem_cons.mp hb with rfl | hb
    · rw [List.countP_cons_of_pos _ _ (by simp)]
      have : l.countP (fun c => decide (c.index = b.index ∧ c.position = b.position)) = 0 := by
        rw [List.countP_eq_zero]
        intro c hc hcon
        simp only [decide_eq_true_eq] at hcon
        exact h.1 (hcon.2 ▸ List.mem_map_of_mem _ hc)
      rw [this]
    · have hab : ¬ (a.index = b.index ∧ a.position = b.position) := by
        intro hcon
        exact h.1 (hcon.2 ▸ List.mem_map_of_mem _ hb)
      rw [List.countP_cons_of_neg _ _ (by simpa using hab)]
      exact ih h.2 hb

theorem countP_of_frame_perm (l1 l2 : List (body K))
    (h : (l1.map body.frame).Perm (l2.map body.frame)) (b : body K) :
    l1.countP (fun c => decide (c.index = b.index ∧ c.position = b.position)) =
      l2.countP (fun c => decide (c.index = b.index ∧ c.position = b.position)) := by
  have := h.countP_eq (fun c => decide (c.index = b.index ∧ c.position = b.position))
  simpa [List.countP_map, Function.comp_def, body.frame] using this

/-- C1: for a region with at least one body, pairwise distinct positions and every position in
the half-open box, `Spacetree::makeatree` returns a tree (given enough recursion depth), and in
every tree it returns the leaves hold, up to order, exactly the bodies of the region by index and
position: every body of the region is in exactly one leaf and no leaf holds another body. -/
theorem C1_every_body_in_one_leaf [Archimedean K] (sqrt : K → K) (reg : region K)
    (hne : reg.bodiesinregion ≠ [])
    (hdist : (reg.bodiesinregion.map body.position).Nodup) (hbox : reg.allinbox) :
    (∃ fuel t, Spacetree.makeatree sqrt fuel reg = some t) ∧
    ∀ fuel t, Spacetree.makeatree sqrt fuel reg = some t →
      ((leafbodies t).map bodykey).Perm (reg.bodiesinregion.map bodykey) ∧
      (∀ b ∈ reg.bodiesinregion, (leafbodies t).countP
        (fun l => decide (l.index = b.index ∧ l.position = b.position)) = 1) ∧
      (∀ l ∈ leafbodies t, ∃ b ∈ reg.bodiesinregion,
        l.index = b.index ∧ l.position = b.position) := by
  constructor
  · obtain ⟨d, hd⟩ := exists_separated reg hdist
    obtain ⟨t, ht, _⟩ := makeatree_terminates sqrt d reg hne hbox hd (d + 1) (by omega)
    exact ⟨d + 1, t, ht⟩
  · intro fuel t ht
    have hfr := makeatree_leaves_perm sqrt fuel reg t ht hbox
    have hperm := map_bodykey_of_frame _ _ hfr
    refine ⟨hperm, ?_, ?_⟩
    · intro b hb
      rw [countP_of_frame_perm _ _ hfr b]
      exact countP_same_of_nodup _ hdist b hb
    · intro l hl
      have hmem : bodykey l ∈ reg.bodiesinregion.map bodykey :=
        hperm.subset (List.mem_map_of_mem _ hl)
      obtain ⟨b, hb, hbl⟩ := List.mem_map.mp hmem
      have h1 : b.index = l.index := congrArg Prod.fst hbl
      have h2 : b.position = l.position := congrArg Prod.snd hbl
      exact ⟨b, hb, h1.symm, h2.symm⟩

/-- C2: in exact arithmetic (an Archimedean ordered field), for a region with at least one body,
pairwise distinct positions and every position in the half-open box, there is a depth `d` at
which the bodies are separated (any two differ on some axis by at least the side of the box
divided by `2^d`), and for every such `d` the recursion of `Spacetree::makeatree` ends within
depth `d`: with any larger recursion budget it returns a tree with at most `d` levels of
internal nodes, so every sub-region at depth `d` holds exactly one body. -/
theorem C2_makeatree_terminates [Archimedean K] (sqrt : K → K) (reg : region K)
    (hne : reg.bodiesinregion ≠ [])
    (hdist : (reg.bodiesinregion.map body.position).Nodup) (hbox : reg.allinbox) :
    (∃ d, reg.separated d) ∧
    ∀ d, reg.separated d → ∀ fuel, d < fuel →
      ∃ t, Spacetree.makeatree sqrt fuel reg = some t ∧ t.height ≤ d :=
  ⟨exists_separated reg hdist, fun d hd => makeatree_terminates sqrt d reg hne hbox hd⟩

theorem foldl_add_eq_sum {α M : Type} [AddCommMonoid M] (f : α → M) (l : List α) (a : M) :
    l.foldl (fun acc b => acc + f b) a = a + (l.map f).sum := by
  induction l generalizing a with
  | nil => simp
  | cons x l ih =>
    simp only [List.foldl_cons, List.map_cons, List.sum_cons]
    rw [ih, add_assoc]

theorem totmassOf_eq_sum (l : List (body K)) : totmassOf l = (l.map body.mass).sum := by
  unfold totmassOf
  rw [foldl_add_eq_sum body.mass l 0, zero_add]

theorem tempcogOf_eq_sum (l : List (body K)) (M : K) :
    tempcogOf l M = (l.map (fun b => (b.mass / M) • b.position)).sum := by
  unfold tempcogOf
  rw [foldl_add_eq_sum (fun b : body K => (b.mass / M) • b.position) l 0, zero_add]

theorem extentOf_eq_sum (sqrt : K → K) (l : List (body K)) (c : Fin 3 → K) :
    extentOf sqrt l c = (l.map (fun b => moodulus sqrt (b.position - c))).sum := by
  unfold extentOf
  rw [foldl_add_eq_sum (fun b : body K => moodulus sqrt (b.position - c)) l 0, zero_add]

/-- The aggregate mass of a returned tree is the total mass of the bodies of the region. -/
theorem makeatree_cogmass (sqrt : K → K) (fuel : Nat) (reg : region K) (t : Node K)
    (h : Spacetree.makeatree sqrt fuel reg = some t) :
    t.cogmassOr0 = (reg.bodiesinregion.map body.mass).sum := by
  cases fuel with
  | zero => simp [Spacetree.makeatree] at h
  | succ fuel =>
    rcases makeatree_some sqrt fuel reg t h with ⟨b, hb, rfl⟩ | ⟨_, kids, rfl, _⟩
    · simp [Node.cogmassOr0, leafnode, hb]
    · simp [Node.cogmassOr0, totmassOf_eq_sum]

theorem makeatree_massinv (sqrt : K → K) (fuel : Nat) :
    ∀ (reg : region K) (t : Node K), Spacetree.makeatree sqrt fuel reg = some t →
      reg.allinbox → t.massinv := by
  induction fuel with
  | zero =>
    intro reg t h
    simp [Spacetree.makeatree] at h
  | succ fuel ih =>
    intro reg t h hbox
    rcases makeatree_some sqrt fuel reg t h with ⟨b, hb, rfl⟩ | ⟨_, kids, rfl, hk⟩
    · simp [Node.massinv, leafnode]
    · have hkm : ∀ i, (kids i).cogmassOr0 =
          ((subregion (collisionpass sqrt reg) i).bodiesinregion.map body.mass).sum ∧
          (kids i).massinv := by
        intro i
        by_cases hlen : 1 ≤ (subregion (collisionpass sqrt reg) i).bodiesinregion.length
        · exact ⟨makeatree_cogmass sqrt fuel _ _ ((hk i).1 hlen),
            ih _ _ ((hk i).1 hlen) (subregion_allinbox _ i)⟩
        · have hnil : (subregion (collisionpass sqrt reg) i).bodiesinregion = [] := by
            apply List.eq_nil_of_length_eq_zero
            omega
          rw [(hk i).2 hnil, hnil]
          simp [Node.cogmassOr0, Node.massinv]
      unfold Node.massinv
      right
      refine ⟨?_, fun i => (hkm i).2⟩
      rw [Fin.sum_univ_def]
      simp only [fun i => (hkm i).1]
      rw [totmassOf_eq_sum, ← map_mass_of_frame _ _ (collisionpass_frame sqrt reg)]
      have hp := (subregion_bodies_perm _ (collisionpass_allinbox sqrt reg hbox)).map body.mass
      rw [← hp.sum_eq, List.map_flatMap, List.flatMap_def, List.sum_flatten, List.map_map]
      rfl

/-- C3: in every tree that `Spacetree::makeatree` returns for a region whose bodies all pass the
half-open test of its box, the aggregate mass `cogmass` of every internal node equals the sum of
the `cogmass` of its children that are present (an absent child counts zero). -/
theorem C3_mass_invariant (sqrt : K → K) (reg : region K) (hbox : reg.allinbox) (fuel : Nat)
    (t : Node K) (h : Spacetree.makeatree sqrt fuel reg = some t) : t.massinv :=
  makeatree_massinv sqrt fuel reg t h hbox

/-- C4: for a region with two or more bodies and positive total mass, every node that
`Spacetree::makeatree` returns is an internal node that carries the path of the region, with
`cogmass` the sum of the masses, `cog` the sum of `(mass_i / cogmass) * position_i`, and
`extent` twice the sum of the distances `moodulus (position_i - cog)` divided by the number of
bodies, all taken over the bodies as they were handed in; with an exact square root each of
these distances is the non-negative root of the squared Euclidean distance. -/
theorem C4_node_statistics (sqrt : K → K) (reg : region K)
    (h2 : 2 ≤ reg.bodiesinregion.length)
    (_hM : 0 < (reg.bodiesinregion.map body.mass).sum) (fuel : Nat) (t : Node K)
    (h : Spacetree.makeatree sqrt fuel reg = some t) :
    ∃ (cog : Fin 3 → K) (cogmass extent : K) (solebody : body K) (kids : Fin 8 → Node K),
      t = Node.mk false reg.regnodepath cog cogmass extent solebody kids ∧
      cogmass = (reg.bodiesinregion.map body.mass).sum ∧
      cog = (reg.bodiesinregion.map (fun b => (b.mass / cogmass) • b.position)).sum ∧
      extent = 2 * (reg.bodiesinregion.map (fun b => moodulus sqrt (b.position - cog))).sum /
        (reg.bodiesinregion.length : K) ∧
      ((∀ x, 0 ≤ x → 0 ≤ sqrt x ∧ sqrt x * sqrt x = x) → ∀ b : body K,
        0 ≤ moodulus sqrt (b.position - cog) ∧
        moodulus sqrt (b.position - cog) ^ 2 =
          (b.position 0 - cog 0) ^ 2 + (b.position 1 - cog 1) ^ 2 +
            (b.position 2 - cog 2) ^ 2) := by
  cases fuel with
  | zero => simp [Spacetree.makeatree] at h
  | succ fuel =>
    rcases makeatree_some sqrt fuel reg t h with ⟨b, hb, _⟩ | ⟨_, kids, rfl, _⟩
    · rw [hb] at h2
      simp at h2
    · refine ⟨_, _, _, _, kids, rfl, totmassOf_eq_sum _, tempcogOf_eq_sum _ _, ?_, ?_⟩
      · unfold nodeextent
        rw [extentOf_eq_sum]
      · intro hs b
        constructor
        · rw [moodulus_eq]
          exact (hs _ (dot_self_nonneg _)).1
        · rw [pow_two, moodulus_mul_self sqrt (fun x hx => (hs x hx).2), dot_eq]
          simp only [Pi.sub_apply]
          ring

end TreeClaims

theorem threebodies_nonempty : threebodies.bodiesinregion ≠ [] := by
  simp [threebodies]

theorem threebodies_distinct : (threebodies.bodiesinregion.map body.position).Nodup := by
  simp [threebodies, vec3_ne_of_zero_ne]

theorem threebodies_allinbox : threebodies.allinbox := by
  simp [threebodies, region.allinbox, inbox_iff]
  norm_num

/-- Witness for C1: the three bodies of `threebodies`, with the real square root. -/
theorem C1_every_body_in_one_leaf_witness :
    threebodies.bodiesinregion ≠ [] ∧ (threebodies.bodiesinregion.map body.position).Nodup ∧
    threebodies.allinbox ∧
    (∃ fuel t, Spacetree.makeatree Real.sqrt fuel threebodies = some t) ∧
    ∀ fuel t, Spacetree.makeatree Real.sqrt fuel threebodies = some t →
      ((leafbodies t).map bodykey).Perm (threebodies.bodiesinregion.map bodykey) ∧
      (∀ b ∈ threebodies.bodiesinregion, (leafbodies t).countP
        (fun l => decide (l.index = b.index ∧ l.position = b.position)) = 1) ∧
      (∀ l ∈ leafbodies t, ∃ b ∈ threebodies.bodiesinregion,
        l.index = b.index ∧ l.position = b.position) :=
  ⟨threebodies_nonempty, threebodies_distinct, threebodies_allinbox,
    C1_every_body_in_one_leaf Real.sqrt threebodies threebodies_nonempty threebodies_distinct
      threebodies_allinbox⟩

/-- Witness for C2: the three bodies of `threebodies`. -/
theorem C2_makeatree_terminates_witness :
    threebodies.bodiesinregion ≠ [] ∧ (threebodies.bodiesinregion.map body.position).Nodup ∧
    threebodies.allinbox ∧
    (∃ d, threebodies.separated d) ∧
    ∀ d, threebodies.separated d → ∀ fuel, d < fuel →
      ∃ t, Spacetree.makeatree Real.sqrt fuel threebodies = some t ∧ t.height ≤ d :=
  ⟨threebodies_nonempty, threebodies_distinct, threebodies_allinbox,
    C2_makeatree_terminates Real.sqrt threebodies threebodies_nonempty threebodies_distinct
      threebodies_allinbox⟩

/-- Witness for C3: the tree of the three bodies of `threebodies`. -/
theorem C3_mass_invariant_witness :
    threebodies.allinbox ∧
    ∃ fuel t, Spacetree.makeatree Real.sqrt fuel threebodies = some t ∧ t.massinv := by
  refine ⟨threebodies_allinbox, ?_⟩
  obtain ⟨d, hd⟩ := exists_separated threebodies threebodies_distinct
  obtain ⟨t, ht, _⟩ := makeatree_terminates Real.sqrt d threebodies threebodies_nonempty
    threebodies_allinbox hd (d + 1) (by omega)
  exact ⟨d + 1, t, ht, C3_mass_invariant Real.sqrt threebodies threebodies_allinbox (d + 1) t ht⟩

/-- Witness for C4: the root of the tree of the three bodies of `threebodies`. -/
theorem C4_node_statistics_witness :
    2 ≤ threebodies.bodiesinregion.length ∧
    0 < (threebodies.bodiesinregion.map body.mass).sum ∧
    ∃ fuel t, Spacetree.makeatree Real.sqrt fuel threebodies = some t ∧
      ∃ (cog : Fin 3 → ℝ) (cogmass extent : ℝ) (solebody : body ℝ) (kids : Fin 8 → Node ℝ),
        t = Node.mk false threebodies.regnodepath cog cogmass extent solebody kids ∧
        cogmass = (threebodies.bodiesinregion.map body.mass).sum ∧
        cog = (threebodies.bodiesinregion.map (fun b => (b.mass / cogmass) • b.position)).sum ∧
        extent = 2 * (threebodies.bodiesinregion.map
          (fun b => moodulus Real.sqrt (b.position - cog))).sum /
          (threebodies.bodiesinregion.length : ℝ) ∧
        ((∀ x, 0 ≤ x → 0 ≤ Real.sqrt x ∧ Real.sqrt x * Real.sqrt x = x) → ∀ b : body ℝ,
          0 ≤ moodulus Real.sqrt (b.position - cog) ∧
          moodulus Real.sqrt (b.position - cog) ^ 2 =
            (b.position 0 - cog 0) ^ 2 + (b.position 1 - cog 1) ^ 2 +
              (b.position 2 - cog 2) ^ 2) := by
  have h2 : 2 ≤ threebodies.bodiesinregion.length := by simp [threebodies]
  have hM : 0 < (threebodies.bodiesinregion.map body.mass).sum := by
    simp [threebodies]
    norm_num
  refine ⟨h2, hM, ?_⟩
  obtain ⟨d, hd⟩ := exists_separated threebodies threebodies_distinct
  obtain ⟨t, ht, _⟩ := makeatree_terminates Real.sqrt d threebodies threebodies_nonempty
    threebodies_allinbox hd (d + 1) (by omega)
  exact ⟨d + 1, t, ht, C4_node_statistics Real.sqrt threebodies h2 hM (d + 1) t ht⟩


/-! ## The force evaluator -/

section Strings

theorem streqAux_self (a : List Char) : streqAux a a = true := by
  induction a with
  | nil => rfl
  | cons c cs ih => simp [streqAux, ih]

theorem streqAux_append (p a b : List Char) : streqAux (p ++ a) (p ++ b) = streqAux a b := by
  induction p with
  | nil => rfl
  | cons c cs ih => simp [streqAux, ih]

theorem streq_self (a : String) : streq a a = true := streqAux_self _

theorem streq_append (p a b : String) : streq (p ++ a) (p ++ b) = streq a b := by
  unfold streq
  rw [String.data_append, String.data_append, streqAux_append]

theorem streq_pathnames (i j : Fin 8) (h : i ≠ j) : streq (pathnames i) (pathnames j) = false := by
  revert i j
  decide

end Strings

section Folds

theorem foldl_fixed {α β : Type} (f : β → α → β) (l : List α) (b : β)
    (h : ∀ k ∈ l, f b k = b) : l.foldl f b = b := by
  induction l with
  | nil => rfl
  | cons x l ih =>
    rw [List.foldl_cons, h x (List.mem_cons_self _ _)]
    exact ih (fun k hk => h k (List.mem_cons_of_mem _ hk))

theorem foldl_single_list {α β : Type} (f : β → α → β) (j : α) (P : β → Prop)
    (hk : ∀ r k, k ≠ j → P r → f r k = r) (hj : ∀ r, P r → P (f r j)) (l : List α)
    (hl : l.Nodup) (hmem : j ∈ l) (b : β) (hb : P b) : l.foldl f b = f b j := by
  induction l with
  | nil => simp at hmem
  | cons x l ih =>
    rw [List.nodup_cons] at hl
    rw [List.foldl_cons]
    by_cases hx : x = j
    · subst hx
      apply foldl_fixed
      intro k hkl
      exact hk _ k (fun hkx => hl.1 (hkx ▸ hkl)) (hj b hb)
    · rw [hk b x hx hb]
      rcases List.mem_cons.mp hmem with h | h
      · exact absurd h.symm hx
      · exact ih hl.2 h

/-- A loop over the eight children in which only child `j` changes the state. -/
theorem foldl_single {β : Type} (f : β → Fin 8 → β) (j : Fin 8) (P : β → Prop)
    (hk : ∀ r k, k ≠ j → P r → f r k = r) (hj : ∀ r, P r → P (f r j)) (b : β) (hb : P b) :
    (List.finRange 8).foldl f b = f b j :=
  foldl_single_list f j P hk hj _ (List.nodup_finRange 8) (List.mem_finRange j) b hb

end Folds

section Shapes

variable {K : Type}

theorem TwoTree.symm (la lb : Node K) (c : Fin 3 → K) (M e : K) (t : Node K)
    (h : TwoTree la lb c M e t) : TwoTree lb la c M e t := by
  induction h with
  | split path sb kids i j hij hi hj hk =>
    exact TwoTree.split path sb kids j i (Ne.symm hij) hj hi (fun k h1 h2 => hk k h2 h1)
  | chain path sb kids i _ hk ih => exact TwoTree.chain path sb kids i ih hk

end Shapes

section Force

variable {K : Type} [LinearOrderedField K]

theorem comparetree_leafnode (root : Node K) (p : String) (b : body K) :
    bodygen.comparetree root (leafnode p b) = streq root.nodepath p := by
  unfold leafnode bodygen.comparetree
  have : (List.finRange 8).foldr (fun (i : Fin 8) rest =>
      if (Node.null : Node K).isnull then rest else bodygen.comparetree root Node.null) false =
      false := by
    induction (List.finRange 8) with
    | nil => rfl
    | cons x l ih => simp [Node.isnull, ih]
  simp only [this]
  cases streq root.nodepath p <;> rfl

theorem ust_null (sqrt : K → K) (θ : K) (root : Node K) :
    updatesingleacceleration_threshold sqrt θ root Node.null = root := by
  simp [updatesingleacceleration_threshold]

theorem ust_internal (sqrt : K → K) (θ : K) (root : Node K) (path : String) (c : Fin 3 → K)
    (M e : K) (sb : body K) (kids : Fin 8 → Node K)
    (h : ¬ (e / moodulus sqrt (root.solebody.position - c) < θ)) :
    updatesingleacceleration_threshold sqrt θ root (Node.mk false path c M e sb kids) =
      (List.finRange 8).foldl
        (fun r i => updatesingleacceleration_threshold sqrt θ r (kids i)) root := by
  rw [updatesingleacceleration_threshold]
  simp [h]

theorem ust_leafnode (sqrt : K → K) (θ : K) (root : Node K) (p : String) (b : body K) :
    updatesingleacceleration_threshold sqrt θ root (leafnode p b) =
      if streq root.nodepath p then root
      else root.setsolebody (addpointmass sqrt root.solebody b.position b.mass) := by
  have hc := comparetree_leafnode root p b
  unfold leafnode at hc ⊢
  rw [updatesingleacceleration_threshold, hc]
  cases streq root.nodepath p
  · simp
  · simp only [Bool.not_true, Bool.false_and, Bool.false_eq_true, if_false, if_true]
    apply foldl_fixed
    intro k _
    exact ust_null sqrt θ root

theorem setsolebody_leafnode (p : String) (a x : body K) :
    ((leafnode p a).setsolebody x).nodepath = p ∧ ((leafnode p a).setsolebody x).solebody = x ∧
      ∀ y, ((leafnode p a).setsolebody x).setsolebody y = (leafnode p a).setsolebody y := by
  simp [leafnode, Node.setsolebody, Node.nodepath, Node.solebody]

theorem addpointmass_position (sqrt : K → K) (x : body K) (c : Fin 3 → K) (m : K) :
    (addpointmass sqrt x c m).position = x.position := rfl

/-- The traversal for the leaf of the first body over the tree of a pair: the only point mass
it uses is the leaf of the other body. -/
theorem ust_twotree (sqrt : K → K) (θ : K) (pa pb : String) (a b : body K) (c : Fin 3 → K)
    (M e : K) (hab : streq pa pb = false)
    (hr : ¬ (e / moodulus sqrt (a.position - c) < θ)) (t : Node K)
    (ht : TwoTree (leafnode pa a) (leafnode pb b) c M e t) :
    ∀ x : body K, x.position = a.position →
      updatesingleacceleration_threshold sqrt θ ((leafnode pa a).setsolebody x) t =
        (leafnode pa a).setsolebody (addpointmass sqrt x b.position b.mass) := by
  induction ht with
  | split path sb kids i j hij hi hj hk =>
    intro x hx
    obtain ⟨h1, h2, h3⟩ := setsolebody_leafnode pa a x
    rw [ust_internal _ _ _ _ _ _ _ _ _ (by rw [h2, hx]; exact hr)]
    rw [foldl_single (fun r i => updatesingleacceleration_threshold sqrt θ r (kids i)) j
      (fun r => ∃ y, r = (leafnode pa a).setsolebody y) ?_ ?_ _ ⟨x, rfl⟩]
    · simp only [hj, ust_leafnode, h1, hab, h2, h3]
      simp
    · rintro r k hkj ⟨y, rfl⟩
      by_cases hki : k = i
      · subst hki
        simp only [hi, ust_leafnode, (setsolebody_leafnode pa a y).1, streq_self, if_true]
      · simp only [hk k hki hkj, ust_null]
    · rintro r ⟨y, rfl⟩
      simp only [hj, ust_leafnode, (setsolebody_leafnode pa a y).1, hab,
        (setsolebody_leafnode pa a y).2.1, (setsolebody_leafnode pa a y).2.2]
      exact ⟨_, rfl⟩
  | chain path sb kids i _ hk ih =>
    intro x hx
    obtain ⟨h1, h2, h3⟩ := setsolebody_leafnode pa a x
    rw [ust_internal _ _ _ _ _ _ _ _ _ (by rw [h2, hx]; exact hr)]
    rw [foldl_single (fun r i => updatesingleacceleration_threshold sqrt θ r (kids i)) i
      (fun _ => True) ?_ ?_ _ trivial]
    · exact ih x hx
    · intro r k hki _
      simp only [hk k hki, ust_null]
    · intro r _
      trivial

theorem uat_null (sqrt : K → K) (θ : K) (whole : Node K) :
    updateallacceleration_threshold sqrt θ whole Node.null = Node.null := by
  simp [updateallacceleration_threshold]

theorem uat_internal (sqrt : K → K) (θ : K) (whole : Node K) (path : String) (c : Fin 3 → K)
    (M e : K) (sb : body K) (kids : Fin 8 → Node K) :
    updateallacceleration_threshold sqrt θ whole (Node.mk false path c M e sb kids) =
      Node.mk false path c M e sb
        (fun i => updateallacceleration_threshold sqrt θ whole (kids i)) := by
  simp [updateallacceleration_threshold]

theorem uat_leafnode (sqrt : K → K) (θ : K) (whole : Node K) (p : String) (b : body K) :
    updateallacceleration_threshold sqrt θ whole (leafnode p b) =
      updatesingleacceleration_threshold sqrt θ (leafnode p b) whole := by
  simp [updateallacceleration_threshold, leafnode]

theorem leafbodies_setsolebody (p : String) (a x : body K) :
    leafbodies ((leafnode p a).setsolebody x) = [x] := by
  simp [leafnode, Node.setsolebody, leafbodies]

/-- After the traversal for every leaf, the leaves of the tree of a pair hold the two updated
bodies. -/
theorem uat_twotree_mem (sqrt : K → K) (θ : K) (pa pb : String) (a b a2 b2 : body K)
    (c : Fin 3 → K) (M e : K) (whole : Node K)
    (hA : updatesingleacceleration_threshold sqrt θ (leafnode pa a) whole =
      (leafnode pa a).setsolebody a2)
    (hB : updatesingleacceleration_threshold sqrt θ (leafnode pb b) whole =
      (leafnode pb b).setsolebody b2)
    (sub : Node K) (ht : TwoTree (leafnode pa a) (leafnode pb b) c M e sub) :
    ∀ l, l ∈ leafbodies (updateallacceleration_threshold sqrt θ whole sub) ↔
      l = a2 ∨ l = b2 := by
  induction ht with
  | split path sb kids i j hij hi hj hk =>
    intro l
    rw [uat_internal, leafbodies_internal, List.mem_flatMap]
    constructor
    · rintro ⟨k, _, hl⟩
      by_cases hki : k = i
      · rw [hki, hi, uat_leafnode, hA, leafbodies_setsolebody] at hl
        exact Or.inl (List.mem_singleton.mp hl)
      · by_cases hkj : k = j
        · rw [hkj, hj, uat_leafnode, hB, leafbodies_setsolebody] at hl
          exact Or.inr (List.mem_singleton.mp hl)
        · rw [hk k hki hkj, uat_null] at hl
          simp [leafbodies] at hl
    · rintro (rfl | rfl)
      · exact ⟨i, List.mem_finRange i, by
          rw [hi, uat_leafnode, hA, leafbodies_setsolebody]; exact List.mem_singleton.mpr rfl⟩
      · exact ⟨j, List.mem_finRange j, by
          rw [hj, uat_leafnode, hB, leafbodies_setsolebody]; exact List.mem_singleton.mpr rfl⟩
  | chain path sb kids i _ hk ih =>
    intro l
    rw [uat_internal, leafbodies_internal, List.mem_flatMap, ← ih l]
    constructor
    · rintro ⟨k, _, hl⟩
      by_cases hki : k = i
      · rw [hki] at hl
        exact hl
      · rw [hk k hki, uat_null] at hl
        simp [leafbodies] at hl
    · intro hl
      exact ⟨i, List.mem_finRange i, hl⟩

/-- On the tree of a pair two thresholds that agree on the two leaves agree on the tree. -/
theorem uat_twotree_eq (sqrt : K → K) (θ1 θ2 : K) (la lb : Node K) (pa pb : String)
    (a b : body K) (hla : la = leafnode pa a) (hlb : lb = leafnode pb b)
    (c : Fin 3 → K) (M e : K) (whole : Node K)
    (hA : updatesingleacceleration_threshold sqrt θ1 la whole =
      updatesingleacceleration_threshold sqrt θ2 la whole)
    (hB : updatesingleacceleration_threshold sqrt θ1 lb whole =
      updatesingleacceleration_threshold sqrt θ2 lb whole)
    (sub : Node K) (ht : TwoTree la lb c M e sub) :
    updateallacceleration_threshold sqrt θ1 whole sub =
      updateallacceleration_threshold sqrt θ2 whole sub := by
  induction ht with
  | split path sb kids i j hij hi hj hk =>
    rw [uat_internal, uat_internal]
    congr 1
    funext k
    by_cases hki : k = i
    · rw [hki, hi, hla, uat_leafnode, uat_leafnode, ← hla, hA]
    · by_cases hkj : k = j
      · rw [hkj, hj, hlb, uat_leafnode, uat_leafnode, ← hlb, hB]
      · rw [hk k hki hkj, uat_null, uat_null]
  | chain path sb kids i _ hk ih =>
    rw [uat_internal, uat_internal]
    congr 1
    funext k
    by_cases hki : k = i
    · rw [hki, ih]
    · rw [hk k hki, uat_null, uat_null]

/-- The source traversal is the traversal with threshold `3/10`. -/
theorem usa_eq_ust (sqrt : K → K) (t : Node K) :
    ∀ root, bodygen.updatesingleacceleration sqrt root t =
      updatesingleacceleration_threshold sqrt (3 / 10) root t := by
  induction t with
  | null =>
    intro root
    simp [bodygen.updatesingleacceleration, updatesingleacceleration_threshold]
  | mk isleaf path c M e sb kids ih =>
    intro root
    rw [bodygen.updatesingleacceleration, updatesingleacceleration_threshold]
    have : (fun r i => bodygen.updatesingleacceleration sqrt r (kids i)) =
        (fun r i => updatesingleacceleration_threshold sqrt (3 / 10) r (kids i)) := by
      funext r i
      exact ih i r
    rw [this]

theorem uaa_eq_uat (sqrt : K → K) (whole t : Node K) :
    bodygen.updateallacceleration sqrt whole t =
      updateallacceleration_threshold sqrt (3 / 10) whole t := by
  induction t with
  | null => simp [bodygen.updateallacceleration, updateallacceleration_threshold]
  | mk isleaf path c M e sb kids ih =>
    rw [bodygen.updateallacceleration, updateallacceleration_threshold, usa_eq_ust]
    have : (fun i => bodygen.updateallacceleration sqrt whole (kids i)) =
        (fun i => updateallacceleration_threshold sqrt (3 / 10) whole (kids i)) := by
      funext i
      exact ih i
    rw [this]

theorem sqrt_unique (sqrt : K → K) (hs : ∀ x, 0 ≤ x → 0 ≤ sqrt x ∧ sqrt x * sqrt x = x)
    (x y : K) (hy : 0 ≤ y) (hxy : y * y = x) : sqrt x = y := by
  have hx : 0 ≤ x := hxy ▸ mul_self_nonneg y
  obtain ⟨h1, h2⟩ := hs x hx
  exact (mul_self_inj h1 hy).mp (h2.trans hxy.symm)

theorem moodulus_smul (sqrt : K → K) (hs : ∀ x, 0 ≤ x → 0 ≤ sqrt x ∧ sqrt x * sqrt x = x)
    (s : K) (hs0 : 0 ≤ s) (v : Fin 3 → K) :
    moodulus sqrt (s • v) = s * moodulus sqrt v := by
  rw [moodulus_eq]
  apply sqrt_unique sqrt hs
  · rw [moodulus_eq]
    exact mul_nonneg hs0 (hs _ (dot_self_nonneg v)).1
  · have h := moodulus_mul_self sqrt (fun x hx => (hs x hx).2) v
    calc s * moodulus sqrt v * (s * moodulus sqrt v)
        = s * s * (moodulus sqrt v * moodulus sqrt v) := by ring
      _ = s * s * dot v v := by rw [h]
      _ = dot (s • v) (s • v) := by
        rw [dot_eq, dot_eq]
        simp only [Pi.smul_apply, smul_eq_mul]
        ring

theorem moodulus_neg (sqrt : K → K) (v w : Fin 3 → K) :
    moodulus sqrt (v - w) = moodulus sqrt (w - v) := by
  rw [moodulus_eq, moodulus_eq]
  congr 1
  rw [dot_eq, dot_eq]
  simp only [Pi.sub_apply]
  ring

theorem moodulus_pos (sqrt : K → K) (hs : ∀ x, 0 ≤ x → 0 ≤ sqrt x ∧ sqrt x * sqrt x = x)
    (v : Fin 3 → K) (hv : v ≠ 0) : 0 < moodulus sqrt v := by
  have h1 := moodulus_mul_self sqrt (fun x hx => (hs x hx).2) v
  have h2 := dot_self_pos v hv
  have h3 : 0 ≤ moodulus sqrt v := by
    rw [moodulus_eq]
    exact (hs _ (dot_self_nonneg v)).1
  rcases h3.lt_or_eq with h | h
  · exact h
  · rw [← h] at h1
    simp at h1
    linarith

/-- The opening-angle quotient of a pair seen from one of its two bodies is at least 1, so no
threshold up to 1 accepts the node of the pair. -/
theorem pair_ratio (sqrt : K → K) (hs : ∀ x, 0 ≤ x → 0 ≤ sqrt x ∧ sqrt x * sqrt x = x)
    (a b : body K) (hma : 0 < a.mass) (hmb : 0 < b.mass) (hp : a.position ≠ b.position)
    (θ : K) (hθ : θ ≤ 1) :
    ¬ (nodeextent sqrt [a, b] /
        moodulus sqrt (a.position - tempcogOf [a, b] (totmassOf [a, b])) < θ) ∧
    ¬ (nodeextent sqrt [a, b] /
        moodulus sqrt (b.position - tempcogOf [a, b] (totmassOf [a, b])) < θ) := by
  have hM : totmassOf [a, b] = a.mass + b.mass := by simp [totmassOf]
  have hMpos : 0 < a.mass + b.mass := add_pos hma hmb
  have hM0 : a.mass + b.mass ≠ 0 := ne_of_gt hMpos
  have hc : tempcogOf [a, b] (a.mass + b.mass) =
      (a.mass / (a.mass + b.mass)) • a.position + (b.mass / (a.mass + b.mass)) • b.position := by
    simp [tempcogOf]
  have ha : a.position - tempcogOf [a, b] (a.mass + b.mass) =
      (b.mass / (a.mass + b.mass)) • (a.position - b.position) := by
    rw [hc]
    funext k
    simp only [Pi.sub_apply, Pi.add_apply, Pi.smul_apply, smul_eq_mul]
    field_simp
    ring
  have hb : b.position - tempcogOf [a, b] (a.mass + b.mass) =
      (a.mass / (a.mass + b.mass)) • (b.position - a.position) := by
    rw [hc]
    funext k
    simp only [Pi.sub_apply, Pi.add_apply, Pi.smul_apply, smul_eq_mul]
    field_simp
    ring
  have hD : 0 < moodulus sqrt (a.position - b.position) :=
    moodulus_pos sqrt hs _ (sub_ne_zero.mpr hp)
  have hma' : 0 ≤ a.mass / (a.mass + b.mass) := le_of_lt (div_pos hma hMpos)
  have hmb' : 0 ≤ b.mass / (a.mass + b.mass) := le_of_lt (div_pos hmb hMpos)
  have hmoda := moodulus_smul sqrt hs _ hmb' (a.position - b.position)
  have hmodb := moodulus_smul sqrt hs _ hma' (b.position - a.position)
  rw [moodulus_neg sqrt b.position a.position] at hmodb
  have he : nodeextent sqrt [a, b] = moodulus sqrt (a.position - b.position) := by
    unfold nodeextent extentOf
    rw [hM]
    simp only [List.foldl_cons, List.foldl_nil, ha, hb, hmoda, hmodb, List.length_cons,
      List.length_nil]
    push_cast
    field_simp
    ring
  rw [hM, he, ha, hb, hmoda, hmodb]
  constructor
  · rw [not_lt]
    refine hθ.trans ?_
    rw [le_div_iff₀ (mul_pos (div_pos hmb hMpos) hD), one_mul]
    have : b.mass / (a.mass + b.mass) ≤ 1 := by
      rw [div_le_one hMpos]
      linarith
    nlinarith
  · rw [not_lt]
    refine hθ.trans ?_
    rw [le_div_iff₀ (mul_pos (div_pos hma hMpos) hD), one_mul]
    have : a.mass / (a.mass + b.mass) ≤ 1 := by
      rw [div_le_one hMpos]
      linarith
    nlinarith

theorem map_eq_pair {α β : Type} (f : α → β) (l : List α) (u v : β) (h : l.map f = [u, v]) :
    ∃ x y, l = [x, y] ∧ f x = u ∧ f y = v := by
  match l, h with
  | [x, y], h =>
    simp only [List.map_cons, List.map_nil, List.cons.injEq, and_true] at h
    exact ⟨x, y, rfl, h.1, h.2⟩

theorem frame_fields (a b : body K) (h : a.frame = b.frame) :
    a.position = b.position ∧ a.mass = b.mass ∧ a.index = b.index ∧
      a.newacceleration = b.newacceleration ∧ a.radius = b.radius ∧
      a.acceleration = b.acceleration :=
  ⟨(congrArg body.position h :), (congrArg body.mass h :), (congrArg body.index h :),
    (congrArg body.newacceleration h :), (congrArg body.radius h :),
    (congrArg body.acceleration h :)⟩

theorem pairstats_frame (sqrt : K → K) (a b a1 b1 : body K) (ha : a1.frame = a.frame)
    (hb : b1.frame = b.frame) :
    totmassOf [a1, b1] = totmassOf [a, b] ∧
    tempcogOf [a1, b1] (totmassOf [a1, b1]) = tempcogOf [a, b] (totmassOf [a, b]) ∧
    nodeextent sqrt [a1, b1] = nodeextent sqrt [a, b] := by
  obtain ⟨h1, h2, _⟩ := frame_fields a1 a ha
  obtain ⟨h3, h4, _⟩ := frame_fields b1 b hb
  simp [totmassOf, tempcogOf, nodeextent, extentOf, h1, h2, h3, h4]

theorem makeatree_single (sqrt : K → K) (fuel : Nat) (reg : region K) (b : body K) (t : Node K)
    (hb : reg.bodiesinregion = [b]) (h : Spacetree.makeatree sqrt fuel reg = some t) :
    t = leafnode reg.regnodepath b := by
  cases fuel with
  | zero => simp [Spacetree.makeatree] at h
  | succ fuel =>
    rcases makeatree_some sqrt fuel reg t h with ⟨b2, hb2, rfl⟩ | ⟨hne, _⟩
    · rw [hb] at hb2
      rw [List.cons.inj hb2 |>.1]
    · exact absurd hb (hne b)

theorem subregion_path (sqrt : K → K) (reg : region K) (i : Fin 8) :
    (subregion (collisionpass sqrt reg) i).regnodepath = reg.regnodepath ++ pathnames i := by
  unfold subregion
  simp only []
  rw [(collisionpass_box sqrt reg).2.2.2]

/-- The tree of a region of two bodies at distinct positions has the shape `TwoTree`. -/
theorem makeatree_pair (sqrt : K → K) (fuel : Nat) :
    ∀ (reg : region K) (a b : body K) (t : Node K), reg.bodiesinregion = [a, b] →
      reg.allinbox → Spacetree.makeatree sqrt fuel reg = some t →
      ∃ (a1 b1 : body K) (pa pb : String), a1.frame = a.frame ∧ b1.frame = b.frame ∧
        streq pa pb = false ∧ streq pb pa = false ∧
        TwoTree (leafnode pa a1) (leafnode pb b1) (tempcogOf [a, b] (totmassOf [a, b]))
          (totmassOf [a, b]) (nodeextent sqrt [a, b]) t := by
  induction fuel with
  | zero =>
    intro reg a b t _ _ h
    simp [Spacetree.makeatree] at h
  | succ fuel ih =>
    intro reg a b t hreg hbox h
    rcases makeatree_some sqrt fuel reg t h with ⟨b2, hb2, _⟩ | ⟨_, kids, rfl, hk⟩
    · rw [hreg] at hb2
      simp at hb2
    · have hfr := collisionpass_frame sqrt reg
      rw [hreg] at hfr
      obtain ⟨a1, b1, hl, ha1, hb1⟩ := map_eq_pair body.frame _ _ _ hfr
      have hbox1 := collisionpass_allinbox sqrt reg hbox
      have hsub : ∀ k, (subregion (collisionpass sqrt reg) k).bodiesinregion =
          [a1, b1].filter (fun b =>
            decide (octantof (collisionpass sqrt reg) b.position = k)) := by
        intro k
        rw [subregion_bodies_eq _ hbox1 k, hl]
      rw [hreg]
      by_cases hoct : octantof (collisionpass sqrt reg) a1.position =
          octantof (collisionpass sqrt reg) b1.position
      · have hsame : (subregion (collisionpass sqrt reg)
            (octantof (collisionpass sqrt reg) a1.position)).bodiesinregion = [a1, b1] := by
          rw [hsub]
          simp [hoct]
        have hrec := (hk _).1 (by rw [hsame]; simp)
        obtain ⟨a2, b2, pa, pb, h1, h2, h3, h4, h5⟩ :=
          ih _ a1 b1 _ hsame (subregion_allinbox _ _) hrec
        obtain ⟨e1, e2, e3⟩ := pairstats_frame sqrt a b a1 b1 ha1 hb1
        rw [e2, e1, e3] at h5
        refine ⟨a2, b2, pa, pb, h1.trans ha1, h2.trans hb1, h3, h4, ?_⟩
        refine TwoTree.chain _ _ kids _ h5 ?_
        intro k hkne
        apply (hk k).2
        rw [hsub]
        have hkb : ¬ octantof (collisionpass sqrt reg) b1.position = k := by
          rw [← hoct]
          exact fun hh => hkne hh.symm
        have hka : ¬ octantof (collisionpass sqrt reg) a1.position = k :=
          fun hh => hkne hh.symm
        simp [hka, hkb]
      · have hA : (subregion (collisionpass sqrt reg)
            (octantof (collisionpass sqrt reg) a1.position)).bodiesinregion = [a1] := by
          rw [hsub]
          have : ¬ octantof (collisionpass sqrt reg) b1.position =
              octantof (collisionpass sqrt reg) a1.position := fun hh => hoct hh.symm
          simp [this]
        have hB : (subregion (collisionpass sqrt reg)
            (octantof (collisionpass sqrt reg) b1.position)).bodiesinregion = [b1] := by
          rw [hsub]
          simp [hoct]
        have hkA := makeatree_single sqrt fuel _ a1 _ hA ((hk _).1 (by rw [hA]; simp))
        have hkB := makeatree_single sqrt fuel _ b1 _ hB ((hk _).1 (by rw [hB]; simp))
        rw [subregion_path] at hkA hkB
        refine ⟨a1, b1, _, _, ha1, hb1, ?_, ?_, TwoTree.split _ _ kids _ _ hoct hkA hkB ?_⟩
        · rw [streq_append]
          exact streq_pathnames _ _ hoct
        · rw [streq_append]
          exact streq_pathnames _ _ (fun hh => hoct hh.symm)
        · intro k hka hkb
          apply (hk k).2
          rw [hsub]
          have h1 : ¬ octantof (collisionpass sqrt reg) a1.position = k :=
            fun hh => hka hh.symm
          have h2 : ¬ octantof (collisionpass sqrt reg) b1.position = k :=
            fun hh => hkb hh.symm
          simp [h1, h2]

end Force

section ForceClaims

variable {K : Type} [LinearOrderedField K]

theorem addpointmass_newacceleration (sqrt : K → K) (a1 b1 a b : body K)
    (ha : a1.frame = a.frame) (hb : b1.frame = b.frame) (ha0 : a.newacceleration = 0) :
    (addpointmass sqrt a1 b1.position b1.mass).newacceleration = pairacceleration sqrt a b := by
  obtain ⟨h1, _, _, h4, _⟩ := frame_fields a1 a ha
  obtain ⟨h5, h6, _⟩ := frame_fields b1 b hb
  funext k
  simp only [addpointmass, pairacceleration, h1, h4, h5, h6, ha0, Pi.add_apply, Pi.zero_apply,
    Pi.smul_apply, Pi.sub_apply, smul_eq_mul, zero_add]
  ring

/-- C5: for two bodies with positive masses at distinct positions inside the box and with zero
pending acceleration, and an exact square root, `Spacetree::makeatree` returns a tree, and after
`bodygen::updateallacceleration` on it the leaves hold exactly two bodies: the first with
pending acceleration `G * m_2 * (p_2 - p_1) / |p_2 - p_1|^3`, the second with
`G * m_1 * (p_1 - p_2) / |p_1 - p_2|^3`; index, position and mass are those handed in.  The
result is the same tree as the one the evaluator gives with threshold 0. -/
theorem C5_two_body_exact [Archimedean K] (sqrt : K → K)
    (hs : ∀ x, 0 ≤ x → 0 ≤ sqrt x ∧ sqrt x * sqrt x = x) (reg : region K) (a b : body K)
    (hreg : reg.bodiesinregion = [a, b]) (hma : 0 < a.mass) (hmb : 0 < b.mass)
    (hp : a.position ≠ b.position) (hbox : reg.allinbox)
    (ha0 : a.newacceleration = 0) (hb0 : b.newacceleration = 0) :
    (∃ fuel t, Spacetree.makeatree sqrt fuel reg = some t) ∧
    ∀ fuel t, Spacetree.makeatree sqrt fuel reg = some t →
      ∃ a2 b2 : body K,
        (∀ l, l ∈ leafbodies (bodygen.updateallacceleration sqrt t t) ↔ l = a2 ∨ l = b2) ∧
        a2.index = a.index ∧ a2.position = a.position ∧ a2.mass = a.mass ∧
        a2.newacceleration = pairacceleration sqrt a b ∧
        b2.index = b.index ∧ b2.position = b.position ∧ b2.mass = b.mass ∧
        b2.newacceleration = pairacceleration sqrt b a ∧
        bodygen.updateallacceleration sqrt t t = updateallacceleration_threshold sqrt 0 t t := by
  constructor
  · have hdist : (reg.bodiesinregion.map body.position).Nodup := by
      rw [hreg]
      simp [hp]
    obtain ⟨d, hd⟩ := exists_separated reg hdist
    obtain ⟨t, ht, _⟩ := makeatree_terminates sqrt d reg (by rw [hreg]; simp) hbox hd (d + 1)
      (by omega)
    exact ⟨d + 1, t, ht⟩
  · intro fuel t ht
    obtain ⟨a1, b1, pa, pb, ha1, hb1, hab, hba, htt⟩ := makeatree_pair sqrt fuel reg a b t hreg
      hbox ht
    obtain ⟨pa1, ma1, ia1, _⟩ := frame_fields a1 a ha1
    obtain ⟨pb1, mb1, ib1, _⟩ := frame_fields b1 b hb1
    have hratio : ∀ θ : K, θ ≤ 1 →
        ¬ (nodeextent sqrt [a, b] /
          moodulus sqrt (a1.position - tempcogOf [a, b] (totmassOf [a, b])) < θ) ∧
        ¬ (nodeextent sqrt [a, b] /
          moodulus sqrt (b1.position - tempcogOf [a, b] (totmassOf [a, b])) < θ) := by
      intro θ hθ
      rw [pa1, pb1]
      exact pair_ratio sqrt hs a b hma hmb hp θ hθ
    have hA : ∀ θ : K, θ ≤ 1 →
        updatesingleacceleration_threshold sqrt θ (leafnode pa a1) t =
          (leafnode pa a1).setsolebody (addpointmass sqrt a1 b1.position b1.mass) :=
      fun θ hθ => ust_twotree sqrt θ pa pb a1 b1 _ _ _ hab (hratio θ hθ).1 t htt a1 rfl
    have hB : ∀ θ : K, θ ≤ 1 →
        updatesingleacceleration_threshold sqrt θ (leafnode pb b1) t =
          (leafnode pb b1).setsolebody (addpointmass sqrt b1 a1.position a1.mass) :=
      fun θ hθ => ust_twotree sqrt θ pb pa b1 a1 _ _ _ hba (hratio θ hθ).2 t
        (TwoTree.symm _ _ _ _ _ _ htt) b1 rfl
    have h3 : (3 / 10 : K) ≤ 1 := by norm_num
    have h0 : (0 : K) ≤ 1 := by norm_num
    refine ⟨addpointmass sqrt a1 b1.position b1.mass, addpointmass sqrt b1 a1.position a1.mass,
      ?_, ia1, pa1, ma1, addpointmass_newacceleration sqrt a1 b1 a b ha1 hb1 ha0,
      ib1, pb1, mb1, addpointmass_newacceleration sqrt b1 a1 b a hb1 ha1 hb0, ?_⟩
    · rw [uaa_eq_uat]
      exact uat_twotree_mem sqrt _ pa pb a1 b1 _ _ _ _ _ t (hA _ h3) (hB _ h3) t htt
    · rw [uaa_eq_uat]
      exact uat_twotree_eq sqrt _ _ _ _ pa pb a1 b1 rfl rfl _ _ _ t
        ((hA _ h3).trans (hA _ h0).symm) ((hB _ h3).trans (hB _ h0).symm) t htt

end ForceClaims

theorem real_sqrt_exact : ∀ x : ℝ, 0 ≤ x → 0 ≤ Real.sqrt x ∧ Real.sqrt x * Real.sqrt x = x :=
  fun x hx => ⟨Real.sqrt_nonneg x, Real.mul_self_sqrt hx⟩

/-- Witness for C5: the two bodies of `twobodies`, with the real square root. -/
theorem C5_two_body_exact_witness :
    (∀ x : ℝ, 0 ≤ x → 0 ≤ Real.sqrt x ∧ Real.sqrt x * Real.sqrt x = x) ∧
    twobodies.allinbox ∧
    (∃ fuel t, Spacetree.makeatree Real.sqrt fuel twobodies = some t) ∧
    ∀ fuel t, Spacetree.makeatree Real.sqrt fuel twobodies = some t →
      ∃ a2 b2 : body ℝ,
        (∀ l, l ∈ leafbodies (bodygen.updateallacceleration Real.sqrt t t) ↔ l = a2 ∨ l = b2) ∧
        a2.index = 0 ∧ a2.position = ![2, 2, 2] ∧ a2.mass = 2 ∧
        a2.newacceleration = pairacceleration Real.sqrt
          ⟨![2, 2, 2], 0, 0, 0, 2, 1, 0⟩ ⟨![6, 2, 2], 0, 0, 0, 3, 1, 1⟩ ∧
        b2.index = 1 ∧ b2.position = ![6, 2, 2] ∧ b2.mass = 3 ∧
        b2.newacceleration = pairacceleration Real.sqrt
          ⟨![6, 2, 2], 0, 0, 0, 3, 1, 1⟩ ⟨![2, 2, 2], 0, 0, 0, 2, 1, 0⟩ ∧
        bodygen.updateallacceleration Real.sqrt t t =
          updateallacceleration_threshold Real.sqrt 0 t t := by
  have hbox : twobodies.allinbox := by
    simp [twobodies, region.allinbox, inbox_iff]
    norm_num
  exact ⟨real_sqrt_exact, hbox,
    C5_two_body_exact Real.sqrt real_sqrt_exact twobodies ⟨![2, 2, 2], 0, 0, 0, 2, 1, 0⟩
      ⟨![6, 2, 2], 0, 0, 0, 3, 1, 1⟩ rfl (by norm_num) (by norm_num)
      (vec3_ne_of_zero_ne _ _ _ _ _ _ (by norm_num)) hbox rfl rfl⟩


section Chains

variable {K : Type}

theorem foldr_comparetree_false (root : Node K) (kids : Fin 8 → Node K) (l : List (Fin 8))
    (h : ∀ i ∈ l, (kids i).isnull = false → bodygen.comparetree root (kids i) = false) :
    l.foldr (fun i rest =>
      if (kids i).isnull then rest else bodygen.comparetree root (kids i)) false = false := by
  induction l with
  | nil => rfl
  | cons x l ih =>
    rw [List.foldr_cons]
    by_cases hx : (kids x).isnull = true
    · rw [if_pos hx]
      exact ih (fun i hi => h i (List.mem_cons_of_mem _ hi))
    · rw [if_neg hx]
      exact h x (List.mem_cons_self _ _) (by simpa using hx)

theorem map_eq_singleton_body (l : List (body K)) (p : Fin 3 → K)
    (h : l.map body.position = [p]) : ∃ b, l = [b] ∧ b.position = p := by
  match l, h with
  | [b], h =>
    simp only [List.map_cons, List.map_nil, List.cons.injEq, and_true] at h
    exact ⟨b, rfl, h⟩

end Chains

section SelfUse

variable {K : Type} [LinearOrderedField K]

theorem streqAux_append_nil (p a : List Char) : streqAux (p ++ a) p = streqAux a [] := by
  induction p with
  | nil => rfl
  | cons c cs ih => simp [streqAux, ih]

theorem streq_append_self (p a : String) : streq (p ++ a) p = streqAux a.data [] := by
  unfold streq
  rw [String.data_append, streqAux_append_nil]

theorem streq_dlr_dll (p w : String) :
    streq (p ++ pathnames 1) (p ++ pathnames 0 ++ w) = false := by
  rw [String.append_assoc, streq_append]
  unfold streq
  rw [String.data_append]
  simp [pathnames, streqAux]

/-- A leaf whose path is not a left part of any path below `reg.regnodepath` is not found by
`comparetree` anywhere in the tree of `reg`. -/
theorem comparetree_false_of_paths (sqrt : K → K) (root : Node K) (fuel : Nat) :
    ∀ (reg : region K) (t : Node K), Spacetree.makeatree sqrt fuel reg = some t →
      (∀ w : String, streq root.nodepath (reg.regnodepath ++ w) = false) →
      bodygen.comparetree root t = false := by
  induction fuel with
  | zero =>
    intro reg t h
    simp [Spacetree.makeatree] at h
  | succ fuel ih =>
    intro reg t h hw
    have h0 : streq root.nodepath reg.regnodepath = false := by
      have := hw ""
      rwa [String.append_empty] at this
    rcases makeatree_some sqrt fuel reg t h with ⟨b, _, rfl⟩ | ⟨_, kids, rfl, hk⟩
    · rw [comparetree_leafnode, h0]
    · rw [bodygen.comparetree, h0]
      simp only [Bool.false_eq_true, if_false]
      apply foldr_comparetree_false
      intro i _ hnull
      by_cases hlen : 1 ≤ (subregion (collisionpass sqrt reg) i).bodiesinregion.length
      · apply ih _ _ ((hk i).1 hlen)
        intro w
        rw [subregion_path, String.append_assoc]
        exact hw _
      · have hnil : (subregion (collisionpass sqrt reg) i).bodiesinregion = [] := by
          apply List.eq_nil_of_length_eq_zero
          omega
        rw [(hk i).2 hnil] at hnull
        simp [Node.isnull] at hnull

theorem makeatree_not_null (sqrt : K → K) (fuel : Nat) (reg : region K) (t : Node K)
    (h : Spacetree.makeatree sqrt fuel reg = some t) : t.isnull = false := by
  cases fuel with
  | zero => simp [Spacetree.makeatree] at h
  | succ fuel =>
    rcases makeatree_some sqrt fuel reg t h with ⟨b, _, rfl⟩ | ⟨_, kids, rfl, _⟩
    · rfl
    · rfl

theorem octantof_collisionpass (sqrt : K → K) (reg : region K) (p : Fin 3 → K) :
    octantof (collisionpass sqrt reg) p = octantof reg p := by
  obtain ⟨hx, hy, hz, _⟩ := collisionpass_box sqrt reg
  unfold octantof
  rw [hx, hy, hz]

/-- The positions handed to octant `i`, in terms of the positions of the region. -/
theorem subregion_positions (sqrt : K → K) (reg : region K) (hbox : reg.allinbox) (i : Fin 8) :
    (subregion (collisionpass sqrt reg) i).bodiesinregion.map body.position =
      (reg.bodiesinregion.map body.position).filter (fun p => decide (octantof reg p = i)) := by
  rw [subregion_bodies_eq _ (collisionpass_allinbox sqrt reg hbox) i,
    ← collisionpass_position sqrt reg, List.filter_map]
  congr 1
  apply List.filter_congr
  intro b _
  simp [octantof_collisionpass]

/-- When octant 1 receives exactly one body, octant 0 receives some body, and the opening-angle
quotient of the whole region seen from the body in octant 1 is below `0.3`, the traversal for
the leaf of that body takes the root of the tree, which contains that leaf, as one point
mass. -/
theorem root_used_for_own_leaf (sqrt : K → K) (reg : region K) (fuel : Nat) (t : Node K)
    (ht : Spacetree.makeatree sqrt fuel reg = some t) (hbox : reg.allinbox) (pL : Fin 3 → K)
    (h1 : (reg.bodiesinregion.map body.position).filter
      (fun p => decide (octantof reg p = 1)) = [pL])
    (h0 : (reg.bodiesinregion.map body.position).filter
      (fun p => decide (octantof reg p = 0)) ≠ [])
    (hratio : nodeextent sqrt reg.bodiesinregion /
      moodulus sqrt (pL - tempcogOf reg.bodiesinregion (totmassOf reg.bodiesinregion)) <
        3 / 10) :
    ∃ (bL : body K) (kids : Fin 8 → Node K), bL.position = pL ∧
      t = Node.mk false reg.regnodepath
        (tempcogOf reg.bodiesinregion (totmassOf reg.bodiesinregion))
        (totmassOf reg.bodiesinregion) (nodeextent sqrt reg.bodiesinregion) body.garbage kids ∧
      kids 1 = leafnode (reg.regnodepath ++ pathnames 1) bL ∧
      bL ∈ leafbodies t ∧
      bodygen.comparetree (kids 1) t = false ∧
      bodygen.updatesingleacceleration sqrt (kids 1) t =
        (kids 1).setsolebody (addpointmass sqrt bL
          (tempcogOf reg.bodiesinregion (totmassOf reg.bodiesinregion))
          (totmassOf reg.bodiesinregion)) := by
  cases fuel with
  | zero => simp [Spacetree.makeatree] at ht
  | succ fuel =>
    rcases makeatree_some sqrt fuel reg t ht with ⟨b, hb, _⟩ | ⟨_, kids, rfl, hk⟩
    · exfalso
      rw [hb] at h1 h0
      simp only [List.map_cons, List.map_nil] at h1 h0
      by_cases hc : octantof reg b.position = 1
      · apply h0
        simp [hc]
      · simp [hc] at h1
    · have hp1 := subregion_positions sqrt reg hbox 1
      rw [h1] at hp1
      obtain ⟨bL, hbL, hpos⟩ := map_eq_singleton_body _ _ hp1
      have hk1 := makeatree_single sqrt fuel _ bL _ hbL ((hk 1).1 (by rw [hbL]; simp))
      rw [subregion_path] at hk1
      have hp0 := subregion_positions sqrt reg hbox 0
      have hne0 : (subregion (collisionpass sqrt reg) 0).bodiesinregion ≠ [] := by
        intro hnil
        rw [hnil] at hp0
        exact h0 hp0.symm
      have hlen0 : 1 ≤ (subregion (collisionpass sqrt reg) 0).bodiesinregion.length :=
        List.length_pos.mpr hne0
      have hk0 := (hk 0).1 hlen0
      have hnull0 := makeatree_not_null sqrt fuel _ _ hk0
      have hc0 : bodygen.comparetree (kids 1) (kids 0) = false := by
        apply comparetree_false_of_paths sqrt (kids 1) fuel _ _ hk0
        intro w
        rw [hk1, subregion_path]
        exact streq_dlr_dll _ _
      have hself : streq (kids 1).nodepath reg.regnodepath = false := by
        rw [hk1]
        show streq (reg.regnodepath ++ pathnames 1) reg.regnodepath = false
        rw [streq_append_self]
        decide
      have hcmp : bodygen.comparetree (kids 1)
          (Node.mk false reg.regnodepath
            (tempcogOf reg.bodiesinregion (totmassOf reg.bodiesinregion))
            (totmassOf reg.bodiesinregion) (nodeextent sqrt reg.bodiesinregion) body.garbage
            kids) = false := by
        rw [bodygen.comparetree, hself, finRange_eight]
        simp only [Bool.false_eq_true, if_false, List.foldr_cons, hnull0, hc0]
      have hbody : (kids 1).solebody = bL := by
        rw [hk1]
        rfl
      refine ⟨bL, kids, hpos, rfl, hk1, ?_, hcmp, ?_⟩
      · rw [leafbodies_internal, List.mem_flatMap]
        exact ⟨1, List.mem_finRange 1, by rw [hk1]; simp [leafnode, leafbodies]⟩
      · rw [bodygen.updatesingleacceleration, hcmp, hbody, hpos]
        simp [hratio]

end SelfUse

section Cluster

theorem moodulus_axis {K : Type} [LinearOrderedField K] (sqrt : K → K)
    (hs : ∀ x, 0 ≤ x → 0 ≤ sqrt x ∧ sqrt x * sqrt x = x) (v : Fin 3 → K) (h1 : v 1 = 0)
    (h2 : v 2 = 0) : moodulus sqrt v = |v 0| := by
  rw [moodulus_eq]
  apply sqrt_unique sqrt hs _ _ (abs_nonneg _)
  rw [dot_eq, h1, h2, abs_mul_abs_self]
  ring

theorem cluster_octantof (x : ℝ) :
    octantof clusterregion ![x, 0, 0] = if 512 ≤ x then 1 else 0 := by
  unfold octantof clusterregion
  norm_num

theorem cluster_allinbox : clusterregion.allinbox := by
  simp [clusterregion, region.allinbox, inbox_iff]
  norm_num

theorem cluster_distinct : (clusterregion.bodiesinregion.map body.position).Nodup := by
  simp [clusterregion, vec3_ne_of_zero_ne]

theorem cluster_positions : clusterregion.bodiesinregion.map body.position =
    [![0, 0, 0], ![1, 0, 0], ![2, 0, 0], ![3, 0, 0], ![4, 0, 0], ![5, 0, 0], ![6, 0, 0],
      ![1000, 0, 0]] := rfl

theorem cluster_totmass : totmassOf clusterregion.bodiesinregion = 997 := by
  simp [totmassOf, clusterregion]
  norm_num

theorem cluster_cog : tempcogOf clusterregion.bodiesinregion 997 = ![4, 0, 0] := by
  funext k
  fin_cases k <;> simp [tempcogOf, clusterregion]
  norm_num

theorem cluster_moodulus (x : ℝ) :
    moodulus Real.sqrt ((![x, 0, 0] : Fin 3 → ℝ) - ![4, 0, 0]) = |x - 4| := by
  rw [moodulus_axis Real.sqrt real_sqrt_exact _ (by simp) (by simp)]
  simp

theorem cluster_extent : nodeextent Real.sqrt clusterregion.bodiesinregion = 2 * 1009 / 8 := by
  unfold nodeextent extentOf
  rw [cluster_totmass, cluster_cog]
  simp only [clusterregion, List.foldl_cons, List.foldl_nil, cluster_moodulus, List.length_cons,
    List.length_nil]
  norm_num [abs_of_nonneg, abs_of_nonpos]

theorem cluster_ratio : nodeextent Real.sqrt clusterregion.bodiesinregion /
    moodulus Real.sqrt ((![1000, 0, 0] : Fin 3 → ℝ) -
      tempcogOf clusterregion.bodiesinregion (totmassOf clusterregion.bodiesinregion)) <
      3 / 10 := by
  rw [cluster_extent, cluster_totmass, cluster_cog, cluster_moodulus]
  norm_num [abs_of_nonneg]

theorem cluster_octant1 : (clusterregion.bodiesinregion.map body.position).filter
    (fun p => decide (octantof clusterregion p = 1)) = [![1000, 0, 0]] := by
  rw [cluster_positions]
  simp only [List.filter_cons, List.filter_nil, cluster_octantof]
  norm_num

theorem cluster_octant0 : (clusterregion.bodiesinregion.map body.position).filter
    (fun p => decide (octantof clusterregion p = 0)) ≠ [] := by
  rw [cluster_positions]
  simp only [List.filter_cons, List.filter_nil, cluster_octantof]
  norm_num
  exact List.cons_ne_nil _ _

/-- C6, evaluation at the failing input: in the tree of `clusterregion` the traversal of
`bodygen::updatesingleacceleration` for the leaf of the light body (octant 1 of the root) is not
stopped by `bodygen::comparetree` at the root and takes the root, whose subtree contains that
leaf and whose aggregate mass 997 includes the mass of that body, as its single point mass. -/
theorem C6_root_used_for_own_leaf_at_cluster :
    ∃ (fuel : Nat) (t : Node ℝ) (bL : body ℝ) (kids : Fin 8 → Node ℝ),
      Spacetree.makeatree Real.sqrt fuel clusterregion = some t ∧
      t = Node.mk false "" ![4, 0, 0] 997 (2 * 1009 / 8) body.garbage kids ∧
      kids 1 = leafnode "dlr" bL ∧ bL.position = ![1000, 0, 0] ∧ bL ∈ leafbodies t ∧
      bodygen.comparetree (kids 1) t = false ∧
      bodygen.updatesingleacceleration Real.sqrt (kids 1) t =
        (kids 1).setsolebody (addpointmass Real.sqrt bL ![4, 0, 0] 997) := by
  obtain ⟨d, hd⟩ := exists_separated clusterregion cluster_distinct
  obtain ⟨t, ht, _⟩ := makeatree_terminates Real.sqrt d clusterregion
    (by simp [clusterregion]) cluster_allinbox hd (d + 1) (by omega)
  obtain ⟨bL, kids, h1, h2, h3, h4, h5, h6⟩ := root_used_for_own_leaf Real.sqrt clusterregion
    (d + 1) t ht cluster_allinbox ![1000, 0, 0] cluster_octant1 cluster_octant0 cluster_ratio
  rw [cluster_totmass, cluster_cog] at h2 h6
  rw [cluster_extent] at h2
  exact ⟨d + 1, t, bL, kids, ht, h2, h3, h1, h4, h5, h6⟩

end Cluster

/-! ## The integrator on a leaf -/

section Integrator

variable {K : Type} [LinearOrderedField K]

theorem update_leaf_eq (timestep : K) (nodepath : String) (cog : Fin 3 → K) (cogmass extent : K)
    (b : body K) (Nodelist : Fin 8 → Node K) (bodyvector : List (body K)) :
    bodygen.update timestep (Node.mk true nodepath cog cogmass extent b Nodelist) bodyvector =
      (Node.mk true nodepath cog cogmass extent (verletstep timestep b) Nodelist,
        storewrite bodyvector b.index (verletstep timestep b)) := by
  simp [bodygen.update, verletstep]

/-- C7: one application of `bodygen::update` to a leaf keeps the node and its other fields, sets
the position of its body to `x + dt*v + 0.5*dt^2*a`, the velocity to `v + 0.5*dt*(a + a')`, the
acceleration to `a'` and the pending acceleration to zero, and leaves mass, radius and index
unchanged. -/
theorem C7_update_leaf (timestep : K) (nodepath : String) (cog : Fin 3 → K) (cogmass extent : K)
    (b : body K) (Nodelist : Fin 8 → Node K) (bodyvector : List (body K)) :
    ∃ b1 : body K,
      (bodygen.update timestep (Node.mk true nodepath cog cogmass extent b Nodelist)
        bodyvector).1 = Node.mk true nodepath cog cogmass extent b1 Nodelist ∧
      (∀ k, b1.position k =
        b.position k + timestep * b.velocity k + 1 / 2 * timestep ^ 2 * b.acceleration k) ∧
      (∀ k, b1.velocity k =
        b.velocity k + 1 / 2 * timestep * (b.acceleration k + b.newacceleration k)) ∧
      b1.acceleration = b.newacceleration ∧
      b1.newacceleration = 0 ∧
      b1.mass = b.mass ∧ b1.radius = b.radius ∧ b1.index = b.index := by
  refine ⟨verletstep timestep b, ?_, ?_, ?_, rfl, rfl, rfl, rfl, rfl⟩
  · rw [update_leaf_eq]
  · intro k
    simp [verletstep, pow_two, mul_assoc]
  · intro k
    simp [verletstep]
    ring

end Integrator


/-! ## Degenerate regions: one body, no body, coincident bodies, a body on the boundary -/

section Degenerate

variable {K : Type} [LinearOrderedField K]

theorem makeatree_one (sqrt : K → K) (fuel : Nat) (reg : region K) (b : body K)
    (hb : reg.bodiesinregion = [b]) :
    Spacetree.makeatree sqrt (fuel + 1) reg = some (leafnode reg.regnodepath b) := by
  simp [Spacetree.makeatree, hb]

theorem usa_leaf_self (sqrt : K → K) (p : String) (b : body K) :
    bodygen.updatesingleacceleration sqrt (leafnode p b) (leafnode p b) = leafnode p b := by
  rw [usa_eq_ust, ust_leafnode]
  have : (leafnode p b).nodepath = p := rfl
  rw [this, streq_self]
  rfl

/-- C17: for a region with exactly one body `Spacetree::treegen` (with recursion depth at least
1) returns the single leaf holding that body, with the path of the region, `extent` 0, `cog` the
position, `cogmass` the mass and eight absent children; on that tree `bodygen::comparetree` of
the leaf with itself is true, so the guard of `bodygen::updatesingleacceleration` is false before
the quotient by the zero self-distance is reached, and `bodygen::updateallacceleration` returns
the tree unchanged: a zero pending acceleration stays zero. -/
theorem C17_single_body (sqrt : K → K) (reg : region K) (b : body K)
    (hb : reg.bodiesinregion = [b]) (fuel : Nat) :
    Spacetree.treegen sqrt (fuel + 1) reg =
      some (Node.mk true reg.regnodepath b.position b.mass 0 b (fun _ => Node.null)) ∧
    bodygen.comparetree (leafnode reg.regnodepath b) (leafnode reg.regnodepath b) = true ∧
    bodygen.updateallacceleration sqrt (leafnode reg.regnodepath b)
      (leafnode reg.regnodepath b) = leafnode reg.regnodepath b ∧
    (b.newacceleration = 0 →
      ∀ l ∈ leafbodies (bodygen.updateallacceleration sqrt (leafnode reg.regnodepath b)
        (leafnode reg.regnodepath b)), l.newacceleration = 0) := by
  have hself : bodygen.updateallacceleration sqrt (leafnode reg.regnodepath b)
      (leafnode reg.regnodepath b) = leafnode reg.regnodepath b := by
    rw [uaa_eq_uat, uat_leafnode, ← usa_eq_ust, usa_leaf_self]
  refine ⟨?_, ?_, hself, ?_⟩
  · unfold Spacetree.treegen
    exact makeatree_one sqrt fuel { reg with checkcol := false } b hb
  · rw [comparetree_leafnode]
    exact streq_self _
  · intro h0 l hl
    rw [hself] at hl
    have : l = b := by simpa [leafnode, leafbodies] using hl
    rw [this, h0]

/-- The tree of a region without bodies: an internal node without children. -/
theorem makeatree_nil (sqrt : K → K) (fuel : Nat) (reg : region K)
    (h : reg.bodiesinregion = []) :
    Spacetree.makeatree sqrt (fuel + 1) reg =
      some (Node.mk false reg.regnodepath 0 0 (nodeextent sqrt []) body.garbage
        (fun _ => Node.null)) := by
  have hsome := makeatree_of_kids sqrt fuel reg (by rw [h]; simp) (by
    intro i hlen
    exfalso
    have hsub : ((subregion (collisionpass sqrt reg) i).bodiesinregion.map body.position).Sublist
        (reg.bodiesinregion.map body.position) := subregion_position_sublist sqrt reg i
    rw [h] at hsub
    have := hsub.length_le
    simp at this
    rw [this] at hlen
    simp at hlen)
  obtain ⟨t, ht⟩ := Option.isSome_iff_exists.mp hsome
  rw [ht]
  rcases makeatree_some sqrt fuel reg t ht with ⟨b, hb, _⟩ | ⟨_, kids, rfl, hk⟩
  · rw [h] at hb
    simp at hb
  · have hkids : kids = fun _ => Node.null := by
      funext i
      apply (hk i).2
      have hsub := subregion_position_sublist sqrt reg i
      rw [h] at hsub
      have := hsub.length_le
      simpa using this
    rw [hkids, h]
    simp [tempcogOf, totmassOf]

/-- C18, as the code behaves: for a region without bodies `Spacetree::makeatree` and
`Spacetree::treegen` (with recursion depth at least 1) raise no error; they return an internal
node with the path of the region, `cogmass` 0, `cog` (0,0,0) and eight absent children. -/
theorem C18_empty_region_returns_node (sqrt : K → K) (reg : region K)
    (h : reg.bodiesinregion = []) (fuel : Nat) :
    ∃ extent : K,
      Spacetree.makeatree sqrt (fuel + 1) reg =
        some (Node.mk false reg.regnodepath 0 0 extent body.garbage (fun _ => Node.null)) ∧
      Spacetree.treegen sqrt (fuel + 1) reg =
        some (Node.mk false reg.regnodepath 0 0 extent body.garbage (fun _ => Node.null)) :=
  ⟨nodeextent sqrt [], makeatree_nil sqrt fuel reg h,
    makeatree_nil sqrt fuel { reg with checkcol := false } h⟩

end Degenerate

/-- Witness for C17: the region of `twobodies` with only its first body. -/
theorem C17_single_body_witness :
    Spacetree.treegen Real.sqrt (0 + 1)
        { twobodies with bodiesinregion := [⟨![2, 2, 2], 0, 0, 0, 2, 1, 0⟩] } =
      some (Node.mk true "" ![2, 2, 2] 2 0 ⟨![2, 2, 2], 0, 0, 0, 2, 1, 0⟩
        (fun _ => Node.null)) :=
  (C17_single_body Real.sqrt { twobodies with bodiesinregion := [⟨![2, 2, 2], 0, 0, 0, 2, 1, 0⟩] }
    ⟨![2, 2, 2], 0, 0, 0, 2, 1, 0⟩ rfl 0).1

/-- C18, counterexample: on the box [0,8)^3 without bodies `Spacetree::makeatree` and
`Spacetree::treegen` return a node instead of failing. -/
theorem C18_empty_region_no_error :
    (Spacetree.makeatree Real.sqrt 1 emptyregion).isSome = true ∧
    (Spacetree.treegen Real.sqrt 1 emptyregion).isSome = true := by
  constructor
  · rw [makeatree_nil Real.sqrt 0 emptyregion rfl]
    rfl
  · unfold Spacetree.treegen
    rw [makeatree_nil Real.sqrt 0 { emptyregion with checkcol := false } rfl]
    rfl

/-- Witness for the amended C18: the box [0,8)^3 without bodies. -/
theorem C18_empty_region_returns_node_witness :
    emptyregion.bodiesinregion = [] ∧
    ∃ extent : ℝ,
      Spacetree.makeatree Real.sqrt (0 + 1) emptyregion =
        some (Node.mk false emptyregion.regnodepath 0 0 extent body.garbage
          (fun _ => Node.null)) ∧
      Spacetree.treegen Real.sqrt (0 + 1) emptyregion =
        some (Node.mk false emptyregion.regnodepath 0 0 extent body.garbage
          (fun _ => Node.null)) :=
  ⟨rfl, C18_empty_region_returns_node Real.sqrt emptyregion rfl 0⟩


section Degenerate2

variable {K : Type} [LinearOrderedField K]

theorem countP_position_collisionpass (sqrt : K → K) (reg : region K) (p : Fin 3 → K) :
    (collisionpass sqrt reg).bodiesinregion.countP (fun b => decide (b.position = p)) =
      reg.bodiesinregion.countP (fun b => decide (b.position = p)) := by
  have h := collisionpass_position sqrt reg
  have e : ∀ l : List (body K), l.countP (fun b => decide (b.position = p)) =
      (l.map body.position).countP (fun q => decide (q = p)) := by
    intro l
    rw [List.countP_map]
    rfl
  rw [e, e, h]

/-- All bodies at a position of the box go to the octant of that position. -/
theorem coincident_step (sqrt : K → K) (reg : region K) (p : Fin 3 → K)
    (hin : inbox reg.xrange reg.yrange reg.zrange p = true) :
    inbox (subregion (collisionpass sqrt reg) (octantof reg p)).xrange
        (subregion (collisionpass sqrt reg) (octantof reg p)).yrange
        (subregion (collisionpass sqrt reg) (octantof reg p)).zrange p = true ∧
    (subregion (collisionpass sqrt reg) (octantof reg p)).bodiesinregion.countP
        (fun b => decide (b.position = p)) =
      reg.bodiesinregion.countP (fun b => decide (b.position = p)) := by
  obtain ⟨hx, hy, hz, _⟩ := collisionpass_box sqrt reg
  have hin' : inbox (collisionpass sqrt reg).xrange (collisionpass sqrt reg).yrange
      (collisionpass sqrt reg).zrange p = true := by rw [hx, hy, hz]; exact hin
  have hoct := (inbox_octant_iff (collisionpass sqrt reg) p hin' (octantof reg p)).mpr
    (octantof_collisionpass sqrt reg p)
  refine ⟨hoct, ?_⟩
  rw [← countP_position_collisionpass sqrt reg p]
  unfold subregion
  simp only []
  rw [List.countP_filter]
  apply List.countP_congr
  intro b _
  simp only [Bool.and_eq_true, decide_eq_true_eq]
  constructor
  · exact fun h => h.1
  · intro h
    exact ⟨h, h ▸ hoct⟩

theorem makeatree_coincident_none (sqrt : K → K) (fuel : Nat) :
    ∀ (reg : region K) (p : Fin 3 → K), inbox reg.xrange reg.yrange reg.zrange p = true →
      2 ≤ reg.bodiesinregion.countP (fun b => decide (b.position = p)) →
      Spacetree.makeatree sqrt fuel reg = none := by
  induction fuel with
  | zero =>
    intro reg p _ _
    rfl
  | succ fuel ih =>
    intro reg p hin h2
    by_contra hne
    obtain ⟨t, ht⟩ := Option.ne_none_iff_exists'.mp hne
    rcases makeatree_some sqrt fuel reg t ht with ⟨b, hb, _⟩ | ⟨_, kids, _, hk⟩
    · rw [hb] at h2
      have := List.countP_le_length (fun b : body K => decide (b.position = p)) (l := [b])
      simp only [List.length_singleton] at this
      omega
    · obtain ⟨h1, hc⟩ := coincident_step sqrt reg p hin
      have hlen : 1 ≤ (subregion (collisionpass sqrt reg)
          (octantof reg p)).bodiesinregion.length := by
        have := List.countP_le_length (fun b : body K => decide (b.position = p))
          (l := (subregion (collisionpass sqrt reg) (octantof reg p)).bodiesinregion)
        omega
      have hsome := (hk (octantof reg p)).1 hlen
      rw [ih _ p h1 (by rw [hc]; exact h2)] at hsome
      exact Option.noConfusion hsome

/-- C19: when two bodies of a region sit at the same position `p` of the half-open box, the
octant of `p` receives all bodies at `p` again (and `p` is in its half-open box), so the
recursion of `Spacetree::makeatree` never reaches regions of one body: for no recursion depth
does it return a tree. -/
theorem C19_coincident_never_terminates (sqrt : K → K) (reg : region K) (p : Fin 3 → K)
    (hin : inbox reg.xrange reg.yrange reg.zrange p = true)
    (h2 : 2 ≤ reg.bodiesinregion.countP (fun b => decide (b.position = p))) :
    (∃ i : Fin 8,
      inbox (subregion (collisionpass sqrt reg) i).xrange
        (subregion (collisionpass sqrt reg) i).yrange
        (subregion (collisionpass sqrt reg) i).zrange p = true ∧
      2 ≤ (subregion (collisionpass sqrt reg) i).bodiesinregion.countP
        (fun b => decide (b.position = p))) ∧
    ∀ fuel, Spacetree.makeatree sqrt fuel reg = none := by
  obtain ⟨h1, hc⟩ := coincident_step sqrt reg p hin
  exact ⟨⟨octantof reg p, h1, by rw [hc]; exact h2⟩,
    fun fuel => makeatree_coincident_none sqrt fuel reg p hin h2⟩

/-- A position on the maximum of the box on some axis passes the half-open test of no octant. -/
theorem inbox_octant_of_max (reg : region K) (p : Fin 3 → K) (k : Fin 3)
    (hmax : p k = ![reg.xrange.2, reg.yrange.2, reg.zrange.2] k) (i : Fin 8) :
    inbox (octantbox reg i).1 (octantbox reg i).2.1 (octantbox reg i).2.2 p = false := by
  by_contra hcon
  rw [Bool.not_eq_false, inbox_iff, octantbox_bits] at hcon
  obtain ⟨⟨a1, a2⟩, ⟨a3, a4⟩, a5, a6⟩ := hcon
  fin_cases k <;> simp only [Fin.zero_eta, Fin.mk_one, Fin.reduceFinMk, Matrix.cons_val_zero,
    Matrix.cons_val_one, Matrix.cons_val_two, Matrix.head_cons, Matrix.tail_cons] at hmax
  · split_ifs at a1 a2 <;> simp only [lowerhalf, upperhalf] at a1 a2 <;> linarith
  · split_ifs at a3 a4 <;> simp only [lowerhalf, upperhalf] at a3 a4 <;> linarith
  · split_ifs at a5 a6 <;> simp only [lowerhalf, upperhalf] at a5 a6 <;> linarith

/-- With the minimum of the box not above its maximum on that axis, it is the strict `<` test
that fails in every octant. -/
theorem arrlt_octant_of_max (reg : region K) (p : Fin 3 → K) (k : Fin 3)
    (hmax : p k = ![reg.xrange.2, reg.yrange.2, reg.zrange.2] k)
    (hle : ![reg.xrange.1, reg.yrange.1, reg.zrange.1] k ≤
      ![reg.xrange.2, reg.yrange.2, reg.zrange.2] k) (i : Fin 8) :
    arrlt p ![(octantbox reg i).1.2, (octantbox reg i).2.1.2, (octantbox reg i).2.2.2] =
      false := by
  by_contra hcon
  rw [Bool.not_eq_false, arrlt_iff, octantbox_bits] at hcon
  simp only [Matrix.cons_val_zero, Matrix.cons_val_one, Matrix.cons_val_two, Matrix.head_cons,
    Matrix.tail_cons] at hcon
  obtain ⟨a1, a2, a3⟩ := hcon
  fin_cases k <;> simp only [Fin.zero_eta, Fin.mk_one, Fin.reduceFinMk, Matrix.cons_val_zero,
    Matrix.cons_val_one, Matrix.cons_val_two, Matrix.head_cons, Matrix.tail_cons] at hmax hle
  · split_ifs at a1 <;> simp only [lowerhalf, upperhalf] at a1 <;> linarith
  · split_ifs at a2 <;> simp only [lowerhalf, upperhalf] at a2 <;> linarith
  · split_ifs at a3 <;> simp only [lowerhalf, upperhalf] at a3 <;> linarith

/-- The leaves of a tree of a region of several bodies hold bodies that passed the half-open
test of some octant. -/
theorem leaf_position_in_octant (sqrt : K → K) (fuel : Nat) (reg : region K) (t : Node K)
    (ht : Spacetree.makeatree sqrt (fuel + 1) reg = some t)
    (hne : ∀ b, reg.bodiesinregion ≠ [b]) (l : body K) (hl : l ∈ leafbodies t) :
    ∃ i : Fin 8, inbox (octantbox reg i).1 (octantbox reg i).2.1 (octantbox reg i).2.2
      l.position = true := by
  rcases makeatree_some sqrt fuel reg t ht with ⟨b, hb, _⟩ | ⟨_, kids, rfl, hk⟩
  · exact absurd hb (hne b)
  · rw [leafbodies_internal, List.mem_flatMap] at hl
    obtain ⟨i, _, hli⟩ := hl
    refine ⟨i, ?_⟩
    by_cases hlen : 1 ≤ (subregion (collisionpass sqrt reg) i).bodiesinregion.length
    · have hperm := makeatree_leaves_perm sqrt fuel _ _ ((hk i).1 hlen) (subregion_allinbox _ i)
      have hmem : l.frame ∈ (subregion (collisionpass sqrt reg) i).bodiesinregion.map
          body.frame := hperm.subset (List.mem_map_of_mem _ hli)
      obtain ⟨b, hb, hbl⟩ := List.mem_map.mp hmem
      have hpos : b.position = l.position := (congrArg body.position hbl :)
      have hin := subregion_allinbox (collisionpass sqrt reg) i b hb
      obtain ⟨hx, hy, hz, _⟩ := collisionpass_box sqrt reg
      have hbox : octantbox (collisionpass sqrt reg) i = octantbox reg i := by
        unfold octantbox
        rw [hx, hy, hz]
      unfold subregion at hin
      simp only [] at hin
      rw [hbox, hpos] at hin
      exact hin
    · have hnil : (subregion (collisionpass sqrt reg) i).bodiesinregion = [] := by
        apply List.eq_nil_of_length_eq_zero
        omega
      rw [(hk i).2 hnil] at hli
      simp [leafbodies] at hli

/-- C20: in a region of two or more bodies, a body whose position equals the maximum of the box
on some axis passes the half-open test of none of the eight octants (when the minimum of that
axis is not above the maximum it is the strict `<` test that fails in all eight), so no leaf of
a tree returned by `Spacetree::makeatree` holds a body at that position, while `cogmass` of the
returned node is the sum of the masses of all bodies of the region, this one included. -/
theorem C20_boundary_body_dropped (sqrt : K → K) (reg : region K) (b : body K)
    (hb : b ∈ reg.bodiesinregion) (h2 : 2 ≤ reg.bodiesinregion.length) (k : Fin 3)
    (hmax : b.position k = ![reg.xrange.2, reg.yrange.2, reg.zrange.2] k) :
    (∀ i : Fin 8, inbox (octantbox reg i).1 (octantbox reg i).2.1 (octantbox reg i).2.2
      b.position = false) ∧
    (![reg.xrange.1, reg.yrange.1, reg.zrange.1] k ≤
        ![reg.xrange.2, reg.yrange.2, reg.zrange.2] k →
      ∀ i : Fin 8, arrlt b.position
        ![(octantbox reg i).1.2, (octantbox reg i).2.1.2, (octantbox reg i).2.2.2] = false) ∧
    ∀ fuel t, Spacetree.makeatree sqrt fuel reg = some t →
      (∀ l ∈ leafbodies t, l.position ≠ b.position) ∧
      t.cogmassOr0 = (reg.bodiesinregion.map body.mass).sum ∧
      b.mass ∈ reg.bodiesinregion.map body.mass := by
  refine ⟨inbox_octant_of_max reg b.position k hmax, arrlt_octant_of_max reg b.position k hmax,
    ?_⟩
  intro fuel t ht
  refine ⟨?_, makeatree_cogmass sqrt fuel reg t ht, List.mem_map_of_mem _ hb⟩
  intro l hl hpos
  cases fuel with
  | zero => simp [Spacetree.makeatree] at ht
  | succ fuel =>
    have hne : ∀ c, reg.bodiesinregion ≠ [c] := by
      intro c hc
      rw [hc] at h2
      simp at h2
    obtain ⟨i, hi⟩ := leaf_position_in_octant sqrt fuel reg t ht hne l hl
    rw [hpos, inbox_octant_of_max reg b.position k hmax i] at hi
    exact Bool.false_ne_true hi

theorem separated_succ (reg : region K) (d : Nat) (h : reg.separated d) :
    reg.separated (d + 1) :=
  List.Pairwise.imp (fun {a b} hab => sep_mono reg.width a b d (d + 1) (Nat.le_succ d) hab) h

/-- Termination for a region of several bodies whose box need not contain them: the octants
contain what they receive. -/
theorem makeatree_terminates_root (sqrt : K → K) (d : Nat) (reg : region K)
    (hne : ∀ b, reg.bodiesinregion ≠ [b]) (hsep : reg.separated (d + 1)) :
    ∃ t, Spacetree.makeatree sqrt (d + 2) reg = some t := by
  apply Option.isSome_iff_exists.mp
  apply makeatree_of_kids sqrt (d + 1) reg hne
  intro i hlen
  obtain ⟨t, ht, _⟩ := makeatree_terminates sqrt d (subregion (collisionpass sqrt reg) i)
    (by intro hnil; rw [hnil] at hlen; simp at hlen) (subregion_allinbox _ i)
    (subregion_separated sqrt reg i d hsep) (d + 1) (by omega)
  rw [ht]
  rfl

theorem maxradOf_bounds (l : List (body K)) :
    (∀ b ∈ l, b.radius ≤ maxradOf l) ∧ (maxradOf l = 0 ∨ ∃ b ∈ l, b.radius = maxradOf l) := by
  unfold maxradOf
  have key : ∀ (l : List (body K)) (m : K),
      m ≤ l.foldl (fun maxrad b => if b.radius > maxrad then b.radius else maxrad) m ∧
      (∀ b ∈ l, b.radius ≤
        l.foldl (fun maxrad b => if b.radius > maxrad then b.radius else maxrad) m) ∧
      (l.foldl (fun maxrad b => if b.radius > maxrad then b.radius else maxrad) m = m ∨
        ∃ b ∈ l, b.radius =
          l.foldl (fun maxrad b => if b.radius > maxrad then b.radius else maxrad) m) := by
    intro l
    induction l with
    | nil =>
      intro m
      simp
    | cons a l ih =>
      intro m
      simp only [List.foldl_cons, List.mem_cons, forall_eq_or_imp, exists_eq_or_imp]
      obtain ⟨h1, h2, h3⟩ := ih (if a.radius > m then a.radius else m)
      have hm : m ≤ (if a.radius > m then a.radius else m) := by
        split_ifs with h
        · exact le_of_lt h
        · exact le_refl m
      have ha : a.radius ≤ (if a.radius > m then a.radius else m) := by
        split_ifs with h
        · exact le_refl _
        · exact not_lt.mp h
      refine ⟨hm.trans h1, ⟨ha.trans h1, h2⟩, ?_⟩
      rcases h3 with h3 | ⟨b, hb, hbr⟩
      · by_cases h : a.radius > m
        · right
          left
          rw [h3, if_pos h]
        · left
          rw [h3, if_neg h]
      · right
        right
        exact ⟨b, hb, hbr⟩
  obtain ⟨_, h2, h3⟩ := key l 0
  exact ⟨h2, h3⟩

/-- C13: at a node of two or more bodies built by `Spacetree::makeatree`, child `i` is the tree
of the region `subregion (collisionpass reg) i` when that region received a body and is absent
otherwise.  When `extent < 10 * maxrad` (with `maxrad` the largest radius of the region, or 0)
and the flag of the region is unset, the bodies of every such child region are those of one
`updatecollision` pass over the bodies of the region that pass the half-open test of octant `i`,
and its flag is set; in every other case they are the bodies of the region that pass the test,
unchanged, and the flag is that of the region. -/
theorem C13_collision_trigger (sqrt : K → K) (reg : region K)
    (h2 : 2 ≤ reg.bodiesinregion.length) (fuel : Nat) (t : Node K)
    (ht : Spacetree.makeatree sqrt (fuel + 1) reg = some t) :
    (∀ b ∈ reg.bodiesinregion, b.radius ≤ maxradOf reg.bodiesinregion) ∧
    (maxradOf reg.bodiesinregion = 0 ∨
      ∃ b ∈ reg.bodiesinregion, b.radius = maxradOf reg.bodiesinregion) ∧
    ∃ (children : Fin 8 → region K) (kids : Fin 8 → Node K),
      t = Node.mk false reg.regnodepath
        (tempcogOf reg.bodiesinregion (totmassOf reg.bodiesinregion))
        (totmassOf reg.bodiesinregion) (nodeextent sqrt reg.bodiesinregion) body.garbage kids ∧
      (∀ i, (1 ≤ (children i).bodiesinregion.length →
          Spacetree.makeatree sqrt fuel (children i) = some (kids i)) ∧
        ((children i).bodiesinregion = [] → kids i = Node.null)) ∧
      (nodeextent sqrt reg.bodiesinregion < 10 * maxradOf reg.bodiesinregion ∧
          reg.checkcol = false →
        ∀ i, (children i).bodiesinregion =
            (Spacetree.updatecollision sqrt reg.bodiesinregion).filter (fun b =>
              inbox (octantbox reg i).1 (octantbox reg i).2.1 (octantbox reg i).2.2
                b.position) ∧
          (children i).checkcol = true) ∧
      (¬ (nodeextent sqrt reg.bodiesinregion < 10 * maxradOf reg.bodiesinregion ∧
          reg.checkcol = false) →
        ∀ i, (children i).bodiesinregion =
            reg.bodiesinregion.filter (fun b =>
              inbox (octantbox reg i).1 (octantbox reg i).2.1 (octantbox reg i).2.2
                b.position) ∧
          (children i).checkcol = reg.checkcol) := by
  refine ⟨(maxradOf_bounds _).1, (maxradOf_bounds _).2, ?_⟩
  rcases makeatree_some sqrt fuel reg t ht with ⟨b, hb, _⟩ | ⟨_, kids, rfl, hk⟩
  · rw [hb] at h2
    simp at h2
  · refine ⟨fun i => subregion (collisionpass sqrt reg) i, kids, rfl, hk, ?_, ?_⟩
    · intro hc i
      have : collisionpass sqrt reg = { reg with
          bodiesinregion := Spacetree.updatecollision sqrt reg.bodiesinregion
          checkcol := true } := by
        unfold collisionpass
        rw [if_pos (by simp [hc.1, hc.2])]
      rw [this]
      exact ⟨rfl, rfl⟩
    · intro hc i
      have : collisionpass sqrt reg = reg := by
        unfold collisionpass
        rw [if_neg]
        intro hcon
        apply hc
        simpa using hcon
      rw [this]
      exact ⟨rfl, rfl⟩

end Degenerate2

theorem coincident_inbox : inbox coincidentregion.xrange coincidentregion.yrange
    coincidentregion.zrange ![2, 2, 2] = true := by
  simp [coincidentregion, inbox_iff]
  norm_num

theorem coincident_count : 2 ≤ coincidentregion.bodiesinregion.countP
    (fun b => decide (b.position = ![2, 2, 2])) := by
  simp [coincidentregion]

/-- Witness for C19: the two bodies of `coincidentregion` at (2, 2, 2). -/
theorem C19_coincident_never_terminates_witness :
    inbox coincidentregion.xrange coincidentregion.yrange coincidentregion.zrange
      ![2, 2, 2] = true ∧
    2 ≤ coincidentregion.bodiesinregion.countP (fun b => decide (b.position = ![2, 2, 2])) ∧
    ∀ fuel, Spacetree.makeatree Real.sqrt fuel coincidentregion = none :=
  ⟨coincident_inbox, coincident_count,
    (C19_coincident_never_terminates Real.sqrt coincidentregion ![2, 2, 2] coincident_inbox
      coincident_count).2⟩

theorem boundary_tree : ∃ fuel t, Spacetree.makeatree Real.sqrt fuel boundaryregion = some t := by
  have hdist : (boundaryregion.bodiesinregion.map body.position).Nodup := by
    simp [boundaryregion, vec3_ne_of_zero_ne]
  obtain ⟨d, hd⟩ := exists_separated boundaryregion hdist
  obtain ⟨t, ht⟩ := makeatree_terminates_root Real.sqrt d boundaryregion
    (by simp [boundaryregion]) (separated_succ _ d hd)
  exact ⟨d + 2, t, ht⟩

/-- Witness for C20: the body of `boundaryregion` on the face x = 8. -/
theorem C20_boundary_body_dropped_witness :
    ∃ fuel t, Spacetree.makeatree Real.sqrt fuel boundaryregion = some t ∧
      (∀ l ∈ leafbodies t, l.position ≠ ![8, 2, 2]) ∧
      t.cogmassOr0 = (boundaryregion.bodiesinregion.map body.mass).sum := by
  obtain ⟨fuel, t, ht⟩ := boundary_tree
  have h := (C20_boundary_body_dropped Real.sqrt boundaryregion ⟨![8, 2, 2], 0, 0, 0, 5, 1, 2⟩
    (by simp [boundaryregion]) (by simp [boundaryregion]) 0 rfl).2.2 fuel t ht
  exact ⟨fuel, t, ht, h.1, h.2.1⟩

/-- Witness for C13: the root of the tree of `threebodies`. -/
theorem C13_collision_trigger_witness :
    2 ≤ threebodies.bodiesinregion.length ∧
    ∃ fuel t, Spacetree.makeatree Real.sqrt (fuel + 1) threebodies = some t ∧
      ∀ b ∈ threebodies.bodiesinregion, b.radius ≤ maxradOf threebodies.bodiesinregion := by
  have h2 : 2 ≤ threebodies.bodiesinregion.length := by simp [threebodies]
  refine ⟨h2, ?_⟩
  obtain ⟨d, hd⟩ := exists_separated threebodies threebodies_distinct
  obtain ⟨t, ht, _⟩ := makeatree_terminates Real.sqrt d threebodies threebodies_nonempty
    threebodies_allinbox hd (d + 1) (by omega)
  exact ⟨d, t, ht, (C13_collision_trigger Real.sqrt threebodies h2 d t ht).1⟩


section CollisionStructure

variable {K : Type} [LinearOrderedField K]

theorem fact2_eq_fact1 (sqrt : K → K) (bi bj : body K) :
    fact2 sqrt bi bj = fact1 sqrt bj bi := by
  unfold fact1 fact2
  rw [moodulus_neg sqrt bi.position bj.position, add_comm bi.mass bj.mass]

theorem collidepair_collided (sqrt : K → K) (l : List (body K)) (i j : Nat) (bi bj : body K)
    (hij : i ≠ j) (hi : l[i]? = some bi) (hj : l[j]? = some bj) :
    (collidepair sqrt l i j)[i]? = some (collided sqrt bi bj) ∧
    (collidepair sqrt l i j)[j]? = some (collided sqrt bj bi) := by
  obtain ⟨h1, h2⟩ := collidepair_getElem sqrt l i j bi bj hij hi hj
  refine ⟨h1, ?_⟩
  rw [h2, fact2_eq_fact1]
  rfl

theorem collidepair_other (sqrt : K → K) (l : List (body K)) (i j k : Nat) (hki : k ≠ i)
    (hkj : k ≠ j) : (collidepair sqrt l i j)[k]? = l[k]? := by
  unfold collidepair
  split
  · rw [List.getElem?_set_ne (Ne.symm hkj), List.getElem?_set_ne (Ne.symm hki)]
  · rfl

theorem overlaps_congr (sqrt : K → K) (l1 l2 : List (body K)) (i j : Nat)
    (hi : l1[i]? = l2[i]?) (hj : l1[j]? = l2[j]?) :
    overlaps sqrt l1 i j = overlaps sqrt l2 i j := by
  unfold overlaps
  rw [hi, hj]

theorem overlaps_iff (sqrt : K → K) (l : List (body K)) (i j : Nat) (bi bj : body K)
    (hi : l[i]? = some bi) (hj : l[j]? = some bj) :
    overlaps sqrt l i j = true ↔ bodiesoverlap sqrt bi bj := by
  unfold overlaps bodiesoverlap
  rw [hi, hj]
  simp

/-- The four ways through the body of the inner loop. -/
theorem collidestep_cases (sqrt : K → K) (i : Nat) (st : List (body K) × List Nat) (j : Nat) :
    (collidestep sqrt i st j = st ∧
      (i = j ∨ i ∈ st.2 ∨ j ∈ st.2 ∨ overlaps sqrt st.1 i j = false)) ∨
    (i ≠ j ∧ i ∉ st.2 ∧ j ∉ st.2 ∧ overlaps sqrt st.1 i j = true ∧
      collidestep sqrt i st j = (collidepair sqrt st.1 i j, st.2 ++ [i, j])) := by
  unfold collidestep
  by_cases h1 : i = j
  · left
    rw [if_pos h1]
    exact ⟨rfl, Or.inl h1⟩
  · rw [if_neg h1]
    by_cases h2 : st.2.any (fun k => decide (i = k) || decide (j = k)) = true
    · left
      rw [if_pos h2]
      refine ⟨rfl, ?_⟩
      rw [List.any_eq_true] at h2
      obtain ⟨k, hk, hk2⟩ := h2
      simp only [Bool.or_eq_true, decide_eq_true_eq] at hk2
      rcases hk2 with rfl | rfl
      · exact Or.inr (Or.inl hk)
      · exact Or.inr (Or.inr (Or.inl hk))
    · rw [if_neg h2]
      have hi : i ∉ st.2 := fun hi => h2 (List.any_eq_true.mpr ⟨i, hi, by simp⟩)
      have hj : j ∉ st.2 := fun hj => h2 (List.any_eq_true.mpr ⟨j, hj, by simp⟩)
      by_cases h3 : overlaps sqrt st.1 i j = true
      · right
        rw [if_pos h3]
        exact ⟨h1, hi, hj, h3, rfl⟩
      · left
        rw [if_neg h3]
        exact ⟨rfl, Or.inr (Or.inr (Or.inr (by simpa using h3)))⟩

theorem pairindices_append (ps : List (Nat × Nat)) (i j : Nat) :
    pairindices (ps ++ [(i, j)]) = pairindices ps ++ [i, j] := by
  simp [pairindices]

theorem mem_pairindices (ps : List (Nat × Nat)) (p : Nat × Nat) (hp : p ∈ ps) :
    p.1 ∈ pairindices ps ∧ p.2 ∈ pairindices ps := by
  unfold pairindices
  constructor
  · exact List.mem_flatMap.mpr ⟨p, hp, by simp⟩
  · exact List.mem_flatMap.mpr ⟨p, hp, by simp⟩

/-- One pass through the body of the inner loop keeps the description of the state by a list
of resolved pairs. -/
theorem collidestep_resolved (sqrt : K → K) (orig : List (body K)) (i j : Nat)
    (st : List (body K) × List Nat)
    (h : ∃ ps, st.2 = pairindices ps ∧ resolvedpairs sqrt orig st.1 ps) :
    ∃ ps, (collidestep sqrt i st j).2 = pairindices ps ∧
      resolvedpairs sqrt orig (collidestep sqrt i st j).1 ps := by
  rcases collidestep_cases sqrt i st j with ⟨he, _⟩ | ⟨hij, hi, hj, hov, he⟩
  · rw [he]
    exact h
  · obtain ⟨ps, hps, hnd, hout, hpairs⟩ := h
    rw [he]
    have hio : st.1[i]? = orig[i]? := hout i (hps ▸ hi)
    have hjo : st.1[j]? = orig[j]? := hout j (hps ▸ hj)
    obtain ⟨bi, bj, hbi, hbj⟩ := overlaps_some sqrt st.1 i j hov
    refine ⟨ps ++ [(i, j)], ?_, ?_, ?_, ?_⟩
    · rw [pairindices_append, hps]
    · rw [pairindices_append, List.nodup_append]
      refine ⟨hnd, by simp [hij], ?_⟩
      intro a ha hb
      rw [← hps] at ha
      simp only [List.mem_cons, List.mem_singleton, List.not_mem_nil, or_false] at hb
      rcases hb with rfl | rfl
      · exact hi ha
      · exact hj ha
    · intro k hk
      rw [pairindices_append, List.mem_append, not_or] at hk
      have hki : k ≠ i := fun h => hk.2 (by simp [h])
      have hkj : k ≠ j := fun h => hk.2 (by simp [h])
      show (collidepair sqrt st.1 i j)[k]? = orig[k]?
      rw [collidepair_other sqrt st.1 i j k hki hkj]
      exact hout k hk.1
    · intro p hp
      rcases List.mem_append.mp hp with hp | hp
      · obtain ⟨hne, b1, b2, h1, h2, h3, h4, h5⟩ := hpairs p hp
        obtain ⟨hm1, hm2⟩ := mem_pairindices ps p hp
        rw [← hps] at hm1 hm2
        refine ⟨hne, b1, b2, h1, h2, h3, ?_, ?_⟩
        · show (collidepair sqrt st.1 i j)[p.1]? = _
          rw [collidepair_other sqrt st.1 i j p.1 (fun h => hi (h ▸ hm1))
            (fun h => hj (h ▸ hm1))]
          exact h4
        · show (collidepair sqrt st.1 i j)[p.2]? = _
          rw [collidepair_other sqrt st.1 i j p.2 (fun h => hi (h ▸ hm2))
            (fun h => hj (h ▸ hm2))]
          exact h5
      · simp only [List.mem_singleton] at hp
        subst hp
        obtain ⟨c1, c2⟩ := collidepair_collided sqrt st.1 i j bi bj hij hbi hbj
        exact ⟨hij, bi, bj, hio ▸ hbi, hjo ▸ hbj,
          (overlaps_iff sqrt st.1 i j bi bj hbi hbj).mp hov, c1, c2⟩

theorem collidestep_indices_mono (sqrt : K → K) (i j k : Nat) (st : List (body K) × List Nat)
    (hk : k ∈ st.2) : k ∈ (collidestep sqrt i st j).2 := by
  rcases collidestep_cases sqrt i st j with ⟨he, _⟩ | ⟨_, _, _, _, he⟩
  · rw [he]
    exact hk
  · rw [he]
    exact List.mem_append_left _ hk

/-- The state of the two loops at the end: the positions in `indices` are those of a list of
resolved pairs, and every pair of different positions of the vector was either found used or
found not to overlap. -/
theorem collideloops_structure (sqrt : K → K) (orig : List (body K)) :
    (∃ ps, (collideloops sqrt orig).2 = pairindices ps ∧
      resolvedpairs sqrt orig (collideloops sqrt orig).1 ps) ∧
    ∀ i ∈ List.range orig.length, ∀ j ∈ List.range orig.length,
      i = j ∨ i ∈ (collideloops sqrt orig).2 ∨ j ∈ (collideloops sqrt orig).2 ∨
        overlaps sqrt orig i j = false := by
  have inner : ∀ (i : Nat) (l : List Nat) (s : List (body K) × List Nat),
      (∃ ps, s.2 = pairindices ps ∧ resolvedpairs sqrt orig s.1 ps) →
      (∃ ps, (l.foldl (collidestep sqrt i) s).2 = pairindices ps ∧
        resolvedpairs sqrt orig (l.foldl (collidestep sqrt i) s).1 ps) ∧
      (∀ a1 : Nat × Nat, (a1.1 = a1.2 ∨ a1.1 ∈ s.2 ∨ a1.2 ∈ s.2 ∨
          overlaps sqrt orig a1.1 a1.2 = false) →
        (a1.1 = a1.2 ∨ a1.1 ∈ (l.foldl (collidestep sqrt i) s).2 ∨
          a1.2 ∈ (l.foldl (collidestep sqrt i) s).2 ∨
          overlaps sqrt orig a1.1 a1.2 = false)) ∧
      ∀ j ∈ l, (i = j ∨ i ∈ (l.foldl (collidestep sqrt i) s).2 ∨
          j ∈ (l.foldl (collidestep sqrt i) s).2 ∨ overlaps sqrt orig i j = false) := by
    intro i l
    induction l with
    | nil =>
      intro s hs
      exact ⟨hs, fun _ h => h, fun j hj => by simp at hj⟩
    | cons x l ih =>
      intro s hs
      obtain ⟨h1, h2, h3⟩ := ih (collidestep sqrt i s x) (collidestep_resolved sqrt orig i x s hs)
      have mono : ∀ a1 : Nat × Nat, (a1.1 = a1.2 ∨ a1.1 ∈ s.2 ∨ a1.2 ∈ s.2 ∨
          overlaps sqrt orig a1.1 a1.2 = false) →
          (a1.1 = a1.2 ∨ a1.1 ∈ (collidestep sqrt i s x).2 ∨
            a1.2 ∈ (collidestep sqrt i s x).2 ∨ overlaps sqrt orig a1.1 a1.2 = false) := by
        intro a1 ha1
        rcases ha1 with h | h | h | h
        · exact Or.inl h
        · exact Or.inr (Or.inl (collidestep_indices_mono sqrt i x _ s h))
        · exact Or.inr (Or.inr (Or.inl (collidestep_indices_mono sqrt i x _ s h)))
        · exact Or.inr (Or.inr (Or.inr h))
      refine ⟨h1, fun a1 ha1 => h2 a1 (mono a1 ha1), ?_⟩
      intro j hj
      rcases List.mem_cons.mp hj with rfl | hj
      · apply h2 (i, j)
        rcases collidestep_cases sqrt i s j with ⟨he, hc⟩ | ⟨_, _, _, _, he⟩
        · rw [he]
          rcases hc with h | h | h | h
          · exact Or.inl h
          · exact Or.inr (Or.inl h)
          · exact Or.inr (Or.inr (Or.inl h))
          · obtain ⟨ps, hps, _, hout, _⟩ := hs
            by_cases hi : i ∈ s.2
            · exact Or.inr (Or.inl hi)
            · by_cases hj2 : j ∈ s.2
              · exact Or.inr (Or.inr (Or.inl hj2))
              · right
                right
                right
                rw [← overlaps_congr sqrt s.1 orig i j (hout i (hps ▸ hi)) (hout j (hps ▸ hj2))]
                exact h
        · rw [he]
          exact Or.inr (Or.inl (by simp))
      · exact h3 j hj
  have outer : ∀ (l : List Nat) (s : List (body K) × List Nat),
      (∃ ps, s.2 = pairindices ps ∧ resolvedpairs sqrt orig s.1 ps) →
      (∃ ps, (l.foldl (fun st i => (List.range orig.length).foldl (collidestep sqrt i) st) s).2 =
          pairindices ps ∧
        resolvedpairs sqrt orig
          (l.foldl (fun st i => (List.range orig.length).foldl (collidestep sqrt i) st) s).1 ps) ∧
      (∀ a1 : Nat × Nat, (a1.1 = a1.2 ∨ a1.1 ∈ s.2 ∨ a1.2 ∈ s.2 ∨
          overlaps sqrt orig a1.1 a1.2 = false) →
        (a1.1 = a1.2 ∨
          a1.1 ∈ (l.foldl (fun st i =>
            (List.range orig.length).foldl (collidestep sqrt i) st) s).2 ∨
          a1.2 ∈ (l.foldl (fun st i =>
            (List.range orig.length).foldl (collidestep sqrt i) st) s).2 ∨
          overlaps sqrt orig a1.1 a1.2 = false)) ∧
      ∀ i ∈ l, ∀ j ∈ List.range orig.length,
        (i = j ∨
          i ∈ (l.foldl (fun st i =>
            (List.range orig.length).foldl (collidestep sqrt i) st) s).2 ∨
          j ∈ (l.foldl (fun st i =>
            (List.range orig.length).foldl (collidestep sqrt i) st) s).2 ∨
          overlaps sqrt orig i j = false) := by
    intro l
    induction l with
    | nil =>
      intro s hs
      exact ⟨hs, fun _ h => h, fun i hi => by simp at hi⟩
    | cons x l ih =>
      intro s hs
      obtain ⟨g1, g2, g3⟩ := inner x (List.range orig.length) s hs
      obtain ⟨h1, h2, h3⟩ := ih _ g1
      refine ⟨h1, fun a1 ha1 => h2 a1 (g2 a1 ha1), ?_⟩
      intro i hi j hj
      rcases List.mem_cons.mp hi with rfl | hi
      · exact h2 (i, j) (g3 j hj)
      · exact h3 i hi j hj
  obtain ⟨h1, _, h3⟩ := outer (List.range orig.length) (orig, [])
    ⟨[], rfl, by simp [pairindices], fun _ _ => rfl, fun p hp => by simp at hp⟩
  exact ⟨h1, h3⟩

/-- The pass as a whole: there is a list of resolved pairs in which no position occurs twice;
a body outside the pairs is untouched, the two bodies of a pair overlapped and each holds the
collision formula applied to the two input bodies, and no two bodies outside the pairs
overlap. -/
theorem updatecollision_structure (sqrt : K → K) (orig : List (body K)) :
    ∃ ps, resolvedpairs sqrt orig (Spacetree.updatecollision sqrt orig) ps ∧
      ∀ i j bi bj, i ≠ j → i ∉ pairindices ps → j ∉ pairindices ps →
        orig[i]? = some bi → orig[j]? = some bj → ¬ bodiesoverlap sqrt bi bj := by
  obtain ⟨⟨ps, hps, hres⟩, hvis⟩ := collideloops_structure sqrt orig
  refine ⟨ps, hres, ?_⟩
  intro i j bi bj hij hi hj hbi hbj hov
  obtain ⟨hil, _⟩ := List.getElem?_eq_some.mp hbi
  obtain ⟨hjl, _⟩ := List.getElem?_eq_some.mp hbj
  rcases hvis i (List.mem_range.mpr hil) j (List.mem_range.mpr hjl) with h | h | h | h
  · exact hij h
  · exact hi (hps ▸ h)
  · exact hj (hps ▸ h)
  · rw [(overlaps_iff sqrt orig i j bi bj hbi hbj).mpr hov] at h
    simp at h

end CollisionStructure


section StepLemmas

variable {K : Type} [LinearOrderedField K]

theorem collidestep_self (sqrt : K → K) (i : Nat) (st : List (body K) × List Nat) :
    collidestep sqrt i st i = st := by
  unfold collidestep
  rw [if_pos rfl]

theorem collidestep_used (sqrt : K → K) (i j : Nat) (st : List (body K) × List Nat)
    (h : i ∈ st.2 ∨ j ∈ st.2) : collidestep sqrt i st j = st := by
  unfold collidestep
  split_ifs with h1 h2 h3
  · rfl
  · rfl
  · exfalso
    apply h2
    rw [List.any_eq_true]
    rcases h with h | h
    · exact ⟨i, h, by simp⟩
    · exact ⟨j, h, by simp⟩
  · rfl

theorem collidestep_hit (sqrt : K → K) (i j : Nat) (st : List (body K) × List Nat)
    (hij : i ≠ j) (hi : i ∉ st.2) (hj : j ∉ st.2) (hov : overlaps sqrt st.1 i j = true) :
    collidestep sqrt i st j = (collidepair sqrt st.1 i j, st.2 ++ [i, j]) := by
  unfold collidestep
  rw [if_neg hij, if_neg, if_pos hov]
  rw [List.any_eq_true]
  rintro ⟨k, hk, hk2⟩
  simp only [Bool.or_eq_true, decide_eq_true_eq] at hk2
  rcases hk2 with rfl | rfl
  · exact hi hk
  · exact hj hk

end StepLemmas

theorem swap_pair01 : collidepair Real.sqrt swapbodies 0 1 =
    [⟨![0, 0, 0], ![0, 0, 0], 0, 0, 1, 2, 0⟩, ⟨![1, 0, 0], ![1, 0, 0], 0, 0, 1, 2, 1⟩,
      ⟨![2, 0, 0], ![0, 0, 0], 0, 0, 1, 2, 2⟩, ⟨![3, 0, 0], ![1, 0, 0], 0, 0, 1, 2, 3⟩] := by
  simp [collidepair, swapbodies, fact1, fact2, body.setvelocity, moodulus_eq, dot_eq]
  norm_num

theorem swap_pair23 : collidepair Real.sqrt
    [⟨![0, 0, 0], ![0, 0, 0], 0, 0, 1, 2, 0⟩, ⟨![1, 0, 0], ![1, 0, 0], 0, 0, 1, 2, 1⟩,
      ⟨![2, 0, 0], ![0, 0, 0], 0, 0, 1, 2, 2⟩, ⟨![3, 0, 0], ![1, 0, 0], 0, 0, 1, 2, 3⟩] 2 3 =
    [⟨![0, 0, 0], ![0, 0, 0], 0, 0, 1, 2, 0⟩, ⟨![1, 0, 0], ![1, 0, 0], 0, 0, 1, 2, 1⟩,
      ⟨![2, 0, 0], ![1, 0, 0], 0, 0, 1, 2, 2⟩, ⟨![3, 0, 0], ![0, 0, 0], 0, 0, 1, 2, 3⟩] := by
  simp [collidepair, fact1, fact2, body.setvelocity, moodulus_eq, dot_eq]
  norm_num

theorem swap_overlap01 : overlaps Real.sqrt swapbodies 0 1 = true := by
  simp [overlaps, swapbodies, moodulus_eq, dot_eq]
  norm_num

theorem swap_overlap23 : overlaps Real.sqrt
    [⟨![0, 0, 0], ![0, 0, 0], 0, 0, 1, 2, 0⟩, ⟨![1, 0, 0], ![1, 0, 0], 0, 0, 1, 2, 1⟩,
      ⟨![2, 0, 0], ![0, 0, 0], 0, 0, 1, 2, 2⟩, ⟨![3, 0, 0], ![1, 0, 0], 0, 0, 1, 2, 3⟩]
    2 3 = true := by
  simp [overlaps, moodulus_eq, dot_eq]
  norm_num

/-- The pass over `swapbodies` resolves the pair at positions 0, 1 and then the pair at
positions 2, 3; each pair exchanges its velocities. -/
theorem swap_out : Spacetree.updatecollision Real.sqrt swapbodies =
    [⟨![0, 0, 0], ![0, 0, 0], 0, 0, 1, 2, 0⟩, ⟨![1, 0, 0], ![1, 0, 0], 0, 0, 1, 2, 1⟩,
      ⟨![2, 0, 0], ![1, 0, 0], 0, 0, 1, 2, 2⟩, ⟨![3, 0, 0], ![0, 0, 0], 0, 0, 1, 2, 3⟩] := by
  have hlen : swapbodies.length = 4 := rfl
  have hr : List.range 4 = [0, 1, 2, 3] := rfl
  unfold Spacetree.updatecollision collideloops
  rw [hlen, hr]
  simp only [List.foldl_cons, List.foldl_nil]
  rw [collidestep_self Real.sqrt 0 (swapbodies, []),
    collidestep_hit Real.sqrt 0 1 (swapbodies, []) (by decide) (by simp) (by simp)
      swap_overlap01,
    swap_pair01]
  simp only [List.nil_append]
  rw [collidestep_used Real.sqrt 0 2 _ (Or.inl (by simp)),
    collidestep_used Real.sqrt 0 3 _ (Or.inl (by simp)),
    collidestep_used Real.sqrt 1 0 _ (Or.inl (by simp)),
    collidestep_self Real.sqrt 1,
    collidestep_used Real.sqrt 1 2 _ (Or.inl (by simp)),
    collidestep_used Real.sqrt 1 3 _ (Or.inl (by simp)),
    collidestep_used Real.sqrt 2 0 _ (Or.inr (by simp)),
    collidestep_used Real.sqrt 2 1 _ (Or.inr (by simp)),
    collidestep_self Real.sqrt 2,
    collidestep_hit Real.sqrt 2 3 _ (by decide) (by simp) (by simp) swap_overlap23,
    swap_pair23]
  simp only [List.cons_append, List.nil_append]
  rw [collidestep_used Real.sqrt 3 0 _ (Or.inl (by simp)),
    collidestep_used Real.sqrt 3 1 _ (Or.inl (by simp)),
    collidestep_used Real.sqrt 3 2 _ (Or.inl (by simp)),
    collidestep_self Real.sqrt 3]

section CollisionClaims2

variable {K : Type} [LinearOrderedField K]

theorem pairindices_mem (ps : List (Nat × Nat)) (k : Nat) (hk : k ∈ pairindices ps) :
    ∃ p ∈ ps, k = p.1 ∨ k = p.2 := by
  unfold pairindices at hk
  obtain ⟨p, hp, hk2⟩ := List.mem_flatMap.mp hk
  simp only [List.mem_cons, List.mem_singleton, List.not_mem_nil, or_false] at hk2
  exact ⟨p, hp, hk2⟩

/-- A position used by the pass has a partner: another position, whose input body overlaps
its own, and the two output bodies hold the collision formula on the two input bodies. -/
theorem resolved_partner (sqrt : K → K) (orig out : List (body K)) (ps : List (Nat × Nat))
    (h : resolvedpairs sqrt orig out ps) (i : Nat) (hi : i ∈ pairindices ps) :
    ∃ j, j ≠ i ∧ ∃ bi bj, orig[i]? = some bi ∧ orig[j]? = some bj ∧
      bodiesoverlap sqrt bi bj ∧ out[i]? = some (collided sqrt bi bj) ∧
      out[j]? = some (collided sqrt bj bi) := by
  obtain ⟨p, hp, hk⟩ := pairindices_mem ps i hi
  obtain ⟨hne, b1, b2, h1, h2, h3, h4, h5⟩ := h.2.2 p hp
  rcases hk with rfl | rfl
  · exact ⟨p.2, Ne.symm hne, b1, b2, h1, h2, h3, h4, h5⟩
  · refine ⟨p.1, hne, b2, b1, h2, h1, ?_, h5, h4⟩
    unfold bodiesoverlap at h3 ⊢
    rw [moodulus_neg, add_comm]
    exact h3

/-- C11: `Spacetree::updatecollision` returns a vector of the same length in which the body at
every position has the position, mass, radius, index, acceleration and pending acceleration of
the input body at that position, and also its velocity when the input body overlaps no other
body of the vector (distance at least the sum of the radii for every other position). -/
theorem C11_updatecollision_frame (sqrt : K → K) (bodyvector : List (body K)) :
    (Spacetree.updatecollision sqrt bodyvector).length = bodyvector.length ∧
    ∀ (i : Nat) (b : body K), bodyvector[i]? = some b →
      ∃ c : body K, (Spacetree.updatecollision sqrt bodyvector)[i]? = some c ∧
        c.position = b.position ∧ c.mass = b.mass ∧ c.radius = b.radius ∧ c.index = b.index ∧
        c.acceleration = b.acceleration ∧ c.newacceleration = b.newacceleration ∧
        ((∀ (j : Nat) (bj : body K), j ≠ i → bodyvector[j]? = some bj →
            b.radius + bj.radius ≤ moodulus sqrt (b.position - bj.position)) →
          c.velocity = b.velocity) := by
  have hframe := updatecollision_frame sqrt bodyvector
  have hlen : (Spacetree.updatecollision sqrt bodyvector).length = bodyvector.length := by
    have := congrArg List.length hframe
    simpa using this
  refine ⟨hlen, ?_⟩
  intro i b hb
  obtain ⟨hil, _⟩ := List.getElem?_eq_some.mp hb
  have hil2 : i < (Spacetree.updatecollision sqrt bodyvector).length := by
    rw [hlen]
    exact hil
  have hc : (Spacetree.updatecollision sqrt bodyvector)[i]? =
      some ((Spacetree.updatecollision sqrt bodyvector)[i]) := List.getElem?_eq_getElem hil2
  have hfr : ((Spacetree.updatecollision sqrt bodyvector)[i]).frame = b.frame := by
    have h1 := congrArg (fun l => l[i]?) hframe
    simp only [List.getElem?_map, hc, hb, Option.map_some'] at h1
    exact Option.some.inj h1
  obtain ⟨f1, f2, f3, f4, f5, f6⟩ := frame_fields _ _ hfr
  refine ⟨_, hc, f1, f2, f5, f3, f6, f4, ?_⟩
  intro hfree
  obtain ⟨ps, hres, _⟩ := updatecollision_structure sqrt bodyvector
  by_cases hi : i ∈ pairindices ps
  · exfalso
    obtain ⟨j, hji, bi, bj, h1, h2, h3, _, _⟩ := resolved_partner sqrt _ _ ps hres i hi
    rw [hb] at h1
    cases h1
    exact absurd h3 (not_lt.mpr (hfree j bj hji h2))
  · have h1 := hres.2.1 i hi
    rw [hc, hb] at h1
    rw [Option.some.inj h1]

/-- C12, amended: the collisions resolved in one pass of `Spacetree::updatecollision` are a
list of pairs of positions in which no position occurs twice, so every body takes part in at
most one resolved collision.  A body outside the pairs is returned as it was; the two bodies of
a pair overlapped on input and each is returned with the collision formula applied to the two
INPUT bodies; no two bodies outside the pairs overlap.  Hence every body is returned with its
input velocity or has a partner in the sense of the specification. -/
theorem C12_resolved_pairs_disjoint (sqrt : K → K) (bodyvector : List (body K)) :
    ∃ ps : List (Nat × Nat),
      resolvedpairs sqrt bodyvector (Spacetree.updatecollision sqrt bodyvector) ps ∧
      (∀ (i j : Nat) (bi bj : body K), i ≠ j → i ∉ pairindices ps → j ∉ pairindices ps →
        bodyvector[i]? = some bi → bodyvector[j]? = some bj → ¬ bodiesoverlap sqrt bi bj) ∧
      ∀ (i : Nat) (b c : body K), bodyvector[i]? = some b →
        (Spacetree.updatecollision sqrt bodyvector)[i]? = some c →
        c.velocity = b.velocity ∨
          ∃ j, partnerof sqrt bodyvector (Spacetree.updatecollision sqrt bodyvector) i j := by
  obtain ⟨ps, hres, hfree⟩ := updatecollision_structure sqrt bodyvector
  refine ⟨ps, hres, hfree, ?_⟩
  intro i b c hb hc
  by_cases hi : i ∈ pairindices ps
  · right
    obtain ⟨j, hji, bi, bj, h1, h2, h3, h4, h5⟩ := resolved_partner sqrt _ _ ps hres i hi
    exact ⟨j, hji, bi, bj, _, _, h1, h2, h4, h5, h3, rfl, rfl⟩
  · left
    have h1 := hres.2.1 i hi
    rw [hc, hb] at h1
    rw [Option.some.inj h1]

end CollisionClaims2

theorem real_moodulus_axis (x : ℝ) :
    moodulus Real.sqrt (Matrix.vecCons x (0 : Fin 2 → ℝ)) = |x| := by
  rw [moodulus_axis Real.sqrt real_sqrt_exact _ rfl rfl]
  rfl

/-- Counterexample to C12 as stated: in the pass over `swapbodies` the body at position 0
changes its velocity, and the positions 1 (the one it was resolved with) and 2 are both
partners of it in the sense of the specification, so it has no unique partner. -/
theorem C12_partner_not_unique :
    (∃ b c : body ℝ, swapbodies[0]? = some b ∧
      (Spacetree.updatecollision Real.sqrt swapbodies)[0]? = some c ∧
      c.velocity ≠ b.velocity) ∧
    partnerof Real.sqrt swapbodies (Spacetree.updatecollision Real.sqrt swapbodies) 0 1 ∧
    partnerof Real.sqrt swapbodies (Spacetree.updatecollision Real.sqrt swapbodies) 0 2 ∧
    ¬ ∃! j, partnerof Real.sqrt swapbodies (Spacetree.updatecollision Real.sqrt swapbodies) 0 j := by
  have h1 : partnerof Real.sqrt swapbodies (Spacetree.updatecollision Real.sqrt swapbodies) 0 1 := by
    rw [swap_out]
    refine ⟨by decide, ⟨![0, 0, 0], ![1, 0, 0], 0, 0, 1, 2, 0⟩,
      ⟨![1, 0, 0], ![0, 0, 0], 0, 0, 1, 2, 1⟩, ⟨![0, 0, 0], ![0, 0, 0], 0, 0, 1, 2, 0⟩,
      ⟨![1, 0, 0], ![1, 0, 0], 0, 0, 1, 2, 1⟩, rfl, rfl, rfl, rfl, ?_, ?_, ?_⟩
    · simp [bodiesoverlap, real_moodulus_axis]
      norm_num
    · simp [collided, body.setvelocity, fact1, real_moodulus_axis, dot_eq]
      norm_num
    · simp [collided, body.setvelocity, fact1, real_moodulus_axis, dot_eq]
      norm_num
  have h2 : partnerof Real.sqrt swapbodies (Spacetree.updatecollision Real.sqrt swapbodies) 0 2 := by
    rw [swap_out]
    refine ⟨by decide, ⟨![0, 0, 0], ![1, 0, 0], 0, 0, 1, 2, 0⟩,
      ⟨![2, 0, 0], ![0, 0, 0], 0, 0, 1, 2, 2⟩, ⟨![0, 0, 0], ![0, 0, 0], 0, 0, 1, 2, 0⟩,
      ⟨![2, 0, 0], ![1, 0, 0], 0, 0, 1, 2, 2⟩, rfl, rfl, rfl, rfl, ?_, ?_, ?_⟩
    · simp [bodiesoverlap, real_moodulus_axis]
    · simp [collided, body.setvelocity, fact1, real_moodulus_axis, dot_eq]
      norm_num
    · simp [collided, body.setvelocity, fact1, real_moodulus_axis, dot_eq]
      norm_num
  refine ⟨⟨⟨![0, 0, 0], ![1, 0, 0], 0, 0, 1, 2, 0⟩, ⟨![0, 0, 0], ![0, 0, 0], 0, 0, 1, 2, 0⟩,
    rfl, by rw [swap_out]; rfl, ?_⟩, h1, h2, ?_⟩
  · intro h
    have := congrFun h 0
    simp at this
  · rintro ⟨j, _, huniq⟩
    have e1 := huniq 1 h1
    have e2 := huniq 2 h2
    omega


section CollisionOnce

variable {K : Type} [LinearOrderedField K]

theorem collisionpass_flagged (sqrt : K → K) (reg : region K) (h : reg.checkcol = true) :
    collisionpass sqrt reg = reg := by
  unfold collisionpass
  rw [if_neg]
  simp [h]

/-- The region after the collision step of `makeatree`: the region itself with its flag, or the
region with the bodies of one `updatecollision` pass and the flag set, which needs the flag to
be unset before. -/
theorem collisionpass_cases (sqrt : K → K) (reg : region K) :
    collisionpass sqrt reg = reg ∨
    (reg.checkcol = false ∧ (collisionpass sqrt reg).checkcol = true ∧
      (collisionpass sqrt reg).bodiesinregion =
        Spacetree.updatecollision sqrt reg.bodiesinregion) := by
  unfold collisionpass
  split_ifs with h
  · right
    simp only [Bool.and_eq_true, Bool.not_eq_true', decide_eq_true_eq] at h
    exact ⟨h.2, rfl, rfl⟩
  · left
    rfl

/-- Every body returned by the pass is an input body as it was or after one collision with
another input body. -/
theorem updatecollision_onecollision (sqrt : K → K) (orig : List (body K)) (l : body K)
    (hl : l ∈ Spacetree.updatecollision sqrt orig) : onecollision sqrt orig l := by
  obtain ⟨ps, hres, _⟩ := updatecollision_structure sqrt orig
  obtain ⟨k, hk⟩ := List.getElem?_of_mem hl
  by_cases hi : k ∈ pairindices ps
  · obtain ⟨j, _, bi, bj, h1, h2, _, h4, _⟩ := resolved_partner sqrt _ _ ps hres k hi
    rw [hk] at h4
    exact ⟨bi, List.mem_iff_getElem?.mpr ⟨_, h1⟩, Or.inr ⟨bj, List.mem_iff_getElem?.mpr ⟨_, h2⟩,
      Option.some.inj h4⟩⟩
  · have h1 := hres.2.1 k hi
    rw [hk] at h1
    exact ⟨l, List.mem_iff_getElem?.mpr ⟨k, h1.symm⟩, Or.inl rfl⟩

theorem onecollision_mono (sqrt : K → K) (l1 l2 : List (body K)) (h : ∀ b ∈ l1, b ∈ l2)
    (l : body K) (hl : onecollision sqrt l1 l) : onecollision sqrt l2 l := by
  obtain ⟨b, hb, hc⟩ := hl
  refine ⟨b, h b hb, ?_⟩
  rcases hc with hc | ⟨c, hc, he⟩
  · exact Or.inl hc
  · exact Or.inr ⟨c, h c hc, he⟩

theorem subregion_mem (reg : region K) (i : Fin 8) (b : body K)
    (hb : b ∈ (subregion reg i).bodiesinregion) : b ∈ reg.bodiesinregion :=
  (List.mem_filter.mp hb).1

/-- Leaves of a tree built from a flagged region are bodies of the region; leaves of any tree
are bodies of the region after at most one collision. -/
theorem makeatree_leaf_origin (sqrt : K → K) (fuel : Nat) :
    ∀ (reg : region K) (t : Node K), Spacetree.makeatree sqrt fuel reg = some t →
      ∀ l ∈ leafbodies t, (reg.checkcol = true → l ∈ reg.bodiesinregion) ∧
        onecollision sqrt reg.bodiesinregion l := by
  induction fuel with
  | zero =>
    intro reg t h
    simp [Spacetree.makeatree] at h
  | succ fuel ih =>
    intro reg t h l hl
    rcases makeatree_some sqrt fuel reg t h with ⟨b, hb, rfl⟩ | ⟨_, kids, rfl, hk⟩
    · rw [leafnode, leafbodies_leaf, List.mem_singleton] at hl
      subst hl
      rw [hb]
      exact ⟨fun _ => List.mem_singleton.mpr rfl, l, List.mem_singleton.mpr rfl, Or.inl rfl⟩
    · rw [leafbodies_internal, List.mem_flatMap] at hl
      obtain ⟨i, _, hli⟩ := hl
      by_cases hlen : 1 ≤ (subregion (collisionpass sqrt reg) i).bodiesinregion.length
      · obtain ⟨g1, g2⟩ := ih _ _ ((hk i).1 hlen) l hli
        rcases collisionpass_cases sqrt reg with hc | ⟨hf, hc1, hc2⟩
        · rw [hc] at g1 g2
          exact ⟨fun hflag => subregion_mem reg i l (g1 hflag),
            onecollision_mono sqrt _ _ (subregion_mem reg i) l g2⟩
        · refine ⟨fun hflag => (by rw [hf] at hflag; cases hflag), ?_⟩
          have hmem := subregion_mem _ i l (g1 hc1)
          rw [hc2] at hmem
          exact updatecollision_onecollision sqrt _ l hmem
      · have hnil : (subregion (collisionpass sqrt reg) i).bodiesinregion = [] := by
          apply List.eq_nil_of_length_eq_zero
          omega
        rw [(hk i).2 hnil] at hli
        simp [leafbodies] at hli

/-- The leaves of a tree built from a flagged region whose bodies are inside its box are the
bodies of the region, each once. -/
theorem makeatree_flagged_perm (sqrt : K → K) (fuel : Nat) :
    ∀ (reg : region K) (t : Node K), Spacetree.makeatree sqrt fuel reg = some t →
      reg.checkcol = true → reg.allinbox → (leafbodies t).Perm reg.bodiesinregion := by
  induction fuel with
  | zero =>
    intro reg t h
    simp [Spacetree.makeatree] at h
  | succ fuel ih =>
    intro reg t h hflag hbox
    rcases makeatree_some sqrt fuel reg t h with ⟨b, hb, rfl⟩ | ⟨_, kids, rfl, hk⟩
    · rw [leafnode, leafbodies_leaf, hb]
    · rw [leafbodies_internal]
      rw [collisionpass_flagged sqrt reg hflag] at hk
      have h1 : ∀ i ∈ List.finRange 8, (leafbodies (kids i)).Perm
          (subregion reg i).bodiesinregion := by
        intro i _
        by_cases hlen : 1 ≤ (subregion reg i).bodiesinregion.length
        · exact ih _ _ ((hk i).1 hlen) hflag (subregion_allinbox _ i)
        · have hnil : (subregion reg i).bodiesinregion = [] := by
            apply List.eq_nil_of_length_eq_zero
            omega
          rw [(hk i).2 hnil, hnil]
          simp [leafbodies]
      exact (List.Perm.flatMap_left _ h1).trans (subregion_bodies_perm reg hbox)

/-- C14: the collision pass runs at most once along any path from the root.  For a region whose
flag is set, the collision step of `Spacetree::makeatree` returns the region as it is and the
eight octants inherit the set flag, so every leaf of the tree holds a body of the region as it
was handed in, velocity included, and when the bodies lie inside the box the leaves are exactly
the bodies handed in, each once.  For any region, every leaf holds a body handed in as it was or
after one collision with another body handed in. -/
theorem C14_collision_once (sqrt : K → K) (fuel : Nat) (reg : region K) (t : Node K)
    (ht : Spacetree.makeatree sqrt fuel reg = some t) :
    (reg.checkcol = true →
      collisionpass sqrt reg = reg ∧ (∀ i, (subregion (collisionpass sqrt reg) i).checkcol = true) ∧
      (∀ l ∈ leafbodies t, l ∈ reg.bodiesinregion) ∧
      (reg.allinbox → (leafbodies t).Perm reg.bodiesinregion)) ∧
    ((collisionpass sqrt reg).checkcol = true ∨ collisionpass sqrt reg = reg) ∧
    ∀ l ∈ leafbodies t, onecollision sqrt reg.bodiesinregion l := by
  refine ⟨fun hflag => ⟨collisionpass_flagged sqrt reg hflag, ?_,
    fun l hl => (makeatree_leaf_origin sqrt fuel reg t ht l hl).1 hflag,
    makeatree_flagged_perm sqrt fuel reg t ht hflag⟩, ?_,
    fun l hl => (makeatree_leaf_origin sqrt fuel reg t ht l hl).2⟩
  · intro i
    rw [collisionpass_flagged sqrt reg hflag]
    exact hflag
  · rcases collisionpass_cases sqrt reg with hc | ⟨_, hc1, _⟩
    · exact Or.inr hc
    · exact Or.inl hc1

end CollisionOnce


section Driver

variable {K : Type} [LinearOrderedField K]

theorem axisstep_other (b : body K) (mm : Fin 6 → K) (k : Fin 3) (j : Fin 6)
    (h1 : j ≠ minindex k) (h2 : j ≠ maxindex k) : axisstep b mm k j = mm j := by
  unfold axisstep
  split_ifs
  · exact Function.update_noteq h1 _ _
  · exact Function.update_noteq h2 _ _
  · rfl

theorem minindex_ne_maxindex (k : Fin 3) : minindex k ≠ maxindex k := by
  fin_cases k <;> decide

theorem axisstep_min (b : body K) (mm : Fin 6 → K) (k : Fin 3) :
    axisstep b mm k (minindex k) =
      if b.position k < mm (minindex k) then b.position k else mm (minindex k) := by
  unfold axisstep
  split_ifs
  · exact Function.update_same _ _ _
  · exact Function.update_noteq (minindex_ne_maxindex k) _ _
  · rfl

theorem axisstep_max (b : body K) (mm : Fin 6 → K) (k : Fin 3) :
    axisstep b mm k (maxindex k) =
      if b.position k < mm (minindex k) then mm (maxindex k)
      else if b.position k > mm (maxindex k) then b.position k else mm (maxindex k) := by
  unfold axisstep
  split_ifs
  · exact Function.update_noteq (Ne.symm (minindex_ne_maxindex k)) _ _
  · exact Function.update_same _ _ _
  · rfl

/-- The two entries of `minmax` for axis `k` after the loop over the axes for one body. -/
theorem minmaxstep_apply (mm : Fin 6 → K) (b : body K) (k : Fin 3) :
    minmaxstep mm b (minindex k) =
      (if b.position k < mm (minindex k) then b.position k else mm (minindex k)) ∧
    minmaxstep mm b (maxindex k) =
      (if b.position k < mm (minindex k) then mm (maxindex k)
        else if b.position k > mm (maxindex k) then b.position k else mm (maxindex k)) := by
  have e : minmaxstep mm b = axisstep b (axisstep b (axisstep b mm 0) 1) 2 := by
    simp [minmaxstep, finRange_three]
  rw [e]
  fin_cases k
  · simp only [Fin.zero_eta]
    rw [axisstep_other b _ 2 _ (by decide) (by decide),
      axisstep_other b _ 1 _ (by decide) (by decide),
      axisstep_other b _ 2 _ (by decide) (by decide),
      axisstep_other b _ 1 _ (by decide) (by decide), axisstep_min, axisstep_max]
    exact ⟨rfl, rfl⟩
  · simp only [Fin.mk_one]
    rw [axisstep_other b _ 2 _ (by decide) (by decide),
      axisstep_other b _ 2 _ (by decide) (by decide), axisstep_min, axisstep_max,
      axisstep_other b _ 0 _ (by decide) (by decide),
      axisstep_other b _ 0 _ (by decide) (by decide)]
    exact ⟨rfl, rfl⟩
  · simp only [Fin.reduceFinMk]
    rw [axisstep_min, axisstep_max,
      axisstep_other b _ 1 _ (by decide) (by decide),
      axisstep_other b _ 1 _ (by decide) (by decide),
      axisstep_other b _ 0 _ (by decide) (by decide),
      axisstep_other b _ 0 _ (by decide) (by decide)]
    exact ⟨rfl, rfl⟩

/-- The entries of `minmax` after the loop over the bodies: the minimum of an axis did not go
up, the maximum did not go down, and every body lies between them. -/
theorem foldl_minmaxstep_bounds (bv : List (body K)) :
    ∀ mm : Fin 6 → K, (∀ k, mm (minindex k) ≤ mm (maxindex k)) →
      (∀ k, bv.foldl minmaxstep mm (minindex k) ≤ mm (minindex k) ∧
        mm (maxindex k) ≤ bv.foldl minmaxstep mm (maxindex k)) ∧
      ∀ b ∈ bv, ∀ k, bv.foldl minmaxstep mm (minindex k) ≤ b.position k ∧
        b.position k ≤ bv.foldl minmaxstep mm (maxindex k) := by
  induction bv with
  | nil =>
    intro mm _
    exact ⟨fun k => ⟨le_refl _, le_refl _⟩, fun b hb => by simp at hb⟩
  | cons a bv ih =>
    intro mm hmm
    have hstep : ∀ k, minmaxstep mm a (minindex k) ≤ mm (minindex k) ∧
        mm (maxindex k) ≤ minmaxstep mm a (maxindex k) ∧
        minmaxstep mm a (minindex k) ≤ a.position k ∧
        a.position k ≤ minmaxstep mm a (maxindex k) := by
      intro k
      obtain ⟨e1, e2⟩ := minmaxstep_apply mm a k
      rw [e1, e2]
      have := hmm k
      split_ifs with h1 h2
      · exact ⟨le_of_lt h1, le_refl _, le_refl _, le_trans (le_of_lt h1) this⟩
      · exact ⟨le_refl _, le_of_lt h2, not_lt.mp h1, le_refl _⟩
      · exact ⟨le_refl _, le_refl _, not_lt.mp h1, not_lt.mp h2⟩
    have hmm2 : ∀ k, minmaxstep mm a (minindex k) ≤ minmaxstep mm a (maxindex k) :=
      fun k => (hstep k).1.trans ((hmm k).trans (hstep k).2.1)
    obtain ⟨g1, g2⟩ := ih (minmaxstep mm a) hmm2
    simp only [List.foldl_cons]
    refine ⟨fun k => ⟨(g1 k).1.trans (hstep k).1, (hstep k).2.1.trans (g1 k).2⟩, ?_⟩
    intro b hb k
    rcases List.mem_cons.mp hb with rfl | hb
    · exact ⟨(g1 k).1.trans (hstep k).2.2.1, (hstep k).2.2.2.trans (g1 k).2⟩
    · exact g2 b hb k

theorem calcminmax_bounds (bv : List (body K)) :
    (∀ k, bodygen.calcminmax bv (minindex k) ≤ 0 ∧ 0 ≤ bodygen.calcminmax bv (maxindex k)) ∧
    ∀ b ∈ bv, ∀ k, bodygen.calcminmax bv (minindex k) ≤ b.position k ∧
      b.position k ≤ bodygen.calcminmax bv (maxindex k) :=
  foldl_minmaxstep_bounds bv 0 (fun _ => le_refl _)

/-- Every body of the vector lies inside the box handed to `Spacetree`. -/
theorem spaceregion_allinbox (bv : List (body K)) : (spaceregion bv).allinbox := by
  intro b hb
  rw [inbox_iff]
  obtain ⟨_, h⟩ := calcminmax_bounds bv
  have h0 := h b hb 0
  have h1 := h b hb 1
  have h2 := h b hb 2
  simp only [minindex, maxindex, Matrix.cons_val_zero, Matrix.cons_val_one,
    Matrix.cons_val_two, Matrix.head_cons, Matrix.tail_cons] at h0 h1 h2
  simp only [spaceregion]
  refine ⟨⟨?_, ?_⟩, ⟨?_, ?_⟩, ⟨?_, ?_⟩⟩ <;> linarith [h0.1, h0.2, h1.1, h1.2, h2.1, h2.2]

end Driver


section UpdateTree

variable {K : Type} [LinearOrderedField K]


theorem update_null (timestep : K) (bv : List (body K)) :
    bodygen.update timestep Node.null bv = (Node.null, bv) := by
  simp [bodygen.update]

theorem update_internal (timestep : K) (nodepath : String) (cog : Fin 3 → K) (cogmass extent : K)
    (b : body K) (Nodelist : Fin 8 → Node K) (bv : List (body K)) :
    bodygen.update timestep (Node.mk false nodepath cog cogmass extent b Nodelist) bv =
      (Node.mk false nodepath cog cogmass extent b
        ((List.finRange 8).foldl
          (fun (acc : (Fin 8 → Node K) × List (body K)) i =>
            (Function.update acc.1 i (bodygen.update timestep (Nodelist i) acc.2).1,
              (bodygen.update timestep (Nodelist i) acc.2).2)) (Nodelist, bv)).1,
        ((List.finRange 8).foldl
          (fun (acc : (Fin 8 → Node K) × List (body K)) i =>
            (Function.update acc.1 i (bodygen.update timestep (Nodelist i) acc.2).1,
              (bodygen.update timestep (Nodelist i) acc.2).2)) (Nodelist, bv)).2) := by
  simp [bodygen.update]

/-- The loop over the children in `bodygen::update`, for children whose update is described by
`V` on the leaves and by the writes `W` on the vector. -/
theorem update_children (timestep : K) (Nodelist : Fin 8 → Node K)
    (V : body K → body K) (W : List (body K) → body K → List (body K))
    (h1 : ∀ i v, leafbodies (bodygen.update timestep (Nodelist i) v).1 =
      (leafbodies (Nodelist i)).map V)
    (h2 : ∀ i v, (bodygen.update timestep (Nodelist i) v).2 =
      (leafbodies (Nodelist i)).foldl W v) :
    ∀ (l : List (Fin 8)), l.Nodup → ∀ (acc : (Fin 8 → Node K) × List (body K)),
      (∀ k, k ∉ l → (l.foldl
          (fun (acc : (Fin 8 → Node K) × List (body K)) i =>
            (Function.update acc.1 i (bodygen.update timestep (Nodelist i) acc.2).1,
              (bodygen.update timestep (Nodelist i) acc.2).2)) acc).1 k = acc.1 k) ∧
      (∀ k, k ∈ l → leafbodies ((l.foldl
          (fun (acc : (Fin 8 → Node K) × List (body K)) i =>
            (Function.update acc.1 i (bodygen.update timestep (Nodelist i) acc.2).1,
              (bodygen.update timestep (Nodelist i) acc.2).2)) acc).1 k) =
        (leafbodies (Nodelist k)).map V) ∧
      (l.foldl
          (fun (acc : (Fin 8 → Node K) × List (body K)) i =>
            (Function.update acc.1 i (bodygen.update timestep (Nodelist i) acc.2).1,
              (bodygen.update timestep (Nodelist i) acc.2).2)) acc).2 =
        (l.flatMap (fun i => leafbodies (Nodelist i))).foldl W acc.2 := by
  intro l
  induction l with
  | nil =>
    intro _ acc
    exact ⟨fun _ _ => rfl, fun k hk => by simp at hk, rfl⟩
  | cons x l ih =>
    intro hnd acc
    obtain ⟨hx, hnd2⟩ := List.nodup_cons.mp hnd
    obtain ⟨g1, g2, g3⟩ := ih hnd2
      (Function.update acc.1 x (bodygen.update timestep (Nodelist x) acc.2).1,
        (bodygen.update timestep (Nodelist x) acc.2).2)
    simp only [List.foldl_cons]
    refine ⟨?_, ?_, ?_⟩
    · intro k hk
      rw [List.mem_cons, not_or] at hk
      rw [g1 k hk.2]
      exact Function.update_noteq hk.1 _ _
    · intro k hk
      rcases List.mem_cons.mp hk with rfl | hk
      · rw [g1 k hx]
        simp only [Function.update_same]
        exact h1 k acc.2
      · exact g2 k hk
    · rw [g3, List.flatMap_cons, List.foldl_append, h2]

/-- The leaves of the tree after `bodygen::update` hold the bodies of the leaves before it,
each advanced by one step, and the vector received one write per leaf, in the order of the
leaves. -/
theorem update_leafbodies (timestep : K) (t : Node K) :
    ∀ bv : List (body K),
      leafbodies (bodygen.update timestep t bv).1 = (leafbodies t).map (verletstep timestep) ∧
      (bodygen.update timestep t bv).2 =
        (leafbodies t).foldl (fun v l =>
          storewrite v (verletstep timestep l).index (verletstep timestep l)) bv := by
  induction t with
  | null =>
    intro bv
    simp [update_null, leafbodies]
  | mk isleaf nodepath cog cogmass extent b Nodelist ih =>
    intro bv
    cases isleaf with
    | true =>
      rw [update_leaf_eq]
      simp [leafbodies, verletstep]
    | false =>
      rw [update_internal]
      obtain ⟨_, g2, g3⟩ := update_children timestep Nodelist (verletstep timestep)
        (fun v l => storewrite v (verletstep timestep l).index (verletstep timestep l))
        (fun i v => (ih i v).1) (fun i v => (ih i v).2) (List.finRange 8)
        (List.nodup_finRange 8) (Nodelist, bv)
      constructor
      · rw [leafbodies_internal, leafbodies_internal, List.map_flatMap]
        congr 1
        funext i
        exact g2 i (List.mem_finRange i)
      · rw [leafbodies_internal]
        exact g3

end UpdateTree


section ListShapes

theorem flatMap_single_list {α ι : Type} (f : ι → List α) (j : ι) :
    ∀ l : List ι, l.Nodup → j ∈ l → (∀ k ∈ l, k ≠ j → f k = []) → l.flatMap f = f j := by
  intro l
  induction l with
  | nil =>
    intro _ hj
    simp at hj
  | cons x l ih =>
    intro hnd hj hk
    obtain ⟨hx, hnd2⟩ := List.nodup_cons.mp hnd
    rw [List.flatMap_cons]
    by_cases hxj : x = j
    · subst hxj
      have : l.flatMap f = [] := by
        rw [List.flatMap_eq_nil_iff]
        intro k hkl
        exact hk k (List.mem_cons_of_mem _ hkl) (fun h => hx (h ▸ hkl))
      rw [this, List.append_nil]
    · rw [hk x (List.mem_cons_self _ _) hxj, List.nil_append]
      refine ih hnd2 ?_ (fun k hkl => hk k (List.mem_cons_of_mem _ hkl))
      rcases List.mem_cons.mp hj with h | h
      · exact absurd h.symm hxj
      · exact h

theorem flatMap_two_perm {α ι : Type} (f : ι → List α) (i j : ι) (hij : i ≠ j) :
    ∀ l : List ι, l.Nodup → i ∈ l → j ∈ l → (∀ k ∈ l, k ≠ i → k ≠ j → f k = []) →
      (l.flatMap f).Perm (f i ++ f j) := by
  intro l
  induction l with
  | nil =>
    intro _ hi
    simp at hi
  | cons x l ih =>
    intro hnd hi hj hk
    obtain ⟨hx, hnd2⟩ := List.nodup_cons.mp hnd
    rw [List.flatMap_cons]
    by_cases hxi : x = i
    · subst hxi
      have hjl : j ∈ l := by
        rcases List.mem_cons.mp hj with h | h
        · exact absurd h.symm hij
        · exact h
      rw [flatMap_single_list f j l hnd2 hjl (fun k hkl hkj =>
        hk k (List.mem_cons_of_mem _ hkl) (fun h => hx (h ▸ hkl)) hkj)]
    · by_cases hxj : x = j
      · subst hxj
        have hil : i ∈ l := by
          rcases List.mem_cons.mp hi with h | h
          · exact absurd h hij
          · exact h
        rw [flatMap_single_list f i l hnd2 hil (fun k hkl hki =>
          hk k (List.mem_cons_of_mem _ hkl) hki (fun h => hx (h ▸ hkl)))]
        exact List.perm_append_comm
      · rw [hk x (List.mem_cons_self _ _) hxi hxj, List.nil_append]
        refine ih hnd2 ?_ ?_ (fun k hkl => hk k (List.mem_cons_of_mem _ hkl))
        · rcases List.mem_cons.mp hi with h | h
          · exact absurd h.symm hxi
          · exact h
        · rcases List.mem_cons.mp hj with h | h
          · exact absurd h.symm hxj
          · exact h

theorem perm_pair_cases {α : Type} (l : List α) (x y : α) (h : l.Perm [x, y]) :
    l = [x, y] ∨ l = [y, x] := by
  have hlen := h.length_eq
  match l, hlen, h with
  | [u, v], _, h =>
    have hu : u ∈ [x, y] := h.subset (List.mem_cons_self _ _)
    simp only [List.mem_cons, List.mem_singleton, List.not_mem_nil, or_false] at hu
    rcases hu with rfl | rfl
    · left
      have := (List.perm_cons u).mp h
      rw [List.perm_singleton.mp this]
    · right
      have h2 : [u, v].Perm [u, x] := h.trans (List.Perm.swap _ _ _)
      have := (List.perm_cons u).mp h2
      rw [List.perm_singleton.mp this]

theorem twotree_leafbodies_perm {K : Type} (la lb : Node K) (c : Fin 3 → K) (M e : K) (t : Node K)
    (ht : TwoTree la lb c M e t) : (leafbodies t).Perm (leafbodies la ++ leafbodies lb) := by
  induction ht with
  | split path sb kids i j hij hi hj hk =>
    rw [leafbodies_internal, ← hi, ← hj]
    refine flatMap_two_perm (fun k => leafbodies (kids k)) i j hij _ (List.nodup_finRange 8)
      (List.mem_finRange i) (List.mem_finRange j) ?_
    intro k _ hki hkj
    show leafbodies (kids k) = []
    rw [hk k hki hkj]
    simp [leafbodies]
  | chain path sb kids i _ hk ih =>
    rw [leafbodies_internal]
    rw [flatMap_single_list (fun k => leafbodies (kids k)) i _ (List.nodup_finRange 8)
      (List.mem_finRange i) (fun k _ hki => by
        show leafbodies (kids k) = []
        rw [hk k hki]
        simp [leafbodies])]
    exact ih

theorem storewrite_pair {K : Type} (a b x y : body K) (i j : Int) (hi : i = 0) (hj : j = 1) :
    storewrite (storewrite [a, b] i x) j y = [x, y] ∧
    storewrite (storewrite [a, b] j y) i x = [x, y] := by
  subst hi hj
  simp [storewrite]

end ListShapes

section PairIteration

variable {K : Type} [LinearOrderedField K]

/-- After the traversal for every leaf, the tree of a pair is the same tree with the two
updated bodies in its leaves. -/
theorem uat_twotree_shape (sqrt : K → K) (θ : K) (pa pb : String) (a b a2 b2 : body K)
    (c : Fin 3 → K) (M e : K) (whole : Node K)
    (hA : updatesingleacceleration_threshold sqrt θ (leafnode pa a) whole =
      (leafnode pa a).setsolebody a2)
    (hB : updatesingleacceleration_threshold sqrt θ (leafnode pb b) whole =
      (leafnode pb b).setsolebody b2)
    (sub : Node K) (ht : TwoTree (leafnode pa a) (leafnode pb b) c M e sub) :
    TwoTree ((leafnode pa a).setsolebody a2) ((leafnode pb b).setsolebody b2) c M e
      (updateallacceleration_threshold sqrt θ whole sub) := by
  induction ht with
  | split path sb kids i j hij hi hj hk =>
    rw [uat_internal]
    refine TwoTree.split path sb _ i j hij ?_ ?_ ?_
    · show updateallacceleration_threshold sqrt θ whole (kids i) = _
      rw [hi, uat_leafnode, hA]
    · show updateallacceleration_threshold sqrt θ whole (kids j) = _
      rw [hj, uat_leafnode, hB]
    · intro k hki hkj
      show updateallacceleration_threshold sqrt θ whole (kids k) = _
      rw [hk k hki hkj, uat_null]
  | chain path sb kids i _ hk ih =>
    rw [uat_internal]
    refine TwoTree.chain path sb _ i ih ?_
    intro k hki
    show updateallacceleration_threshold sqrt θ whole (kids k) = _
    rw [hk k hki, uat_null]

/-- A resolved collision of two bodies at rest changes nothing. -/
theorem collided_zero (sqrt : K → K) (b c : body K) (hb : b.velocity = 0) (hc : c.velocity = 0) :
    collided sqrt b c = b := by
  have h : fact1 sqrt b c = 0 := by
    unfold fact1
    rw [hb, hc, dot_eq]
    simp
  unfold collided
  rw [h, zero_smul, sub_zero]
  rfl

theorem body_eq_of_frame (a1 a : body K) (hf : a1.frame = a.frame)
    (hv : a1.velocity = a.velocity) : a1 = a := by
  obtain ⟨h1, h2, h3, h4, h5, h6⟩ := frame_fields a1 a hf
  cases a1
  cases a
  simp only at h1 h2 h3 h4 h5 h6 hv
  subst h1 h2 h3 h4 h5 h6 hv
  rfl

theorem onecollision_rest (sqrt : K → K) (inputs : List (body K))
    (h0 : ∀ b ∈ inputs, b.velocity = 0) (l : body K) (hl : onecollision sqrt inputs l) :
    l ∈ inputs := by
  obtain ⟨b, hb, hc⟩ := hl
  rcases hc with rfl | ⟨c, hc, rfl⟩
  · exact hb
  · rw [collided_zero sqrt b c (h0 b hb) (h0 c hc)]
    exact hb

end PairIteration

section PairIteration2

variable {K : Type} [LinearOrderedField K]

theorem treegen_spaceregion (sqrt : K → K) (fuel : Nat) (bv : List (body K)) :
    Spacetree.treegen sqrt fuel (spaceregion bv) =
      Spacetree.makeatree sqrt fuel (spaceregion bv) := rfl

/-- One iteration on a pair of bodies at rest: the tree of the padded bounding region exists,
and after `updateallacceleration` and `update` the leaves hold the two bodies advanced by one
step under the pull of the other body; so does the vector when the bodies carry their positions
in the vector as indices. -/
theorem pair_iteration [Archimedean K] (sqrt : K → K)
    (hs : ∀ x, 0 ≤ x → 0 ≤ sqrt x ∧ sqrt x * sqrt x = x) (a b : body K)
    (hma : 0 < a.mass) (hmb : 0 < b.mass) (hp : a.position ≠ b.position)
    (hva : a.velocity = 0) (hvb : b.velocity = 0) (timestep : K) :
    (∃ fuel tree, Spacetree.treegen sqrt fuel (spaceregion [a, b]) = some tree) ∧
    ∀ fuel tree, Spacetree.treegen sqrt fuel (spaceregion [a, b]) = some tree →
      (leafbodies (forceandupdate sqrt timestep tree [a, b]).1).Perm
        [verletstep timestep (addpointmass sqrt a b.position b.mass),
          verletstep timestep (addpointmass sqrt b a.position a.mass)] ∧
      (a.index = 0 → b.index = 1 →
        (forceandupdate sqrt timestep tree [a, b]).2 =
          [verletstep timestep (addpointmass sqrt a b.position b.mass),
            verletstep timestep (addpointmass sqrt b a.position a.mass)]) := by
  have hbox := spaceregion_allinbox [a, b]
  have hreg : (spaceregion [a, b]).bodiesinregion = [a, b] := rfl
  constructor
  · have hdist : ((spaceregion [a, b]).bodiesinregion.map body.position).Nodup := by
      rw [hreg]
      simp [hp]
    obtain ⟨d, hd⟩ := exists_separated (spaceregion [a, b]) hdist
    obtain ⟨t, ht, _⟩ := makeatree_terminates sqrt d (spaceregion [a, b]) (by rw [hreg]; simp)
      hbox hd (d + 1) (by omega)
    exact ⟨d + 1, t, ht⟩
  · intro fuel t ht
    rw [treegen_spaceregion] at ht
    obtain ⟨a1, b1, pa, pb, ha1, hb1, hab, hba, htt⟩ := makeatree_pair sqrt fuel
      (spaceregion [a, b]) a b t hreg hbox ht
    have hrest : ∀ x ∈ [a, b], x.velocity = 0 := by
      intro x hx
      simp only [List.mem_cons, List.mem_singleton, List.not_mem_nil, or_false] at hx
      rcases hx with rfl | rfl
      · exact hva
      · exact hvb
    have hleaves := twotree_leafbodies_perm _ _ _ _ _ t htt
    simp only [leafnode, leafbodies_leaf, List.singleton_append] at hleaves
    have horigin : ∀ l ∈ leafbodies t, l.velocity = 0 := fun l hl =>
      hrest l (onecollision_rest sqrt [a, b] hrest l
        (makeatree_leaf_origin sqrt fuel (spaceregion [a, b]) t ht l hl).2)
    have ea : a1 = a := body_eq_of_frame a1 a ha1
      ((horigin a1 (hleaves.symm.subset (List.mem_cons_self _ _))).trans hva.symm)
    have eb : b1 = b := body_eq_of_frame b1 b hb1
      ((horigin b1 (hleaves.symm.subset (List.mem_cons_of_mem _ (List.mem_singleton.mpr rfl)))).trans
        hvb.symm)
    subst ea eb
    have hratio := pair_ratio sqrt hs a1 b1 hma hmb hp (3 / 10) (by norm_num)
    have hA : updatesingleacceleration_threshold sqrt (3 / 10) (leafnode pa a1) t =
        (leafnode pa a1).setsolebody (addpointmass sqrt a1 b1.position b1.mass) :=
      ust_twotree sqrt _ pa pb a1 b1 _ _ _ hab hratio.1 t htt a1 rfl
    have hB : updatesingleacceleration_threshold sqrt (3 / 10) (leafnode pb b1) t =
        (leafnode pb b1).setsolebody (addpointmass sqrt b1 a1.position a1.mass) :=
      ust_twotree sqrt _ pb pa b1 a1 _ _ _ hba hratio.2 t (TwoTree.symm _ _ _ _ _ _ htt) b1 rfl
    have hshape := uat_twotree_shape sqrt _ pa pb a1 b1 _ _ _ _ _ t hA hB t htt
    have hperm := twotree_leafbodies_perm _ _ _ _ _ _ hshape
    rw [leafbodies_setsolebody, leafbodies_setsolebody, ← uaa_eq_uat] at hperm
    simp only [List.singleton_append] at hperm
    obtain ⟨u1, u2⟩ := update_leafbodies timestep (bodygen.updateallacceleration sqrt t t) [a1, b1]
    unfold forceandupdate
    constructor
    · rw [u1]
      exact hperm.map _
    · intro hi hj
      rw [u2]
      rcases perm_pair_cases _ _ _ hperm with h | h
      · rw [h]
        exact (storewrite_pair a1 b1 _ _ _ _ hi hj).1
      · rw [h]
        exact (storewrite_pair a1 b1 _ _ _ _ hi hj).2

end PairIteration2

section ScenarioClaims

variable {K : Type} [LinearOrderedField K]

theorem G_positive : (0 : K) < G := by
  unfold G
  positivity

/-- The body of a leaf at rest with zero accelerations, after the pull of a point mass `m` at
`c` was added and one step was taken. -/
theorem stepped_fields (sqrt : K → K) (a : body K) (c : Fin 3 → K) (m timestep : K)
    (hv : a.velocity = 0) (ha : a.acceleration = 0) (hn : a.newacceleration = 0) :
    (verletstep timestep (addpointmass sqrt a c m)).velocity =
      (1 / 2 * timestep * (G * m / (moodulus sqrt (c - a.position) *
        moodulus sqrt (c - a.position) * moodulus sqrt (c - a.position)))) •
          (c - a.position) ∧
    (verletstep timestep (addpointmass sqrt a c m)).position = a.position ∧
    (verletstep timestep (addpointmass sqrt a c m)).index = a.index ∧
    (verletstep timestep (addpointmass sqrt a c m)).mass = a.mass := by
  refine ⟨?_, ?_, rfl, rfl⟩
  · simp only [verletstep, addpointmass, hv, ha, hn, zero_add, smul_smul]
  · simp only [verletstep, addpointmass, hv, ha, smul_zero, add_zero]

/-- The speed after the step of `stepped_fields`: `1/2 * dt * G * m / d^2` at distance `d`. -/
theorem stepped_speed (sqrt : K → K) (hs : ∀ x, 0 ≤ x → 0 ≤ sqrt x ∧ sqrt x * sqrt x = x)
    (a : body K) (c : Fin 3 → K) (m timestep : K) (hm : 0 ≤ m) (hc : c ≠ a.position)
    (hv : a.velocity = 0) (ha : a.acceleration = 0) (hn : a.newacceleration = 0)
    (hdt : 0 ≤ timestep) :
    moodulus sqrt (verletstep timestep (addpointmass sqrt a c m)).velocity =
      1 / 2 * (G * m / moodulus sqrt (c - a.position) ^ 2 * timestep) := by
  have hd : 0 < moodulus sqrt (c - a.position) :=
    moodulus_pos sqrt hs _ (sub_ne_zero.mpr hc)
  rw [(stepped_fields sqrt a c m timestep hv ha hn).1, moodulus_smul sqrt hs]
  · field_simp
    ring
  · have hG : (0 : K) < G := G_positive
    positivity

end ScenarioClaims

theorem scenarioA_eq : scenarioA =
    [⟨![-10 ^ 11, 0, 0], 0, 0, 0, 10 ^ 30, 1, 0⟩, ⟨![10 ^ 11, 0, 0], 0, 0, 0, 10 ^ 30, 1, 1⟩] :=
  rfl

theorem scenarioA_distance :
    moodulus Real.sqrt ((![10 ^ 11, 0, 0] : Fin 3 → ℝ) - ![-10 ^ 11, 0, 0]) = 2 * 10 ^ 11 ∧
    moodulus Real.sqrt ((![-10 ^ 11, 0, 0] : Fin 3 → ℝ) - ![10 ^ 11, 0, 0]) = 2 * 10 ^ 11 := by
  constructor
  · rw [moodulus_axis Real.sqrt real_sqrt_exact _ (by simp) (by simp)]
    simp only [Pi.sub_apply, Matrix.cons_val_zero]
    rw [abs_of_nonneg (by norm_num)]
    ring
  · rw [moodulus_axis Real.sqrt real_sqrt_exact _ (by simp) (by simp)]
    simp only [Pi.sub_apply, Matrix.cons_val_zero]
    rw [abs_of_nonpos (by norm_num)]
    ring

/-- Scenario A: the tree exists, and after one iteration with a time step `dt ≥ 0` the vector
holds two bodies of speed `1/2 * G * 1e30 / (2e11)^2 * dt`. -/
theorem scenarioA_iteration (timestep : ℝ) (hdt : 0 ≤ timestep) :
    (∃ fuel tree, Spacetree.treegen Real.sqrt fuel (spaceregion scenarioA) = some tree) ∧
    ∀ fuel tree, Spacetree.treegen Real.sqrt fuel (spaceregion scenarioA) = some tree →
      ∃ a3 b3 : body ℝ,
        (leafbodies (forceandupdate Real.sqrt timestep tree scenarioA).1).Perm [a3, b3] ∧
        (forceandupdate Real.sqrt timestep tree scenarioA).2 = [a3, b3] ∧
        moodulus Real.sqrt a3.velocity = 1 / 2 * (G * 10 ^ 30 / (2 * 10 ^ 11) ^ 2 * timestep) ∧
        moodulus Real.sqrt b3.velocity = 1 / 2 * (G * 10 ^ 30 / (2 * 10 ^ 11) ^ 2 * timestep) := by
  rw [scenarioA_eq]
  have hp : (![-10 ^ 11, 0, 0] : Fin 3 → ℝ) ≠ ![10 ^ 11, 0, 0] :=
    vec3_ne_of_zero_ne _ _ _ _ _ _ (by norm_num)
  obtain ⟨hex, hall⟩ := pair_iteration Real.sqrt real_sqrt_exact
    ⟨![-10 ^ 11, 0, 0], 0, 0, 0, 10 ^ 30, 1, 0⟩ ⟨![10 ^ 11, 0, 0], 0, 0, 0, 10 ^ 30, 1, 1⟩
    (by show (0 : ℝ) < 10 ^ 30; positivity) (by show (0 : ℝ) < 10 ^ 30; positivity) hp rfl rfl
    timestep
  refine ⟨hex, ?_⟩
  intro fuel tree ht
  obtain ⟨g1, g2⟩ := hall fuel tree ht
  have sa := stepped_speed Real.sqrt real_sqrt_exact
    (⟨![-10 ^ 11, 0, 0], 0, 0, 0, 10 ^ 30, 1, 0⟩ : body ℝ) ![10 ^ 11, 0, 0] (10 ^ 30) timestep
    (by positivity) (Ne.symm hp) rfl rfl rfl hdt
  have sb := stepped_speed Real.sqrt real_sqrt_exact
    (⟨![10 ^ 11, 0, 0], 0, 0, 0, 10 ^ 30, 1, 1⟩ : body ℝ) ![-10 ^ 11, 0, 0] (10 ^ 30) timestep
    (by positivity) hp rfl rfl rfl hdt
  rw [scenarioA_distance.1] at sa
  rw [scenarioA_distance.2] at sb
  exact ⟨_, _, g1, g2 rfl rfl, sa, sb⟩


/-- Witness for C11: the third body of `collidingbodies` overlaps neither of the other two and
keeps its velocity. -/
theorem C11_updatecollision_frame_witness :
    ∃ c : body ℝ, (Spacetree.updatecollision Real.sqrt collidingbodies)[2]? = some c ∧
      c.velocity = ![0, 1, 0] := by
  obtain ⟨c, hc, _, _, _, _, _, _, hv⟩ :=
    (C11_updatecollision_frame Real.sqrt collidingbodies).2 2 ⟨![9, 0, 0], ![0, 1, 0], 0, 0, 1, 1, 2⟩
      rfl
  refine ⟨c, hc, hv ?_⟩
  intro j bj hj hbj
  match j, hj, hbj with
  | 0, _, hbj =>
    have e : bj = ⟨![0, 0, 0], ![1, 0, 0], 0, 0, 2, 1, 0⟩ := (Option.some.inj hbj).symm
    subst e
    rw [moodulus_axis Real.sqrt real_sqrt_exact _ (by simp) (by simp)]
    simp only [Pi.sub_apply, Matrix.cons_val_zero]
    rw [abs_of_nonneg (by norm_num)]
    norm_num
  | 1, _, hbj =>
    have e : bj = ⟨![1, 0, 0], ![-1, 0, 0], 0, 0, 3, 1, 1⟩ := (Option.some.inj hbj).symm
    subst e
    rw [moodulus_axis Real.sqrt real_sqrt_exact _ (by simp) (by simp)]
    simp only [Pi.sub_apply, Matrix.cons_val_zero]
    rw [abs_of_nonneg (by norm_num)]
    norm_num
  | 2, hj, _ => exact absurd rfl hj
  | n + 3, _, hbj => simp [collidingbodies] at hbj

/-- Witness for C12: the resolved pairs of the pass over `swapbodies`. -/
theorem C12_resolved_pairs_disjoint_witness :
    ∃ ps : List (Nat × Nat),
      resolvedpairs Real.sqrt swapbodies (Spacetree.updatecollision Real.sqrt swapbodies) ps :=
  let ⟨ps, h, _⟩ := C12_resolved_pairs_disjoint Real.sqrt swapbodies
  ⟨ps, h⟩

theorem flaggedregion_tree :
    ∃ fuel t, Spacetree.makeatree Real.sqrt fuel flaggedregion = some t := by
  obtain ⟨d, hd⟩ := exists_separated flaggedregion threebodies_distinct
  obtain ⟨t, ht, _⟩ := makeatree_terminates Real.sqrt d flaggedregion threebodies_nonempty
    threebodies_allinbox hd (d + 1) (by omega)
  exact ⟨d + 1, t, ht⟩

/-- Witness for C14: the leaves of the tree of `flaggedregion` are its three bodies. -/
theorem C14_collision_once_witness :
    ∃ fuel t, Spacetree.makeatree Real.sqrt fuel flaggedregion = some t ∧
      (leafbodies t).Perm flaggedregion.bodiesinregion := by
  obtain ⟨fuel, t, ht⟩ := flaggedregion_tree
  exact ⟨fuel, t, ht,
    ((C14_collision_once Real.sqrt fuel flaggedregion t ht).1 rfl).2.2.2 threebodies_allinbox⟩

/-- C16, amended: in scenario A (two bodies of mass 1e30 at (-1e11, 0, 0) and (1e11, 0, 0),
zero velocity and zero accelerations, G = 6.67e-11) the tree of the padded bounding region
exists, and after one iteration (`updateallacceleration`, then `update`) with a time step
`dt ≥ 0` the leaves and the vector hold two bodies whose speed is
`0.5 * G*1e30/(2e11)^2 * dt`: half the acceleration times the time step, the acceleration
before the step being zero. -/
theorem C16_scenario_speed_half (timestep : ℝ) (hdt : 0 ≤ timestep) :
    (∃ fuel tree, Spacetree.treegen Real.sqrt fuel (spaceregion scenarioA) = some tree) ∧
    ∀ fuel tree, Spacetree.treegen Real.sqrt fuel (spaceregion scenarioA) = some tree →
      ∃ a3 b3 : body ℝ,
        (leafbodies (forceandupdate Real.sqrt timestep tree scenarioA).1).Perm [a3, b3] ∧
        (forceandupdate Real.sqrt timestep tree scenarioA).2 = [a3, b3] ∧
        moodulus Real.sqrt a3.velocity = 1 / 2 * (G * 10 ^ 30 / (2 * 10 ^ 11) ^ 2 * timestep) ∧
        moodulus Real.sqrt b3.velocity = 1 / 2 * (G * 10 ^ 30 / (2 * 10 ^ 11) ^ 2 * timestep) :=
  scenarioA_iteration timestep hdt

/-- Witness for C16: scenario A with time step 1. -/
theorem C16_scenario_speed_half_witness :
    (0 : ℝ) ≤ 1 ∧
    ∃ (fuel : Nat) (tree : Node ℝ) (a3 b3 : body ℝ),
      Spacetree.treegen Real.sqrt fuel (spaceregion scenarioA) = some tree ∧
      (forceandupdate Real.sqrt 1 tree scenarioA).2 = [a3, b3] ∧
      moodulus Real.sqrt a3.velocity = 1 / 2 * (G * 10 ^ 30 / (2 * 10 ^ 11) ^ 2 * 1) ∧
      moodulus Real.sqrt b3.velocity = 1 / 2 * (G * 10 ^ 30 / (2 * 10 ^ 11) ^ 2 * 1) := by
  have h := C16_scenario_speed_half 1 zero_le_one
  obtain ⟨fuel, tree, ht⟩ := h.1
  obtain ⟨a3, b3, _, hvec, ha, hb⟩ := h.2 fuel tree ht
  exact ⟨zero_le_one, fuel, tree, a3, b3, ht, hvec, ha, hb⟩

/-- Counterexample to C16 as stated: in scenario A with time step 1 the tree exists, and after
one iteration neither body has the speed `G*1e30/(2e11)^2 * dt`. -/
theorem C16_speed_not_full :
    (∃ fuel tree, Spacetree.treegen Real.sqrt fuel (spaceregion scenarioA) = some tree) ∧
    ∀ fuel tree, Spacetree.treegen Real.sqrt fuel (spaceregion scenarioA) = some tree →
      ∃ a3 b3 : body ℝ,
        (leafbodies (forceandupdate Real.sqrt 1 tree scenarioA).1).Perm [a3, b3] ∧
        (forceandupdate Real.sqrt 1 tree scenarioA).2 = [a3, b3] ∧
        moodulus Real.sqrt a3.velocity ≠ G * 10 ^ 30 / (2 * 10 ^ 11) ^ 2 * 1 ∧
        moodulus Real.sqrt b3.velocity ≠ G * 10 ^ 30 / (2 * 10 ^ 11) ^ 2 * 1 := by
  obtain ⟨hex, hall⟩ := scenarioA_iteration 1 zero_le_one
  refine ⟨hex, ?_⟩
  intro fuel tree ht
  obtain ⟨a3, b3, hl, hvec, ha, hb⟩ := hall fuel tree ht
  have hx : (0 : ℝ) < G * 10 ^ 30 / (2 * 10 ^ 11) ^ 2 * 1 := by
    have hG : (0 : ℝ) < G := G_positive
    positivity
  refine ⟨a3, b3, hl, hvec, ?_, ?_⟩
  · rw [ha]
    intro h
    linarith
  · rw [hb]
    intro h
    linarith


section OctantClaims

variable {K : Type} [LinearOrderedField K]

theorem halves_midpoint (r : K × K) :
    lowerhalf r = (r.1, (r.1 + r.2) / 2) ∧ upperhalf r = ((r.1 + r.2) / 2, r.2) := by
  unfold lowerhalf upperhalf
  constructor <;> congr 1 <;> ring

/-- C21: the eight octants of `Spacetree::makeatree` halve each axis at its midpoint, octant `i`
taking the upper x half iff bit 0 of `i` is set, the upper y half iff bit 1 is set and the upper
z half iff bit 2 is set; a position that passes the half-open test of the box passes the test of
exactly one octant; and at a node that is not a leaf, child `i` is `NULL` exactly when octant
`i` received no body, the bodies received being those of the region (after the collision step)
that pass the half-open test of the octant. -/
theorem C21_octants_partition (reg : region K) :
    (∀ i : Fin 8, octantbox reg i =
      (if i.val % 2 = 1 then upperhalf reg.xrange else lowerhalf reg.xrange,
        if i.val / 2 % 2 = 1 then upperhalf reg.yrange else lowerhalf reg.yrange,
        if i.val / 4 % 2 = 1 then upperhalf reg.zrange else lowerhalf reg.zrange)) ∧
    (∀ r : K × K, lowerhalf r = (r.1, (r.1 + r.2) / 2) ∧ upperhalf r = ((r.1 + r.2) / 2, r.2)) ∧
    (∀ p : Fin 3 → K, inbox reg.xrange reg.yrange reg.zrange p = true →
      ∃! i : Fin 8, inbox (octantbox reg i).1 (octantbox reg i).2.1 (octantbox reg i).2.2 p =
        true) ∧
    ∀ (sqrt : K → K) (fuel : Nat) (t : Node K),
      Spacetree.makeatree sqrt (fuel + 1) reg = some t → (∀ b, reg.bodiesinregion ≠ [b]) →
      ∃ kids : Fin 8 → Node K,
        t = Node.mk false reg.regnodepath
          (tempcogOf reg.bodiesinregion (totmassOf reg.bodiesinregion))
          (totmassOf reg.bodiesinregion) (nodeextent sqrt reg.bodiesinregion) body.garbage
          kids ∧
        ∀ i, (kids i = Node.null ↔
            (subregion (collisionpass sqrt reg) i).bodiesinregion = []) ∧
          (subregion (collisionpass sqrt reg) i).bodiesinregion =
            (collisionpass sqrt reg).bodiesinregion.filter (fun b =>
              inbox (octantbox reg i).1 (octantbox reg i).2.1 (octantbox reg i).2.2
                b.position) := by
  refine ⟨?_, halves_midpoint, ?_, ?_⟩
  · intro i
    rw [octantbox_bits]
    simp only [decide_eq_true_eq]
  · intro p hp
    refine ⟨octantof reg p, (inbox_octant_iff reg p hp _).mpr rfl, ?_⟩
    intro i hi
    exact ((inbox_octant_iff reg p hp i).mp hi).symm
  · intro sqrt fuel t ht hne
    rcases makeatree_some sqrt fuel reg t ht with ⟨b, hb, _⟩ | ⟨_, kids, rfl, hk⟩
    · exact absurd hb (hne b)
    · refine ⟨kids, rfl, ?_⟩
      intro i
      obtain ⟨hx, hy, hz, _⟩ := collisionpass_box sqrt reg
      refine ⟨⟨?_, (hk i).2⟩, ?_⟩
      · intro hnull
        by_contra hcon
        have hlen : 1 ≤ (subregion (collisionpass sqrt reg) i).bodiesinregion.length :=
          List.length_pos.mpr hcon
        have := makeatree_not_null sqrt fuel _ _ ((hk i).1 hlen)
        rw [hnull] at this
        simp [Node.isnull] at this
      · unfold subregion octantbox
        rw [hx, hy, hz]

end OctantClaims

/-- Witness for C21: the position (2, 2, 2) in the box of `threebodies`. -/
theorem C21_octants_partition_witness :
    ∃! i : Fin 8, inbox (octantbox threebodies i).1 (octantbox threebodies i).2.1
      (octantbox threebodies i).2.2 (![2, 2, 2] : Fin 3 → ℝ) = true :=
  (C21_octants_partition threebodies).2.2.1 ![2, 2, 2] (by
    simp [threebodies, inbox_iff]
    norm_num)


section RootBox

variable {K : Type} [LinearOrderedField K]

end RootBox

section StoreWrites

variable {K : Type}

theorem storewrite_length (bv : List (body K)) (i : Int) (b : body K) :
    (storewrite bv i b).length = bv.length := by
  unfold storewrite
  split_ifs <;> simp

theorem storewrite_getElem_ne (bv : List (body K)) (i : Int) (b : body K) (n : Nat)
    (h : i ≠ (n : Int)) : (storewrite bv i b)[n]? = bv[n]? := by
  unfold storewrite
  split_ifs with h0
  · apply List.getElem?_set_ne
    intro hcon
    apply h
    rw [← hcon]
    exact (Int.toNat_of_nonneg h0).symm
  · rfl

theorem storewrite_getElem_self (bv : List (body K)) (i : Int) (b : body K) (h0 : 0 ≤ i)
    (h1 : i < bv.length) : (storewrite bv i b)[i.toNat]? = some b := by
  unfold storewrite
  rw [if_pos h0]
  have : i.toNat < bv.length := by omega
  rw [List.getElem?_set_self this]

/-- A sequence of writes of bodies with pairwise different indices inside the vector: the
length is kept, every body stands at its index, and the other entries are kept. -/
theorem foldl_storewrite (V : body K → body K) (hV : ∀ l, (V l).index = l.index) :
    ∀ (ls : List (body K)) (bv : List (body K)), (ls.map body.index).Nodup →
      (∀ l ∈ ls, 0 ≤ l.index ∧ l.index < bv.length) →
      (ls.foldl (fun v l => storewrite v (V l).index (V l)) bv).length = bv.length ∧
      (∀ l ∈ ls, (ls.foldl (fun v l => storewrite v (V l).index (V l)) bv)[l.index.toNat]? =
        some (V l)) ∧
      ∀ n : Nat, (∀ l ∈ ls, l.index ≠ (n : Int)) →
        (ls.foldl (fun v l => storewrite v (V l).index (V l)) bv)[n]? = bv[n]? := by
  intro ls
  induction ls with
  | nil =>
    intro bv _ _
    exact ⟨rfl, fun l hl => by simp at hl, fun _ _ => rfl⟩
  | cons a ls ih =>
    intro bv hnd hr
    rw [List.map_cons, List.nodup_cons] at hnd
    obtain ⟨ha, hnd2⟩ := hnd
    have hlen1 : (storewrite bv (V a).index (V a)).length = bv.length := storewrite_length _ _ _
    obtain ⟨g1, g2, g3⟩ := ih (storewrite bv (V a).index (V a)) hnd2 (fun l hl => by
      rw [hlen1]
      exact hr l (List.mem_cons_of_mem _ hl))
    simp only [List.foldl_cons]
    refine ⟨g1.trans hlen1, ?_, ?_⟩
    · intro l hl
      rcases List.mem_cons.mp hl with rfl | hl
      · obtain ⟨h0, h1⟩ := hr l (List.mem_cons_self _ _)
        rw [g3 l.index.toNat (fun l2 hl2 hcon => ha (by
          rw [Int.toNat_of_nonneg h0] at hcon
          rw [← hcon]
          exact List.mem_map_of_mem _ hl2)), hV]
        exact storewrite_getElem_self bv l.index (V l) h0 h1
      · exact g2 l hl
    · intro n hn
      rw [g3 n (fun l hl => hn l (List.mem_cons_of_mem _ hl)), hV]
      exact storewrite_getElem_ne bv a.index (V a) n (hn a (List.mem_cons_self _ _))

end StoreWrites

section StoreClaims

variable {K : Type} [LinearOrderedField K]

theorem verletstep_index (timestep : K) (l : body K) : (verletstep timestep l).index = l.index :=
  rfl

/-- C23: for a tree whose leaf bodies carry pairwise different indices inside the vector,
`bodygen::update` keeps the length of `bodyvector`, leaves at the index of every leaf the
updated body of that leaf (the body that the leaf holds after the call), and keeps the entries
whose index no leaf carries. -/
theorem C23_update_writes_store (timestep : K) (t : Node K) (bodyvector : List (body K))
    (hnd : ((leafbodies t).map body.index).Nodup)
    (hr : ∀ l ∈ leafbodies t, 0 ≤ l.index ∧ l.index < bodyvector.length) :
    (bodygen.update timestep t bodyvector).2.length = bodyvector.length ∧
    leafbodies (bodygen.update timestep t bodyvector).1 =
      (leafbodies t).map (verletstep timestep) ∧
    (∀ l ∈ leafbodies t,
      (verletstep timestep l).index = l.index ∧
      (bodygen.update timestep t bodyvector).2[l.index.toNat]? = some (verletstep timestep l)) ∧
    ∀ n : Nat, (∀ l ∈ leafbodies t, l.index ≠ (n : Int)) →
      (bodygen.update timestep t bodyvector).2[n]? = bodyvector[n]? := by
  obtain ⟨u1, u2⟩ := update_leafbodies timestep t bodyvector
  obtain ⟨g1, g2, g3⟩ := foldl_storewrite (verletstep timestep) (verletstep_index timestep)
    (leafbodies t) bodyvector hnd hr
  rw [u2]
  exact ⟨g1, u1, fun l hl => ⟨rfl, g2 l hl⟩, g3⟩

end StoreClaims

/-- Witness for C23: the leaf of the body of `singlestore` and that store. -/
theorem C23_update_writes_store_witness :
    (bodygen.update (1 : ℝ) (leafnode "" ⟨![2, 2, 2], ![1, 0, 0], 0, 0, 1, 1, 0⟩)
      singlestore).2[0]? =
      some (verletstep (1 : ℝ) ⟨![2, 2, 2], ![1, 0, 0], 0, 0, 1, 1, 0⟩) :=
  ((C23_update_writes_store (1 : ℝ) (leafnode "" ⟨![2, 2, 2], ![1, 0, 0], 0, 0, 1, 1, 0⟩)
    singlestore (by simp [leafnode, leafbodies]) (by simp [leafnode, leafbodies, singlestore])).2.2.1
      ⟨![2, 2, 2], ![1, 0, 0], 0, 0, 1, 1, 0⟩ (by simp [leafnode, leafbodies])).2

section PendingOnly

variable {K : Type} [LinearOrderedField K]

theorem addpointmass_nopending (sqrt : K → K) (b : body K) (c : Fin 3 → K) (m : K) :
    (addpointmass sqrt b c m).nopending = b.nopending := rfl

theorem setsolebody_nopending (root : Node K) (b : body K)
    (h : b.nopending = root.solebody.nopending) :
    (root.setsolebody b).nopending = root.nopending := by
  cases root with
  | null => rfl
  | mk isleaf nodepath cog cogmass extent solebody Nodelist =>
    simp only [Node.setsolebody, Node.nopending, Node.solebody] at h ⊢
    rw [h]

/-- The traversal for one leaf returns the node it was given, with another pending
acceleration. -/
theorem usa_nopending (sqrt : K → K) (tree : Node K) :
    ∀ root : Node K,
      (bodygen.updatesingleacceleration sqrt root tree).nopending = root.nopending := by
  induction tree with
  | null =>
    intro root
    simp [bodygen.updatesingleacceleration]
  | mk isleaf treepath cog cogmass extent solebody Nodelist ih =>
    intro root
    rw [bodygen.updatesingleacceleration]
    split_ifs
    · exact setsolebody_nopending root _ (addpointmass_nopending sqrt _ _ _)
    · exact foldl_invariant (fun r : Node K => r.nopending = root.nopending) _ _ _ rfl
        (fun r i hr => (ih i r).trans hr)

theorem uaa_nopending (sqrt : K → K) (wholetree : Node K) (tree : Node K) :
    (bodygen.updateallacceleration sqrt wholetree tree).nopending = tree.nopending := by
  induction tree with
  | null => simp [bodygen.updateallacceleration]
  | mk isleaf nodepath cog cogmass extent solebody Nodelist ih =>
    rw [bodygen.updateallacceleration]
    split_ifs
    · exact usa_nopending sqrt wholetree _
    · simp only [Node.nopending]
      congr 1
      funext i
      exact ih i

theorem nopending_fields (a b : body K) (h : a.nopending = b.nopending) :
    a.position = b.position ∧ a.velocity = b.velocity ∧ a.acceleration = b.acceleration ∧
      a.mass = b.mass ∧ a.radius = b.radius ∧ a.index = b.index :=
  ⟨(congrArg body.position h :), (congrArg body.velocity h :),
    (congrArg body.acceleration h :), (congrArg body.mass h :), (congrArg body.radius h :),
    (congrArg body.index h :)⟩

theorem leafbodies_nopending (t : Node K) :
    leafbodies t.nopending = (leafbodies t).map body.nopending := by
  induction t with
  | null => simp [Node.nopending, leafbodies]
  | mk isleaf nodepath cog cogmass extent solebody Nodelist ih =>
    cases isleaf with
    | true => simp [Node.nopending, leafbodies]
    | false =>
      simp only [Node.nopending, leafbodies_internal, List.map_flatMap]
      congr 1
      funext i
      exact ih i

/-- C24: `bodygen::updateallacceleration` changes only the pending acceleration of bodies: the
tree it returns and the tree it was given are the same once the pending acceleration of every
body is blanked, that is, they have the same shape, every node has the same `isleaf`, path,
`cog`, `cogmass` and `extent`, and every body has the same position, velocity, acceleration,
mass, radius and index.  In particular the leaves hold, in the same order, bodies that agree
with those before the call in these six fields. -/
theorem C24_only_pending_changes (sqrt : K → K) (wholetree tree : Node K) :
    (bodygen.updateallacceleration sqrt wholetree tree).nopending = tree.nopending ∧
    (leafbodies (bodygen.updateallacceleration sqrt wholetree tree)).map body.nopending =
      (leafbodies tree).map body.nopending ∧
    ∀ (n : Nat) (a b : body K),
      (leafbodies (bodygen.updateallacceleration sqrt wholetree tree))[n]? = some a →
      (leafbodies tree)[n]? = some b →
      a.position = b.position ∧ a.velocity = b.velocity ∧ a.acceleration = b.acceleration ∧
        a.mass = b.mass ∧ a.radius = b.radius ∧ a.index = b.index := by
  have h1 := uaa_nopending sqrt wholetree tree
  have h2 : (leafbodies (bodygen.updateallacceleration sqrt wholetree tree)).map body.nopending =
      (leafbodies tree).map body.nopending := by
    rw [← leafbodies_nopending, ← leafbodies_nopending, h1]
  refine ⟨h1, h2, ?_⟩
  intro n a b ha hb
  have := congrArg (fun l => l[n]?) h2
  simp only [List.getElem?_map, ha, hb, Option.map_some'] at this
  exact nopending_fields a b (Option.some.inj this)

end PendingOnly

/-- Witness for C24: the leaf of the body of `singlestore`. -/
theorem C24_only_pending_changes_witness :
    (bodygen.updateallacceleration Real.sqrt
      (leafnode "" ⟨![2, 2, 2], ![1, 0, 0], 0, 0, 1, 1, 0⟩)
      (leafnode "" ⟨![2, 2, 2], ![1, 0, 0], 0, 0, 1, 1, 0⟩)).nopending =
      (leafnode "" (⟨![2, 2, 2], ![1, 0, 0], 0, 0, 1, 1, 0⟩ : body ℝ)).nopending :=
  (C24_only_pending_changes Real.sqrt _ _).1


section Snapshots

variable {K : Type} [LinearOrderedField K]

/-- What a pass of the loop does to `j`, `ccount` and the files, when the tree build returns. -/
theorem simstep_some (sqrt : K → K) (fuel : Nat) (timestep : K) (st st2 : simstate K) (i : Nat)
    (h : simstep sqrt fuel timestep st i = some st2) :
    st2.bodyvector = (forceandupdate sqrt timestep st.datatree st.bodyvector).2 ∧
    Spacetree.treegen sqrt fuel (spaceregion st2.bodyvector) = some st2.datatree ∧
    (st.j = 100 → st2.j = 1 ∧ st2.ccount = st.ccount + 1 ∧
      st2.files = st.files ++ [⟨i, st.ccount, st2.bodyvector⟩]) ∧
    (st.j ≠ 100 → st2.j = st.j + 1 ∧ st2.ccount = st.ccount ∧ st2.files = st.files) := by
  unfold simstep at h
  simp only at h
  split at h
  · cases h
  · rename_i t ht
    cases h
    refine ⟨rfl, ht, ?_, ?_⟩
    · intro hj
      simp [hj]
    · intro hj
      simp [hj]

theorem simulateloop_succ (sqrt : K → K) (fuel : Nat) (timestep : K) (st0 st2 : simstate K)
    (n : Nat) (h : simulateloop sqrt fuel timestep st0 (n + 1) = some st2) :
    ∃ st, simulateloop sqrt fuel timestep st0 n = some st ∧
      simstep sqrt fuel timestep st n = some st2 := by
  rw [simulateloop] at h
  split at h
  · cases h
  · rename_i st hst
    exact ⟨st, hst, h⟩

/-- The counters and the files after `n` passes of the loop. -/
theorem simulateloop_files (sqrt : K → K) (fuel : Nat) (timestep : K) (st0 : simstate K)
    (h0 : st0.j = 0 ∧ st0.ccount = 0 ∧ st0.files = []) :
    ∀ (n : Nat) (st : simstate K), simulateloop sqrt fuel timestep st0 n = some st →
      (n = 0 → st.j = 0) ∧ (1 ≤ n → st.j = (n - 1) % 100 + 1) ∧
      st.ccount = (((n - 1) / 100 : Nat) : Int) ∧
      st.files.map (fun f => (f.iteration, f.suffix)) =
        (List.range ((n - 1) / 100)).map (fun k : Nat => ((100 * (k + 1) : Nat), (k : Int))) := by
  intro n
  induction n with
  | zero =>
    intro st h
    rw [simulateloop] at h
    cases h
    obtain ⟨h1, h2, h3⟩ := h0
    refine ⟨fun _ => h1, fun h => absurd h (by decide), ?_, ?_⟩
    · rw [h2]
      rfl
    · rw [h3]
      rfl
  | succ n ih =>
    intro st2 h
    obtain ⟨st, hst, hstep⟩ := simulateloop_succ sqrt fuel timestep st0 st2 n h
    obtain ⟨i1, i2, i3, i4⟩ := ih st hst
    obtain ⟨_, _, s1, s2⟩ := simstep_some sqrt fuel timestep st st2 n hstep
    have hj : st.j = 100 ↔ (1 ≤ n ∧ (n - 1) % 100 = 99) := by
      rcases Nat.eq_zero_or_pos n with hn | hn
      · rw [i1 hn]
        omega
      · rw [i2 hn]
        omega
    refine ⟨fun hcon => absurd hcon (Nat.succ_ne_zero n), fun _ => ?_, ?_, ?_⟩
    · by_cases hc : st.j = 100
      · rw [(s1 hc).1]
        have := hj.mp hc
        omega
      · rw [(s2 hc).1]
        rcases Nat.eq_zero_or_pos n with hn | hn
        · rw [i1 hn]
          omega
        · rw [i2 hn]
          have : ¬ (n - 1) % 100 = 99 := fun h99 => hc (hj.mpr ⟨hn, h99⟩)
          omega
    · by_cases hc : st.j = 100
      · rw [(s1 hc).2.1, i3]
        have := hj.mp hc
        have e : (n + 1 - 1) / 100 = (n - 1) / 100 + 1 := by omega
        rw [e]
        push_cast
        rfl
      · rw [(s2 hc).2.1, i3]
        have e : (n + 1 - 1) / 100 = (n - 1) / 100 := by
          rcases Nat.eq_zero_or_pos n with hn | hn
          · omega
          · have : ¬ (n - 1) % 100 = 99 := fun h99 => hc (hj.mpr ⟨hn, h99⟩)
            omega
        rw [e]
    · by_cases hc : st.j = 100
      · rw [(s1 hc).2.2, List.map_append, i4]
        have := hj.mp hc
        have e : (n + 1 - 1) / 100 = (n - 1) / 100 + 1 := by omega
        rw [e, List.range_succ, List.map_append]
        congr 1
        simp only [List.map_cons, List.map_nil, List.cons.injEq, Prod.mk.injEq, and_true]
        constructor
        · omega
        · exact i3
      · rw [(s2 hc).2.2, i4]
        have e : (n + 1 - 1) / 100 = (n - 1) / 100 := by
          rcases Nat.eq_zero_or_pos n with hn | hn
          · omega
          · have : ¬ (n - 1) % 100 = 99 := fun h99 => hc (hj.mpr ⟨hn, h99⟩)
            omega
        rw [e]

theorem simulate_some (sqrt : K → K) (fuel : Nat) (timestep : K) (bv : List (body K)) (n : Nat)
    (st : simstate K) (h : bodygen.simulate sqrt fuel timestep bv n = some st) :
    ∃ t, Spacetree.treegen sqrt fuel (spaceregion bv) = some t ∧
      simulateloop sqrt fuel timestep ⟨t, bv, 0, 0, []⟩ n = some st := by
  unfold bodygen.simulate at h
  split at h
  · cases h
  · rename_i t ht
    exact ⟨t, ht, h⟩

/-- The run on a store of one body: every tree build returns when it may use one level. -/
theorem simulate_single (sqrt : K → K) (fuel : Nat) (timestep : K) (bv : List (body K))
    (hlen : bv.length = 1) (n : Nat) :
    ∃ st, bodygen.simulate sqrt (fuel + 1) timestep bv n = some st ∧
      st.bodyvector.length = 1 := by
  have tree1 : ∀ v : List (body K), v.length = 1 →
      ∃ t, Spacetree.treegen sqrt (fuel + 1) (spaceregion v) = some t := by
    intro v hv
    match v, hv with
    | [x], _ =>
      exact ⟨_, by rw [treegen_spaceregion]; exact makeatree_one sqrt fuel _ x rfl⟩
  obtain ⟨t0, ht0⟩ := tree1 bv hlen
  unfold bodygen.simulate
  rw [ht0]
  simp only
  induction n with
  | zero => exact ⟨_, rfl, hlen⟩
  | succ n ih =>
    obtain ⟨st, hst, hl⟩ := ih
    rw [simulateloop, hst]
    simp only
    obtain ⟨u1, u2⟩ := update_leafbodies timestep
      (bodygen.updateallacceleration sqrt st.datatree st.datatree) st.bodyvector
    have hl2 : (forceandupdate sqrt timestep st.datatree st.bodyvector).2.length = 1 := by
      unfold forceandupdate
      rw [u2]
      refine foldl_invariant (fun v : List (body K) => v.length = 1) _ _ _ hl ?_
      intro v l hv
      rw [storewrite_length]
      exact hv
    obtain ⟨t2, ht2⟩ := tree1 _ hl2
    unfold simstep
    simp only [ht2]
    exact ⟨_, rfl, hl2⟩

/-- C25, amended: in a run of `N` iterations of the loop of `bodygen::simulate` (with `ccount`
inside the range of `int`) exactly `floor((N - 1) / 100)` snapshots are written (none for
`N = 0`): the `k`-th (`k = 0, 1, 2, ...`) carries the suffix `k` and is written in the pass with
loop counter `i = 100 * (k + 1)`, that is, after 101 iterations for the first and after exactly
100 more for each next one.  A run on a store of one body returns for every `N` when the tree
build may use one level. -/
theorem C25_snapshot_count (sqrt : K → K) (fuel : Nat) (timestep : K)
    (bodyvector : List (body K)) (N : Nat) (st : simstate K)
    (hint : (N - 1) / 100 < 2 ^ 31)
    (h : bodygen.simulate sqrt fuel timestep bodyvector N = some st) :
    st.files.length = (N - 1) / 100 ∧
    st.files.map (fun f => (f.iteration, f.suffix)) =
      (List.range ((N - 1) / 100)).map (fun k : Nat => ((100 * (k + 1) : Nat), (k : Int))) ∧
    (∀ (k : Nat) (f : snapshot K), st.files[k]? = some f → f.suffix = (k : Int) ∧ f.iteration = 100 * (k + 1) ∧
      f.iteration < N ∧ f.suffix < 2 ^ 31) ∧
    (bodyvector.length = 1 → ∀ M, ∃ st2,
      bodygen.simulate sqrt (fuel + 1) timestep bodyvector M = some st2) := by
  obtain ⟨t, _, hloop⟩ := simulate_some sqrt fuel timestep bodyvector N st h
  obtain ⟨_, _, _, hfiles⟩ := simulateloop_files sqrt fuel timestep _ ⟨rfl, rfl, rfl⟩ N st hloop
  have hlen : st.files.length = (N - 1) / 100 := by
    have := congrArg List.length hfiles
    simpa using this
  refine ⟨hlen, hfiles, ?_, ?_⟩
  · intro k f hk
    have hklt : k < (N - 1) / 100 := by
      rw [← hlen]
      exact (List.getElem?_eq_some.mp hk).1
    have := congrArg (fun l => l[k]?) hfiles
    simp only [List.getElem?_map, hk, Option.map_some', List.getElem?_range hklt,
      Option.some.injEq, Prod.mk.injEq] at this
    refine ⟨this.2, this.1, ?_, ?_⟩
    · rw [this.1]
      omega
    · rw [this.2]
      have : ((k : Int)) < ((2 ^ 31 : Nat) : Int) := by
        exact_mod_cast lt_trans hklt hint
      simpa using this
  · intro h1 M
    obtain ⟨st2, hst2, _⟩ := simulate_single sqrt fuel timestep bodyvector h1 M
    exact ⟨st2, hst2⟩

end Snapshots

/-- Counterexample to C25 as stated: the run of 100 iterations on `singlestore` returns and
has written no snapshot, while `floor(100 / 100) = 1`. -/
theorem C25_hundred_iterations_no_snapshot :
    ∃ st, bodygen.simulate Real.sqrt 1 1 singlestore 100 = some st ∧
      st.files.length = 0 ∧ st.files.length ≠ 100 / 100 := by
  obtain ⟨st, hst, _⟩ := simulate_single Real.sqrt 0 1 singlestore rfl 100
  obtain ⟨t, _, hloop⟩ := simulate_some Real.sqrt 1 1 singlestore 100 st hst
  obtain ⟨_, _, _, hfiles⟩ := simulateloop_files Real.sqrt 1 1 _ ⟨rfl, rfl, rfl⟩ 100 st hloop
  have hlen : st.files.length = 0 := by
    have := congrArg List.length hfiles
    simpa using this
  exact ⟨st, hst, hlen, by rw [hlen]; decide⟩

/-- Witness for C25: the run of 201 iterations on `singlestore` returns and has written two
snapshots, with the suffixes 0 and 1, in the passes with loop counter 100 and 200. -/
theorem C25_snapshot_count_witness :
    ∃ st, bodygen.simulate Real.sqrt 1 1 singlestore 201 = some st ∧
      st.files.map (fun f => (f.iteration, f.suffix)) = [(100, 0), (200, 1)] := by
  obtain ⟨st, hst, _⟩ := simulate_single Real.sqrt 0 1 singlestore rfl 201
  have h := (C25_snapshot_count Real.sqrt 1 1 singlestore 201 st (by norm_num) hst).2.1
  exact ⟨st, hst, by rw [h]; rfl⟩


section PathStrings

theorem streqAux_first (a b : Char) (as bs : List Char) (h : a ≠ b) :
    streqAux (a :: as) (b :: bs) = false := by
  simp [streqAux, h]

/-- Paths that part at an internal node: neither is a left part of the other. -/
theorem streq_diverge (i j : Fin 8) (h : i ≠ j) (p w1 w2 : String) :
    streq (p ++ pathnames i ++ w1) (p ++ pathnames j ++ w2) = false := by
  rw [String.append_assoc, String.append_assoc, streq_append]
  unfold streq
  rw [String.data_append, String.data_append]
  fin_cases i <;> fin_cases j <;>
    first
      | exact absurd rfl h
      | simp [pathnames, streqAux]

end PathStrings

section LeafNodes

variable {K : Type}

theorem leafnodes_leaf (nodepath : String) (cog : Fin 3 → K) (cogmass extent : K) (b : body K)
    (kids : Fin 8 → Node K) :
    leafnodes (Node.mk true nodepath cog cogmass extent b kids) =
      [Node.mk true nodepath cog cogmass extent b kids] := by
  simp [leafnodes]

theorem leafnodes_internal (nodepath : String) (cog : Fin 3 → K) (cogmass extent : K)
    (b : body K) (kids : Fin 8 → Node K) :
    leafnodes (Node.mk false nodepath cog cogmass extent b kids) =
      (List.finRange 8).flatMap (fun i => leafnodes (kids i)) := by
  simp [leafnodes]

/-- The answer of `comparetree` depends on its first argument only through the path. -/
theorem comparetree_path (root root2 : Node K) (h : root.nodepath = root2.nodepath)
    (t : Node K) : bodygen.comparetree root t = bodygen.comparetree root2 t := by
  induction t with
  | null => simp [bodygen.comparetree]
  | mk isleaf nodepath cog cogmass extent b kids ih =>
    rw [bodygen.comparetree, bodygen.comparetree, h]
    congr 1
    induction (List.finRange 8) with
    | nil => rfl
    | cons x l ihl =>
      simp only [List.foldr_cons]
      rw [ihl, ih x]

end LeafNodes

section UsedNodes

variable {K : Type} [LinearOrderedField K]

theorem leafnodes_solebody (t : Node K) : (leafnodes t).map Node.solebody = leafbodies t := by
  induction t with
  | null => simp [leafnodes, leafbodies]
  | mk isleaf nodepath cog cogmass extent b kids ih =>
    cases isleaf with
    | true => simp [leafnodes, leafbodies, Node.solebody]
    | false =>
      rw [leafnodes_internal, leafbodies_internal, List.map_flatMap]
      congr 1
      funext i
      exact ih i

theorem used_congr (sqrt : K → K) (root root2 : Node K) (hp : root.nodepath = root2.nodepath)
    (hs : root.solebody.position = root2.solebody.position) (t : Node K) :
    usedpointmasses sqrt root t = usedpointmasses sqrt root2 t := by
  induction t with
  | null => simp [usedpointmasses]
  | mk isleaf nodepath cog cogmass extent b kids ih =>
    rw [usedpointmasses, usedpointmasses, comparetree_path root root2 hp, hs]
    have : (fun i => usedpointmasses sqrt root (kids i)) =
        fun i => usedpointmasses sqrt root2 (kids i) := funext ih
    rw [this]

theorem usa_null_root (sqrt : K → K) (t : Node K) :
    bodygen.updatesingleacceleration sqrt Node.null t = Node.null := by
  induction t with
  | null => simp [bodygen.updatesingleacceleration]
  | mk isleaf nodepath cog cogmass extent b kids ih =>
    rw [bodygen.updatesingleacceleration]
    split_ifs
    · rfl
    · exact foldl_invariant (fun r : Node K => r = Node.null) _ _ _ rfl
        (fun r i hr => by rw [hr]; exact ih i)

theorem foldl_addpointmass_position (sqrt : K → K) (l : List (Node K)) :
    ∀ b : body K, (l.foldl (fun x n => addpointmass sqrt x n.cogOr0 n.cogmassOr0) b).position =
      b.position := by
  induction l with
  | nil => intro b; rfl
  | cons n l ih =>
    intro b
    simp only [List.foldl_cons]
    rw [ih]
    rfl

/-- The traversal for a node adds to the pending acceleration of its body the pull of the
nodes of `usedpointmasses`, in their order. -/
theorem usa_eq_used_mk (sqrt : K → K) (a : Bool) (p : String) (c : Fin 3 → K) (m e : K)
    (ks : Fin 8 → Node K) (t : Node K) :
    ∀ b : body K, bodygen.updatesingleacceleration sqrt (Node.mk a p c m e b ks) t =
      Node.mk a p c m e
        ((usedpointmasses sqrt (Node.mk a p c m e b ks) t).foldl
          (fun x n => addpointmass sqrt x n.cogOr0 n.cogmassOr0) b) ks := by
  induction t with
  | null =>
    intro b
    simp [bodygen.updatesingleacceleration, usedpointmasses]
  | mk isleaf nodepath cog cogmass extent sb kids ih =>
    intro b
    rw [bodygen.updatesingleacceleration, usedpointmasses]
    split_ifs with hc
    · rfl
    · have key : ∀ (l : List (Fin 8)) (b2 : body K), b2.position = b.position →
          l.foldl (fun r i => bodygen.updatesingleacceleration sqrt r (kids i))
            (Node.mk a p c m e b2 ks) =
          Node.mk a p c m e
            ((l.flatMap (fun i => usedpointmasses sqrt (Node.mk a p c m e b ks) (kids i))).foldl
              (fun x n => addpointmass sqrt x n.cogOr0 n.cogmassOr0) b2) ks := by
        intro l
        induction l with
        | nil => intro b2 _; rfl
        | cons x l ihl =>
          intro b2 hb2
          simp only [List.foldl_cons, List.flatMap_cons, List.foldl_append]
          rw [ih x b2, used_congr sqrt (Node.mk a p c m e b2 ks) (Node.mk a p c m e b ks) rfl hb2]
          exact ihl _ ((foldl_addpointmass_position sqrt _ b2).trans hb2)
      exact key (List.finRange 8) b rfl

theorem usa_eq_used (sqrt : K → K) (root t : Node K) :
    bodygen.updatesingleacceleration sqrt root t =
      root.setsolebody ((usedpointmasses sqrt root t).foldl
        (fun x n => addpointmass sqrt x n.cogOr0 n.cogmassOr0) root.solebody) := by
  cases root with
  | null => exact usa_null_root sqrt t
  | mk a p c m e b ks => exact usa_eq_used_mk sqrt a p c m e ks t b

theorem countP_flatMap_congr {α β : Type} (q : β → Bool) (f g : α → List β) (l : List α)
    (h : ∀ i ∈ l, (f i).countP q = (g i).countP q) :
    (l.flatMap f).countP q = (l.flatMap g).countP q := by
  induction l with
  | nil => rfl
  | cons x l ih =>
    simp only [List.flatMap_cons, List.countP_append]
    rw [h x (List.mem_cons_self _ _), ih (fun i hi => h i (List.mem_cons_of_mem _ hi))]

theorem flatMap_flatMap {α β γ : Type} (l : List α) (f : α → List β) (g : β → List γ) :
    (l.flatMap f).flatMap g = l.flatMap (fun i => (f i).flatMap g) := by
  induction l with
  | nil => rfl
  | cons x l ih => simp only [List.flatMap_cons, List.flatMap_append, ih]

theorem used_leafnode (sqrt : K → K) (L : Node K) (p : String) (b : body K) :
    usedpointmasses sqrt L (leafnode p b) =
      if bodygen.comparetree L (leafnode p b) = false then [leafnode p b] else [] := by
  unfold leafnode
  rw [usedpointmasses]
  by_cases hc : bodygen.comparetree L
      (Node.mk true p b.position b.mass 0 b (fun _ => Node.null)) = false
  · simp [hc]
  · simp only [Bool.not_eq_false] at hc
    simp [hc, usedpointmasses]

/-- A body whose leaf is not taken for the leaf of the traversal is in the subtree of the
used nodes as often as it is in the tree. -/
theorem used_count (sqrt : K → K) (L : Node K) (p : Fin 3 → K) (fuel : Nat) :
    ∀ (reg : region K) (t : Node K), Spacetree.makeatree sqrt fuel reg = some t →
      (∀ n ∈ leafnodes t, n.solebody.position = p → bodygen.comparetree L n = false) →
      ((usedpointmasses sqrt L t).flatMap leafbodies).countP
          (fun b => decide (b.position = p)) =
        (leafbodies t).countP (fun b => decide (b.position = p)) := by
  induction fuel with
  | zero =>
    intro reg t h
    simp [Spacetree.makeatree] at h
  | succ fuel ih =>
    intro reg t h hq
    rcases makeatree_some sqrt fuel reg t h with ⟨b, _, rfl⟩ | ⟨_, kids, rfl, hk⟩
    · rw [used_leafnode]
      by_cases hc : bodygen.comparetree L (leafnode reg.regnodepath b) = false
      · rw [if_pos hc]
        simp
      · rw [if_neg hc]
        have hb : b.position ≠ p := by
          intro hbp
          apply hc
          exact hq (leafnode reg.regnodepath b) (by simp [leafnode, leafnodes]) hbp
        simp [leafnode, leafbodies, hb]
    · rw [usedpointmasses]
      split_ifs with hc
      · simp
      · rw [leafbodies_internal, flatMap_flatMap]
        apply countP_flatMap_congr
        intro i _
        by_cases hlen : 1 ≤ (subregion (collisionpass sqrt reg) i).bodiesinregion.length
        · apply ih _ _ ((hk i).1 hlen)
          intro n hn
          apply hq n
          rw [leafnodes_internal, List.mem_flatMap]
          exact ⟨i, List.mem_finRange i, hn⟩
        · have hnil : (subregion (collisionpass sqrt reg) i).bodiesinregion = [] := by
            apply List.eq_nil_of_length_eq_zero
            omega
          rw [(hk i).2 hnil]
          simp [usedpointmasses, leafbodies]

/-- The leaf nodes of the tree of a region are leaves as `makeatree` builds them, with paths
that continue the path of the region. -/
theorem leafnodes_path (sqrt : K → K) (fuel : Nat) :
    ∀ (reg : region K) (t : Node K), Spacetree.makeatree sqrt fuel reg = some t →
      ∀ n ∈ leafnodes t, ∃ (w : String) (b : body K), n = leafnode (reg.regnodepath ++ w) b := by
  induction fuel with
  | zero =>
    intro reg t h
    simp [Spacetree.makeatree] at h
  | succ fuel ih =>
    intro reg t h n hn
    rcases makeatree_some sqrt fuel reg t h with ⟨b, _, rfl⟩ | ⟨_, kids, rfl, hk⟩
    · simp only [leafnode, leafnodes_leaf, List.mem_singleton] at hn
      exact ⟨"", b, by rw [hn, String.append_empty]; rfl⟩
    · rw [leafnodes_internal, List.mem_flatMap] at hn
      obtain ⟨i, _, hni⟩ := hn
      by_cases hlen : 1 ≤ (subregion (collisionpass sqrt reg) i).bodiesinregion.length
      · obtain ⟨w, b, hw⟩ := ih _ _ ((hk i).1 hlen) n hni
        rw [subregion_path] at hw
        exact ⟨pathnames i ++ w, b, by rw [hw, String.append_assoc]⟩
      · have hnil : (subregion (collisionpass sqrt reg) i).bodiesinregion = [] := by
          apply List.eq_nil_of_length_eq_zero
          omega
        rw [(hk i).2 hnil] at hni
        simp [leafnodes] at hni

/-- Two leaf nodes of the tree of a region that hold bodies at different positions: the path
of neither is a left part of the path of the other. -/
theorem leafnodes_streq (sqrt : K → K) (fuel : Nat) :
    ∀ (reg : region K) (t : Node K), Spacetree.makeatree sqrt fuel reg = some t →
      ∀ n1 ∈ leafnodes t, ∀ n2 ∈ leafnodes t,
        n1.solebody.position ≠ n2.solebody.position →
        streq n1.nodepath n2.nodepath = false := by
  induction fuel with
  | zero =>
    intro reg t h
    simp [Spacetree.makeatree] at h
  | succ fuel ih =>
    intro reg t h n1 hn1 n2 hn2 hne
    rcases makeatree_some sqrt fuel reg t h with ⟨b, _, rfl⟩ | ⟨_, kids, rfl, hk⟩
    · simp only [leafnode, leafnodes_leaf, List.mem_singleton] at hn1 hn2
      rw [hn1, hn2] at hne
      exact absurd rfl hne
    · rw [leafnodes_internal, List.mem_flatMap] at hn1 hn2
      obtain ⟨i, _, hi⟩ := hn1
      obtain ⟨j, _, hj⟩ := hn2
      have tree : ∀ k (n : Node K), n ∈ leafnodes (kids k) →
          Spacetree.makeatree sqrt fuel (subregion (collisionpass sqrt reg) k) =
            some (kids k) := by
        intro k n hnk
        by_cases hlen : 1 ≤ (subregion (collisionpass sqrt reg) k).bodiesinregion.length
        · exact (hk k).1 hlen
        · have hnil : (subregion (collisionpass sqrt reg) k).bodiesinregion = [] := by
            apply List.eq_nil_of_length_eq_zero
            omega
          rw [(hk k).2 hnil] at hnk
          simp [leafnodes] at hnk
      by_cases hij : i = j
      · subst hij
        exact ih _ _ (tree i n1 hi) n1 hi n2 hj hne
      · obtain ⟨w1, b1, e1⟩ := leafnodes_path sqrt fuel _ _ (tree i n1 hi) n1 hi
        obtain ⟨w2, b2, e2⟩ := leafnodes_path sqrt fuel _ _ (tree j n2 hj) n2 hj
        rw [subregion_path] at e1 e2
        rw [e1, e2]
        exact streq_diverge i j hij _ w1 w2

theorem used_sub (sqrt : K → K) (L : Node K) (fuel : Nat) :
    ∀ (reg : region K) (t : Node K), Spacetree.makeatree sqrt fuel reg = some t →
      ∀ n ∈ usedpointmasses sqrt L t, ∀ x ∈ leafnodes n, x ∈ leafnodes t := by
  induction fuel with
  | zero =>
    intro reg t h
    simp [Spacetree.makeatree] at h
  | succ fuel ih =>
    intro reg t h n hn x hx
    rcases makeatree_some sqrt fuel reg t h with ⟨b, _, rfl⟩ | ⟨_, kids, rfl, hk⟩
    · rw [used_leafnode] at hn
      split_ifs at hn
      · rw [List.mem_singleton.mp hn] at hx
        exact hx
      · simp at hn
    · rw [usedpointmasses] at hn
      split_ifs at hn with hc
      · rw [List.mem_singleton.mp hn] at hx
        exact hx
      · rw [List.mem_flatMap] at hn
        obtain ⟨i, _, hni⟩ := hn
        rw [leafnodes_internal, List.mem_flatMap]
        refine ⟨i, List.mem_finRange i, ?_⟩
        by_cases hlen : 1 ≤ (subregion (collisionpass sqrt reg) i).bodiesinregion.length
        · exact ih _ _ ((hk i).1 hlen) n hni x hx
        · have hnil : (subregion (collisionpass sqrt reg) i).bodiesinregion = [] := by
            apply List.eq_nil_of_length_eq_zero
            omega
          rw [(hk i).2 hnil] at hni
          simp [usedpointmasses] at hni

theorem countP_position_nodup (l : List (body K)) (h : (l.map body.position).Nodup)
    (b : body K) (hb : b ∈ l) :
    l.countP (fun c => decide (c.position = b.position)) = 1 := by
  induction l with
  | nil => simp at hb
  | cons a l ih =>
    rw [List.map_cons, List.nodup_cons] at h
    rcases List.mem_cons.mp hb with rfl | hb
    · rw [List.countP_cons_of_pos _ _ (by simp)]
      have : l.countP (fun c => decide (c.position = b.position)) = 0 := by
        rw [List.countP_eq_zero]
        intro c hc hcon
        simp only [decide_eq_true_eq] at hcon
        exact h.1 (hcon ▸ List.mem_map_of_mem _ hc)
      rw [this]
    · rw [List.countP_cons_of_neg _ _ (by
        simp only [decide_eq_true_eq]
        intro hcon
        exact h.1 (hcon ▸ List.mem_map_of_mem _ hb))]
      exact ih h.2 hb

theorem leaf_positions_nodup (sqrt : K → K) (fuel : Nat) (reg : region K) (t : Node K)
    (ht : Spacetree.makeatree sqrt fuel reg = some t) (hbox : reg.allinbox)
    (hdist : (reg.bodiesinregion.map body.position).Nodup) :
    ((leafbodies t).map body.position).Nodup := by
  have hperm := (makeatree_leaves_perm sqrt fuel reg t ht hbox).map body.position
  simp only [List.map_map] at hperm
  have e : (body.position ∘ body.frame : body K → Fin 3 → K) = body.position := rfl
  rw [e] at hperm
  exact hperm.nodup_iff.mpr hdist

/-- C27: for a tree that `makeatree` built from bodies at pairwise distinct positions inside the
box, a leaf `L` and another leaf `Kn`: the traversal `updatesingleacceleration(L, root)` adds to
the pending acceleration of the body of `L` the pull of the nodes of `usedpointmasses`, one
after the other; the body of `Kn` is at another position than that of `L` and is the body of
exactly one leaf of the tree; one of the used nodes has `Kn` among the leaves of its subtree
(`Kn` itself or a node above it), and the body of `Kn` occurs exactly once among the leaves
below all used nodes together: it is counted once, neither skipped nor counted twice. -/
theorem C27_each_other_leaf_once (sqrt : K → K) (fuel : Nat) (reg : region K) (t : Node K)
    (ht : Spacetree.makeatree sqrt fuel reg = some t) (hbox : reg.allinbox)
    (hdist : (reg.bodiesinregion.map body.position).Nodup)
    (L Kn : Node K) (hL : L ∈ leafnodes t) (hK : Kn ∈ leafnodes t) (hne : Kn ≠ L) :
    bodygen.updatesingleacceleration sqrt L t =
      L.setsolebody ((usedpointmasses sqrt L t).foldl
        (fun x n => addpointmass sqrt x n.cogOr0 n.cogmassOr0) L.solebody) ∧
    Kn.solebody.position ≠ L.solebody.position ∧
    (leafbodies t).countP (fun b => decide (b.position = Kn.solebody.position)) = 1 ∧
    (∃ n ∈ usedpointmasses sqrt L t, Kn ∈ leafnodes n ∧ ∀ x ∈ leafnodes n, x ∈ leafnodes t) ∧
    ((usedpointmasses sqrt L t).flatMap leafbodies).countP
      (fun b => decide (b.position = Kn.solebody.position)) = 1 := by
  have hnd := leaf_positions_nodup sqrt fuel reg t ht hbox hdist
  have hnd2 : ((leafnodes t).map (fun n => n.solebody.position)).Nodup := by
    rw [← leafnodes_solebody, List.map_map] at hnd
    exact hnd
  have hinj := List.inj_on_of_nodup_map hnd2
  have hpos : Kn.solebody.position ≠ L.solebody.position := fun h => hne (hinj hK hL h)
  have hKb : Kn.solebody ∈ leafbodies t := by
    rw [← leafnodes_solebody]
    exact List.mem_map_of_mem _ hK
  have hcount := countP_position_nodup (leafbodies t) hnd Kn.solebody hKb
  have hq : ∀ n ∈ leafnodes t, n.solebody.position = Kn.solebody.position →
      bodygen.comparetree L n = false := by
    intro n hn hnp
    have hnK : n = Kn := hinj hn hK hnp
    subst hnK
    obtain ⟨w, b, e⟩ := leafnodes_path sqrt fuel reg t ht n hn
    have hs := leafnodes_streq sqrt fuel reg t ht L hL n hn (Ne.symm hpos)
    rw [e, comparetree_leafnode]
    rw [e] at hs
    exact hs
  have hused := used_count sqrt L Kn.solebody.position fuel reg t ht hq
  rw [hcount] at hused
  refine ⟨usa_eq_used sqrt L t, hpos, hcount, ?_, hused⟩
  have hposc : 0 < ((usedpointmasses sqrt L t).flatMap leafbodies).countP
      (fun b => decide (b.position = Kn.solebody.position)) := by
    rw [hused]
    exact Nat.one_pos
  obtain ⟨b, hb, hbp⟩ := List.countP_pos_iff.mp hposc
  simp only [decide_eq_true_eq] at hbp
  obtain ⟨n, hn, hbn⟩ := List.mem_flatMap.mp hb
  rw [← leafnodes_solebody] at hbn
  obtain ⟨x, hx, hxb⟩ := List.mem_map.mp hbn
  have hsub := used_sub sqrt L fuel reg t ht n hn
  have hxK : x = Kn := hinj (hsub x hx) hK (by
    show x.solebody.position = Kn.solebody.position
    rw [hxb]
    exact hbp)
  exact ⟨n, hn, hxK ▸ hx, hsub⟩

/-- In the tree of a region whose octant 1 receives exactly one body and whose octant 0 receives
some body, `comparetree` of the leaf of octant 1 with the root returns `false`, although that
leaf is a child of the root. -/
theorem comparetree_misses_octant1 (sqrt : K → K) (reg : region K) (fuel : Nat) (t : Node K)
    (ht : Spacetree.makeatree sqrt fuel reg = some t) (hbox : reg.allinbox) (pL : Fin 3 → K)
    (h1 : (reg.bodiesinregion.map body.position).filter
      (fun p => decide (octantof reg p = 1)) = [pL])
    (h0 : (reg.bodiesinregion.map body.position).filter
      (fun p => decide (octantof reg p = 0)) ≠ []) :
    ∃ (bL : body K), bL.position = pL ∧
      leafnode (reg.regnodepath ++ pathnames 1) bL ∈ leafnodes t ∧
      bodygen.comparetree (leafnode (reg.regnodepath ++ pathnames 1) bL) t = false := by
  cases fuel with
  | zero => simp [Spacetree.makeatree] at ht
  | succ fuel =>
    rcases makeatree_some sqrt fuel reg t ht with ⟨b, hb, _⟩ | ⟨_, kids, rfl, hk⟩
    · exfalso
      rw [hb] at h1 h0
      simp only [List.map_cons, List.map_nil] at h1 h0
      by_cases hc : octantof reg b.position = 1
      · apply h0
        simp [hc]
      · simp [hc] at h1
    · have hp1 := subregion_positions sqrt reg hbox 1
      rw [h1] at hp1
      obtain ⟨bL, hbL, hpos⟩ := map_eq_singleton_body _ _ hp1
      have hk1 := makeatree_single sqrt fuel _ bL _ hbL ((hk 1).1 (by rw [hbL]; simp))
      rw [subregion_path] at hk1
      have hp0 := subregion_positions sqrt reg hbox 0
      have hne0 : (subregion (collisionpass sqrt reg) 0).bodiesinregion ≠ [] := by
        intro hnil
        rw [hnil] at hp0
        exact h0 hp0.symm
      have hlen0 : 1 ≤ (subregion (collisionpass sqrt reg) 0).bodiesinregion.length :=
        List.length_pos.mpr hne0
      have hk0 := (hk 0).1 hlen0
      have hnull0 := makeatree_not_null sqrt fuel _ _ hk0
      have hc0 : bodygen.comparetree (kids 1) (kids 0) = false := by
        apply comparetree_false_of_paths sqrt (kids 1) fuel _ _ hk0
        intro w
        rw [hk1, subregion_path]
        exact streq_dlr_dll _ _
      have hself : streq (kids 1).nodepath reg.regnodepath = false := by
        rw [hk1]
        show streq (reg.regnodepath ++ pathnames 1) reg.regnodepath = false
        rw [streq_append_self]
        decide
      have hcmp : bodygen.comparetree (kids 1)
          (Node.mk false reg.regnodepath
            (tempcogOf reg.bodiesinregion (totmassOf reg.bodiesinregion))
            (totmassOf reg.bodiesinregion) (nodeextent sqrt reg.bodiesinregion) body.garbage
            kids) = false := by
        rw [bodygen.comparetree, hself, finRange_eight]
        simp only [Bool.false_eq_true, if_false, List.foldr_cons, hnull0, hc0]
      refine ⟨bL, hpos, ?_, ?_⟩
      · rw [leafnodes_internal, List.mem_flatMap]
        exact ⟨1, List.mem_finRange 1, by rw [hk1]; simp [leafnode, leafnodes]⟩
      · rw [← hk1]
        exact hcmp

end UsedNodes

theorem twobodies_allinbox : twobodies.allinbox := by
  simp [twobodies, region.allinbox, inbox_iff]
  norm_num

theorem twobodies_tree : ∃ fuel t, Spacetree.makeatree Real.sqrt fuel twobodies = some t := by
  have hdist : (twobodies.bodiesinregion.map body.position).Nodup := by
    simp [twobodies, vec3_ne_of_zero_ne]
  obtain ⟨d, hd⟩ := exists_separated twobodies hdist
  obtain ⟨t, ht, _⟩ := makeatree_terminates Real.sqrt d twobodies (by simp [twobodies])
    twobodies_allinbox hd (d + 1) (by omega)
  exact ⟨d + 1, t, ht⟩

/-- C26 fails on the code: `makeatree` returns a tree for `twobodies`, and in every tree it
returns the leaf of the body at (6, 2, 2), with path "dlr", is a leaf of the tree while
`comparetree` of that leaf with the root returns `false`. -/
theorem C26_comparetree_misses_leaf :
    (∃ fuel t, Spacetree.makeatree Real.sqrt fuel twobodies = some t) ∧
    ∀ fuel t, Spacetree.makeatree Real.sqrt fuel twobodies = some t →
      ∃ bL : body ℝ, bL.position = ![6, 2, 2] ∧ leafnode "dlr" bL ∈ leafnodes t ∧
        bodygen.comparetree (leafnode "dlr" bL) t = false := by
  refine ⟨twobodies_tree, ?_⟩
  intro fuel t ht
  have e1 : octantof twobodies ![2, 2, 2] = 0 := by
    unfold octantof twobodies
    norm_num
  have e2 : octantof twobodies ![6, 2, 2] = 1 := by
    unfold octantof twobodies
    norm_num
  have hb : twobodies.bodiesinregion.map body.position = [![2, 2, 2], ![6, 2, 2]] := rfl
  have h1 : (twobodies.bodiesinregion.map body.position).filter
      (fun p => decide (octantof twobodies p = 1)) = [![6, 2, 2]] := by
    rw [hb]
    simp [List.filter, e1, e2]
  have h0 : (twobodies.bodiesinregion.map body.position).filter
      (fun p => decide (octantof twobodies p = 0)) ≠ [] := by
    rw [hb]
    simp [List.filter, e1, e2]
  obtain ⟨bL, hp, hmem, hcmp⟩ := comparetree_misses_octant1 Real.sqrt twobodies fuel t ht
    twobodies_allinbox ![6, 2, 2] h1 h0
  exact ⟨bL, hp, hmem, hcmp⟩

theorem twobodies_distinct : (twobodies.bodiesinregion.map body.position).Nodup := by
  simp [twobodies, vec3_ne_of_zero_ne]

theorem twobodies_leaves (fuel : Nat) (t : Node ℝ)
    (ht : Spacetree.makeatree Real.sqrt fuel twobodies = some t) :
    ∃ L Kn : Node ℝ, L ∈ leafnodes t ∧ Kn ∈ leafnodes t ∧ Kn ≠ L := by
  have hperm := makeatree_leaves_perm Real.sqrt fuel twobodies t ht twobodies_allinbox
  have node : ∀ b ∈ twobodies.bodiesinregion, ∃ n ∈ leafnodes t,
      n.solebody.position = b.position := by
    intro b hb
    have : b.frame ∈ (leafbodies t).map body.frame :=
      hperm.symm.subset (List.mem_map_of_mem _ hb)
    obtain ⟨l, hl, hlf⟩ := List.mem_map.mp this
    rw [← leafnodes_solebody] at hl
    obtain ⟨n, hn, hnl⟩ := List.mem_map.mp hl
    exact ⟨n, hn, by rw [hnl]; exact (frame_fields l b hlf).1⟩
  obtain ⟨n1, h1, p1⟩ := node ⟨![2, 2, 2], 0, 0, 0, 2, 1, 0⟩ (by simp [twobodies])
  obtain ⟨n2, h2, p2⟩ := node ⟨![6, 2, 2], 0, 0, 0, 3, 1, 1⟩ (by simp [twobodies])
  refine ⟨n1, n2, h1, h2, ?_⟩
  intro h
  rw [h, p1] at p2
  exact vec3_ne_of_zero_ne (2 : ℝ) 2 2 6 2 2 (by norm_num) p2

/-- Witness for C27: the two leaves of the tree of `twobodies`. -/
theorem C27_each_other_leaf_once_witness :
    ∃ (fuel : Nat) (t L Kn : Node ℝ), Spacetree.makeatree Real.sqrt fuel twobodies = some t ∧
      L ∈ leafnodes t ∧ Kn ∈ leafnodes t ∧ Kn ≠ L ∧
      ((usedpointmasses Real.sqrt L t).flatMap leafbodies).countP
        (fun b => decide (b.position = Kn.solebody.position)) = 1 := by
  obtain ⟨fuel, t, ht⟩ := twobodies_tree
  obtain ⟨L, Kn, hL, hK, hne⟩ := twobodies_leaves fuel t ht
  exact ⟨fuel, t, L, Kn, ht, hL, hK, hne,
    (C27_each_other_leaf_once Real.sqrt fuel twobodies t ht twobodies_allinbox
      twobodies_distinct L Kn hL hK hne).2.2.2.2⟩


section Rounding

end Rounding


section PaddedBox

variable {K : Type} [LinearOrderedField K]

theorem treegen_paddedspace (sqrt : K → K) (fuel : Nat) (low high : K → K)
    (bv : List (body K)) :
    Spacetree.treegen sqrt fuel (paddedspace low high bv) =
      Spacetree.makeatree sqrt fuel (paddedspace low high bv) := rfl

end PaddedBox

section FirstChild

end FirstChild

section LonelyLeaf

variable {K : Type} [LinearOrderedField K]

end LonelyLeaf


section PairInBox

variable {K : Type} [LinearOrderedField K]

end PairInBox

section FarStore

end FarStore

